import Mathlib

/-!
# Dead-code elimination pass: `src/passes/DeadCode.cpp`

A shallow embedding of the pass `DeadCode` (mark and sweep over the use-def
graph, pruning of basic blocks without predecessors, module-level sweep of
unreferenced functions and globals) and theorems about it.

Conventions of the embedding.

* Every IR entity has an address; addresses are natural numbers (`id`).
  A pointer to an entity is its `id`, dereferencing a pointer is a lookup
  in the module.
* The pass object is the record `DeadCode`: the module `m_`, the map
  `marked`, the deque `work_list` and the counter `ins_count`.
  A `Function *` argument is the position `k` of the function in
  `m_->get_functions()`.
* The purity analysis `func_info` is a parameter
  `is_pure_function : Option Nat → Bool` (`none` is the null pointer).
  The definitions with the suffix `_raising` are the same methods for an
  analysis `Option Nat → Option Bool` that can raise an exception (`none`);
  for an analysis that never raises they agree with the plain ones.
* Loops whose termination is not structural carry fuel and answer `none`
  when the fuel runs out; the fuel that `mark` and `run` supply is shown to
  be enough.
-/

namespace DCE

/-! ## The IR substrate -/

/-- Modelled from the spec: the IR class `Value`, which `DeadCode.cpp` uses
through `Instruction.hpp`. A value is an entity that can be referenced as
an operand; the constructor records the dynamic type of the referenced
entity (what `dynamic_cast` observes) and its address. -/
inductive Value where
  | instruction (id : Nat)
  | function (id : Nat)
  | global_variable (id : Nat)
  | basic_block (id : Nat)
  | argument (id : Nat)
  | constant (c : Int)
  deriving DecidableEq, Repr

/-- Modelled from the spec: the IR class `Use`, an entry of a use-list: the
edge `(user, operand position)`; the user is the address of an instruction. -/
abbrev Use := Nat × Nat

/-- Modelled from the spec: the kind tag of the IR class `Instruction`, "at
minimum Call, Branch, Return, Store and other (arithmetic, load, ...)". -/
inductive OpID where
  | call
  | br
  | ret
  | store
  | load
  | binary
  | phi
  | other
  deriving DecidableEq, Repr

/-- Modelled from the spec: the IR class `Instruction`, with its address, kind
tag and ordered operand sequence. -/
structure Instruction where
  id : Nat
  op : OpID
  operands : List Value
  deriving DecidableEq, Repr

/-- Modelled from the spec: the IR class `BasicBlock`; a basic block owns an
ordered sequence of instructions. -/
structure BasicBlock where
  id : Nat
  instructions : List Instruction
  deriving DecidableEq, Repr

/-- Modelled from the spec: the IR class `Function`; a function owns an
ordered sequence of basic blocks and has one designated entry block
(`entry_block` is its address, what `get_entry_block` returns). -/
structure Function where
  id : Nat
  name : String
  entry_block : Nat
  basic_blocks : List BasicBlock
  deriving DecidableEq, Repr

/-- Modelled from the spec: the IR class `GlobalVariable`. -/
structure GlobalVariable where
  id : Nat
  deriving DecidableEq, Repr

/-- Modelled from the spec: the IR class `Module`; the module owns its
functions and global variables. The use-lists of all values are kept in one
table, keyed by the value; a value without a row has the empty use-list. -/
structure Module where
  functions : List Function
  global_variable : List GlobalVariable
  use_list : List (Value × List Use)
  deriving DecidableEq, Repr

/-- Modelled from the spec: the kind test `Instruction::is_call`. -/
def Instruction.is_call (ins : Instruction) : Bool := ins.op == OpID.call

/-- Modelled from the spec: the kind test `Instruction::is_br`. -/
def Instruction.is_br (ins : Instruction) : Bool := ins.op == OpID.br

/-- Modelled from the spec: the kind test `Instruction::is_ret`. -/
def Instruction.is_ret (ins : Instruction) : Bool := ins.op == OpID.ret

/-- Modelled from the spec: the kind test `Instruction::is_store`. -/
def Instruction.is_store (ins : Instruction) : Bool := ins.op == OpID.store

/-- All instructions of a function, block after block: the order in which
the nested loops of `mark` and `sweep` visit them. -/
def Function.get_instructions (f : Function) : List Instruction :=
  (f.basic_blocks.map BasicBlock.instructions).flatten

/-- All instructions of the module. -/
def Module.get_instructions (m : Module) : List Instruction :=
  (m.functions.map Function.get_instructions).flatten

/-- Dereferencing an `Instruction *`: the instruction stored at this address. -/
def Module.find_instruction (m : Module) (id : Nat) : Option Instruction :=
  m.get_instructions.find? (fun ins => ins.id == id)

/-- Modelled from the spec: `Instruction::get_function`, the function that
owns the block that owns the instruction at this address (`none` when no
function of the module owns it). -/
def Module.get_function (m : Module) (id : Nat) : Option Nat :=
  (m.functions.find? (fun f => f.get_instructions.any (fun ins => ins.id == id))).map Function.id

/-- Modelled from the spec: `Value::get_use_list`. -/
def Module.get_use_list (m : Module) (v : Value) : List Use :=
  match m.use_list.find? (fun row => row.1 == v) with
  | some row => row.2
  | none => []

/-- Modelled from the spec: `Value::remove_use`, the edge `(user, arg_no)`
leaves the use-list of `v`. -/
def Module.remove_use (m : Module) (v : Value) (u : Use) : Module :=
  { m with use_list := m.use_list.map (fun row =>
      if row.1 = v then (row.1, row.2.filter (fun e => e != u)) else row) }

/-- Apply `g` to the function at position `k`. -/
def Module.modify_function (m : Module) (k : Nat) (g : Function → Function) : Module :=
  { m with functions := m.functions.modify g k }

/-- Apply `g` to the instruction sequence of every block of the function. -/
def Function.map_instructions (f : Function) (g : List Instruction → List Instruction) :
    Function :=
  { f with basic_blocks := f.basic_blocks.map (fun bb => { bb with instructions := g bb.instructions }) }

/-- Modelled from the spec: the successors of a block are the blocks its
terminator branches to; the terminator is the last instruction of the block,
and only a branch has targets. -/
def BasicBlock.get_succ_basic_blocks (bb : BasicBlock) : List Nat :=
  match bb.instructions.getLast? with
  | some t =>
    if t.is_br then
      t.operands.filterMap (fun v => match v with
        | Value.basic_block b => some b
        | _ => none)
    else []
  | none => []

/-- Modelled from the spec: `BasicBlock::get_pre_basic_blocks`, the
predecessor set derived from the terminators of the whole function: the
blocks of `func` whose terminator branches to `bb`. -/
def Function.get_pre_basic_blocks (func : Function) (bb : BasicBlock) : List Nat :=
  (func.basic_blocks.filter (fun p => decide (bb.id ∈ p.get_succ_basic_blocks))).map BasicBlock.id

/-- Modelled from the spec: `bb->erase_from_parent(); delete bb;`. The block
leaves the block sequence of its function and its instructions are
discarded with it; their use-list entries are not cleaned. -/
def Function.erase_basic_block (bb : Nat) (func : Function) : Function :=
  { func with basic_blocks := func.basic_blocks.filter (fun b => b.id != bb) }

/-- Modelled from the spec: the first half of `User::remove_all_operands`,
the instruction leaves the use-list of each of its operands. -/
def Module.remove_uses_of (m : Module) (ins : Instruction) : Module :=
  ins.operands.enum.foldl (fun m p => m.remove_use p.2 (ins.id, p.1)) m

/-- Modelled from the spec: the second half of `User::remove_all_operands`,
the operand sequence of the instruction at this address is cleared. -/
def Function.clear_operands (inst : Nat) (func : Function) : Function :=
  func.map_instructions (fun l => l.map (fun ins =>
    if ins.id = inst then { ins with operands := [] } else ins))

/-- Modelled from the spec: `inst->remove_all_operands()` for an instruction
of the function at position `k`. -/
def Module.remove_all_operands (m : Module) (k : Nat) (ins : Instruction) : Module :=
  (m.remove_uses_of ins).modify_function k (Function.clear_operands ins.id)

/-- Modelled from the spec: `inst->get_parent()->get_instructions().erase(inst)`,
the instruction at this address leaves the instruction sequence of its
block. -/
def Function.erase_instruction (inst : Nat) (func : Function) : Function :=
  func.map_instructions (fun l => l.filter (fun ins => ins.id != inst))

/-! ## The pass -/

/-- The members of the pass object: the module `m_`, `marked` (the keys of
the map whose value is `true`; `marked[p]` on any other key reads `false`),
the deque `work_list` and the counter `ins_count`. -/
structure DeadCode where
  m_ : Module
  marked : List Nat
  work_list : List Nat
  ins_count : Nat
  deriving DecidableEq, Repr

/-- The expression `dynamic_cast<Function *>(call_inst->get_operand(0))`:
operand 0 cast to `Function *`; the cast of anything that is not a function
is the null pointer. -/
def Instruction.get_callee (ins : Instruction) : Option Nat :=
  match ins.operands[0]? with
  | some (Value.function f) => some f
  | _ => none

/-- The predicate `DeadCode::is_critical`. -/
def is_critical (is_pure_function : Option Nat → Bool) (ins : Instruction) : Bool :=
  if ins.is_call then
    let callee := ins.get_callee
    if is_pure_function callee then false
    else true
  else if ins.is_br || ins.is_ret then true
  else if ins.is_store then true
  else false

/-- The body of the second loop of `DeadCode::clear_basic_blocks`. -/
def erase_block (k : Nat) (self : DeadCode) (bb : Nat) : DeadCode :=
  { self with m_ := self.m_.modify_function k (Function.erase_basic_block bb) }

/-- The predicate of the scan of `DeadCode::clear_basic_blocks`: the block has
no predecessor and is not the entry block. -/
def is_dead_block (func : Function) (bb : BasicBlock) : Bool :=
  (func.get_pre_basic_blocks bb).isEmpty && bb.id != func.entry_block

/-- The method `DeadCode::clear_basic_blocks`: one scan collects `to_erase`,
then every collected block is erased. -/
def clear_basic_blocks (k : Nat) (self : DeadCode) : Bool × DeadCode :=
  match self.m_.functions[k]? with
  | none => (false, self)
  | some func =>
    let to_erase : List Nat :=
      (func.basic_blocks.filter (is_dead_block func)).map BasicBlock.id
    let changed : Bool := !to_erase.isEmpty
    (changed, to_erase.foldl (erase_block k) self)

/-- The body of the `for` loop of `DeadCode::mark(Instruction *)` for the
operand `op` of the instruction at address `ins`. -/
def mark_operand (ins : Nat) (self : DeadCode) (op : Value) : DeadCode :=
  match op with
  | Value.instruction d =>
    if d ∈ self.marked then self
    else if self.m_.get_function d ≠ self.m_.get_function ins then self
    else { self with marked := d :: self.marked, work_list := self.work_list ++ [d] }
  | _ => self

/-- The method `DeadCode::mark(Instruction *)`: every operand that is an
instruction, is not marked and lies in the same function is marked and
queued. -/
def mark_instruction (ins : Nat) (self : DeadCode) : DeadCode :=
  match self.m_.find_instruction ins with
  | none => self
  | some i => i.operands.foldl (mark_operand ins) self

/-- The `while` loop of `DeadCode::mark(Function *)`. -/
def mark_loop : Nat → DeadCode → Option DeadCode
  | 0, _ => none
  | fuel + 1, self =>
    match self.work_list with
    | [] => some self
    | now :: rest => mark_loop fuel (mark_instruction now { self with work_list := rest })

/-- The body of the first loop of `DeadCode::mark(Function *)`. -/
def mark_if_critical (is_pure_function : Option Nat → Bool) (self : DeadCode)
    (ins : Instruction) : DeadCode :=
  if is_critical is_pure_function ins then
    { self with marked := ins.id :: self.marked, work_list := self.work_list ++ [ins.id] }
  else self

/-- The first loop of `DeadCode::mark(Function *)`: every critical
instruction of the function is marked and queued. -/
def mark_critical (is_pure_function : Option Nat → Bool) (func : Function)
    (self : DeadCode) : DeadCode :=
  func.basic_blocks.foldl (fun s bb =>
    bb.instructions.foldl (mark_if_critical is_pure_function) s) self

/-- The method `DeadCode::mark(Function *)`. -/
def mark (is_pure_function : Option Nat → Bool) (k : Nat) (self : DeadCode) :
    Option DeadCode :=
  match self.m_.functions[k]? with
  | none => none
  | some func =>
    mark_loop (func.get_instructions.length + self.m_.get_instructions.length + 1)
      (mark_critical is_pure_function func { self with work_list := [], marked := [] })

/-- The first loop of `DeadCode::sweep`: the instructions of the function
that are not marked. The set `wait_del` is kept as the list of its elements
in scan order; when the instructions of the function have distinct
addresses, the order in which the later loops visit it does not change their
result (`sweep_order_irrelevant`). -/
def collect_wait_del (func : Function) (marked : List Nat) : List Instruction :=
  func.basic_blocks.foldl (fun w bb =>
    bb.instructions.foldl (fun w ins =>
      if ins.id ∈ marked then w else w ++ [ins]) w) []

/-- Dereferencing an `Instruction *` that points into a block of `f`: the
instruction of `f` stored at this address, as it is now. -/
def Function.find_instruction (f : Function) (id : Nat) : Option Instruction :=
  f.get_instructions.find? (fun ins => ins.id == id)

/-- The body of the second loop of `DeadCode::sweep`,
`inst->remove_all_operands()`. The pointer `inst` is the address of the
collected instruction; it is dereferenced in the function as it is when the
call is made, so the operands that are dropped are the ones the instruction
has then. When no instruction of the function has this address any more
there is nothing to dereference, and the state is left as it is. -/
def detach_one (k : Nat) (self : DeadCode) (ins : Instruction) : DeadCode :=
  match (self.m_.functions[k]?).bind (fun f => f.find_instruction ins.id) with
  | none => self
  | some inst => { self with m_ := self.m_.remove_all_operands k inst }

/-- The body of the third loop of `DeadCode::sweep`. -/
def erase_one (k : Nat) (self : DeadCode) (ins : Instruction) : DeadCode :=
  { self with m_ := self.m_.modify_function k (Function.erase_instruction ins.id) }

/-- The second loop of `DeadCode::sweep`: every collected instruction drops
its operands. -/
def detach_all (k : Nat) (wait_del : List Instruction) (self : DeadCode) : DeadCode :=
  wait_del.foldl (detach_one k) self

/-- The third loop of `DeadCode::sweep`: every collected instruction is
erased from its block. -/
def erase_all (k : Nat) (wait_del : List Instruction) (self : DeadCode) : DeadCode :=
  wait_del.foldl (erase_one k) self

/-- The method `DeadCode::sweep`. -/
def sweep (k : Nat) (self : DeadCode) : Bool × DeadCode :=
  match self.m_.functions[k]? with
  | none => (false, self)
  | some func =>
    let wait_del := collect_wait_del func self.marked
    let s := erase_all k wait_del (detach_all k wait_del self)
    (!wait_del.isEmpty, { s with ins_count := s.ins_count + wait_del.length })

/-- The body of the `for` loop of `DeadCode::run` for one function. -/
def run_function (is_pure_function : Option Nat → Bool) (k : Nat) (self : DeadCode) :
    Option (Bool × DeadCode) :=
  let r1 := clear_basic_blocks k self
  match mark is_pure_function k r1.2 with
  | none => none
  | some s2 =>
    let r3 := sweep k s2
    some (r1.1 || r3.1, r3.2)

/-- The `for` loop of `DeadCode::run` over the positions `ks`, with the
running value of `changed`. -/
def run_functions (is_pure_function : Option Nat → Bool) :
    List Nat → Bool → DeadCode → Option (Bool × DeadCode)
  | [], changed, self => some (changed, self)
  | k :: ks, changed, self =>
    match run_function is_pure_function k self with
    | none => none
    | some r => run_functions is_pure_function ks (changed || r.1) r.2

/-- One round of the `do`-`while` loop of `DeadCode::run`. -/
def run_round (is_pure_function : Option Nat → Bool) (self : DeadCode) :
    Option (Bool × DeadCode) :=
  run_functions is_pure_function (List.range self.m_.functions.length) false self

/-- The `do`-`while` loop of `DeadCode::run`. -/
def run_loop (is_pure_function : Option Nat → Bool) : Nat → DeadCode → Option DeadCode
  | 0, _ => none
  | fuel + 1, self =>
    match run_round is_pure_function self with
    | none => none
    | some r => if r.1 then run_loop is_pure_function fuel r.2 else some r.2

/-- The number of blocks plus the number of instructions of a function. -/
def Function.size (f : Function) : Nat :=
  f.basic_blocks.length + f.get_instructions.length

/-- The number of blocks plus the number of instructions of the module. -/
def Module.size (m : Module) : Nat :=
  (m.functions.map Function.size).sum

/-- The method `DeadCode::run`, for the purity analysis `is_pure_function`
that `func_info->run()` computed. -/
def run (is_pure_function : Option Nat → Bool) (self : DeadCode) : Option DeadCode :=
  run_loop is_pure_function (self.m_.size + 1) self

/-- The method `DeadCode::sweep_globally`. The erase loops take the collected
functions and globals out of the module. What erasing a function does to
the use-lists of the values its instructions reference is not in
`DeadCode.cpp`; the use-list table is left as it is, and no theorem below
reads a use-list after `sweep_globally`. -/
def sweep_globally (self : DeadCode) : DeadCode :=
  let unused_funcs : List Nat :=
    (self.m_.functions.filter (fun f_r =>
      (self.m_.get_use_list (Value.function f_r.id)).length == 0 && f_r.name != "main")).map
      Function.id
  let unused_globals : List Nat :=
    (self.m_.global_variable.filter (fun glob_var_r =>
      (self.m_.get_use_list (Value.global_variable glob_var_r.id)).length == 0)).map
      GlobalVariable.id
  let s1 := unused_funcs.foldl (fun s func =>
    { s with m_ := { s.m_ with functions := s.m_.functions.filter (fun f => f.id != func) } }) self
  unused_globals.foldl (fun s glob =>
    { s with m_ := { s.m_ with
        global_variable := s.m_.global_variable.filter (fun g => g.id != glob) } }) s1

/-! ## Well-formed modules and liveness -/

/-- Distinct entities have distinct addresses: no two instructions of the
module share an address, no two functions do, and no two blocks of one
function do. -/
def Module.WellFormed (m : Module) : Prop :=
  (m.get_instructions.map Instruction.id).Nodup ∧
  (m.functions.map Function.id).Nodup ∧
  ∀ f ∈ m.functions, (f.basic_blocks.map BasicBlock.id).Nodup

instance (m : Module) : Decidable m.WellFormed := by
  unfold Module.WellFormed
  infer_instance

/-- The least set of addresses that contains every critical instruction of
`func` and is closed under: `x` is in the set, `d` is an operand of `x`, `d`
is an instruction of `func`, then `d` is in the set. -/
inductive Live (is_pure_function : Option Nat → Bool) (func : Function) : Nat → Prop where
  | critical (ins : Instruction) :
      ins ∈ func.get_instructions → is_critical is_pure_function ins = true →
      Live is_pure_function func ins.id
  | operand (x : Instruction) (d : Nat) :
      x ∈ func.get_instructions → Live is_pure_function func x.id →
      Value.instruction d ∈ x.operands →
      (∃ y ∈ func.get_instructions, y.id = d) →
      Live is_pure_function func d

/-- Erase from the function every block whose address is in `ids`. -/
def Function.erase_basic_blocks (ids : List Nat) (func : Function) : Function :=
  { func with basic_blocks := func.basic_blocks.filter (fun b => decide (b.id ∉ ids)) }

/-- Clear the operands of every instruction of the function whose address is in `ids`. -/
def Function.clear_operands_of (ids : List Nat) (func : Function) : Function :=
  func.map_instructions (fun l => l.map (fun ins =>
    if ins.id ∈ ids then { ins with operands := [] } else ins))

/-- Erase from the function every instruction whose address is in `ids`. -/
def Function.erase_instructions (ids : List Nat) (func : Function) : Function :=
  func.map_instructions (fun l => l.filter (fun ins => decide (ins.id ∉ ids)))

/-- The number of instructions of the module whose address is not in `marked`. -/
def Module.count_unmarked (m : Module) (marked : List Nat) : Nat :=
  (m.get_instructions.filter (fun ins => decide (ins.id ∉ marked))).length

/-- The pending work of the loop of `mark`: the length of the work list plus
the number of instructions of the module that are not marked. -/
def DeadCode.pending (s : DeadCode) : Nat :=
  s.work_list.length + s.m_.count_unmarked s.marked

/-- Every address in the work list is the address of an instruction of the module. -/
def DeadCode.work_list_owned (s : DeadCode) : Prop :=
  ∀ id ∈ s.work_list, (s.m_.get_function id).isSome = true

/-- The invariant of the loop of `mark` on a well-formed module `m` whose
function at position `k` is `func`. -/
structure MarkInv (fi : Option Nat → Bool) (m : Module) (func : Function) (s : DeadCode) :
    Prop where
  m_eq : s.m_ = m
  queued_marked : ∀ id ∈ s.work_list, id ∈ s.marked
  sound : ∀ id ∈ s.marked, Live fi func id
  critical : ∀ ins ∈ func.get_instructions, is_critical fi ins = true → ins.id ∈ s.marked
  closed : ∀ x ∈ func.get_instructions, x.id ∈ s.marked → x.id ∉ s.work_list →
    ∀ d, Value.instruction d ∈ x.operands → (∃ y ∈ func.get_instructions, y.id = d) →
      d ∈ s.marked

/-- The function `main` of the examples: a dead cycle of a phi and a pure call
(1, 2), a load kept by a store (3, 6), an unused pure call (4), an impure
call (5), a branch, a return and an orphan block 12. -/
def example_main : Function :=
  { id := 100, name := "main", entry_block := 10,
    basic_blocks := [
      { id := 10, instructions := [
          { id := 1, op := OpID.phi, operands := [Value.instruction 2] },
          { id := 2, op := OpID.call, operands := [Value.function 101, Value.instruction 1] },
          { id := 3, op := OpID.load, operands := [Value.global_variable 50] },
          { id := 4, op := OpID.call, operands := [Value.function 101, Value.instruction 3] },
          { id := 5, op := OpID.call, operands := [Value.function 102] },
          { id := 6, op := OpID.store,
            operands := [Value.instruction 3, Value.global_variable 50] },
          { id := 7, op := OpID.br, operands := [Value.basic_block 11] }] },
      { id := 11, instructions := [
          { id := 8, op := OpID.ret, operands := [] }] },
      { id := 12, instructions := [
          { id := 9, op := OpID.call, operands := [Value.function 102] },
          { id := 13, op := OpID.br, operands := [Value.basic_block 11] }] }] }

/-- The module of the examples: `main` and two declarations, the pure
`square` (101) and the impure `output` (102). -/
def example_module : Module :=
  { functions := [
      example_main,
      { id := 101, name := "square", entry_block := 20, basic_blocks := [] },
      { id := 102, name := "output", entry_block := 30, basic_blocks := [] }],
    global_variable := [{ id := 50 }, { id := 51 }],
    use_list := [
      (Value.instruction 1, [(2, 1)]),
      (Value.instruction 2, [(1, 0)]),
      (Value.instruction 3, [(4, 1), (6, 0)]),
      (Value.function 101, [(2, 0), (4, 0)]),
      (Value.function 102, [(5, 0), (9, 0)]),
      (Value.global_variable 50, [(3, 0), (6, 1)]),
      (Value.basic_block 11, [(7, 0), (13, 0)])] }

/-- The purity oracle of the examples: only function 101 is pure. -/
def example_oracle : Option Nat → Bool := fun callee => callee == some 101

/-- The pass object of the examples, with stale marks and a stale work list. -/
def example_pass : DeadCode :=
  { m_ := example_module, marked := [1, 2], work_list := [4], ins_count := 0 }

/-- Block `b'` is what is left of block `b`: the same address, a subsequence
of its instructions, and every critical instruction of `b` still there. -/
def BlockKept (fi : Option Nat → Bool) (b b' : BasicBlock) : Prop :=
  b'.id = b.id ∧ b'.instructions.Sublist b.instructions ∧
  ∀ ins ∈ b.instructions, is_critical fi ins = true → ins ∈ b'.instructions

/-- Function `f'` is what is left of function `f`: the same address, name and
entry block, a subsequence of its blocks and of its instructions, every
remaining block is what is left of a block of `f`, and the entry block is
still there. -/
def FunctionShrinks (fi : Option Nat → Bool) (f f' : Function) : Prop :=
  f'.id = f.id ∧ f'.name = f.name ∧ f'.entry_block = f.entry_block ∧
  (f'.basic_blocks.map BasicBlock.id).Sublist (f.basic_blocks.map BasicBlock.id) ∧
  f'.get_instructions.Sublist f.get_instructions ∧
  (∀ b' ∈ f'.basic_blocks, ∃ b ∈ f.basic_blocks, BlockKept fi b b') ∧
  (∀ b ∈ f.basic_blocks, b.id = f.entry_block → b.id ∈ f'.basic_blocks.map BasicBlock.id)

/-- Module `m'` is what is left of module `m`: function by function. -/
def ModuleShrinks (fi : Option Nat → Bool) (m m' : Module) : Prop :=
  List.Forall₂ (FunctionShrinks fi) m.functions m'.functions

/-- Every operand edge has its use-list entry: for every instruction of the
module and every operand position, the use-list of the operand holds the
edge back to the instruction. -/
def Module.UsesComplete (m : Module) : Prop :=
  ∀ ins ∈ m.get_instructions, ∀ pv ∈ ins.operands.enum,
    (ins.id, pv.1) ∈ m.get_use_list pv.2

/-- Every use-list entry is an operand edge: the user is an instruction of
the module and its operand at that position is the value. -/
def Module.UsesSound (m : Module) : Prop :=
  ∀ row ∈ m.use_list, ∀ e ∈ row.2,
    ∃ ins ∈ m.get_instructions, ins.id = e.1 ∧ ins.operands[e.2]? = some row.1

instance (m : Module) : Decidable m.UsesComplete := by
  unfold Module.UsesComplete
  infer_instance

instance (m : Module) : Decidable m.UsesSound := by
  unfold Module.UsesSound
  infer_instance

/-- The instruction at address `u` was in a block of the module `m0` that is
no longer in the module `m`. -/
def Discarded (m0 m : Module) (u : Nat) : Prop :=
  ∃ (k : Nat) (func : Function) (bb : BasicBlock),
    m0.functions[k]? = some func ∧ bb ∈ func.basic_blocks ∧
    u ∈ bb.instructions.map Instruction.id ∧
    ∀ func', m.functions[k]? = some func' → bb.id ∉ func'.basic_blocks.map BasicBlock.id

/-- The invariant of `run` on the use-lists, relative to the module `m0` the
run started from. -/
structure UseInv (fi : Option Nat → Bool) (m0 m : Module) : Prop where
  wf : m.WellFormed
  shrinks : ModuleShrinks fi m0 m
  complete : ∀ ins ∈ m.get_instructions, ∀ (p : Nat) (v : Value),
    ins.operands[p]? = some v → (ins.id, p) ∈ m.get_use_list v
  valid : ∀ (v : Value) (e : Use), e ∈ m.get_use_list v →
    ∀ ins ∈ m.get_instructions, ins.id = e.1 → ins.operands[e.2]? = some v
  origin : ∀ (v : Value) (e : Use), e ∈ m.get_use_list v →
    (∃ ins ∈ m.get_instructions, ins.id = e.1) ∨ Discarded m0 m e.1

/-- Keep in every use-list the entries that `keep` accepts. -/
def Module.filter_uses (m : Module) (keep : Value → Use → Bool) : Module :=
  { m with use_list := m.use_list.map (fun row => (row.1, row.2.filter (keep row.1))) }

/-- The edge `e` in the use-list of `w` is an operand edge of `ins`. -/
def Instruction.has_edge (ins : Instruction) (w : Value) (e : Use) : Bool :=
  ins.operands.enum.any (fun pv => decide (pv.2 = w) && (e == (ins.id, pv.1)))

/-- The use-def edge of `func` from the instruction at address `x` to its
operand at address `d`, both instructions of `func`. -/
def OperandEdge (func : Function) (x d : Nat) : Prop :=
  ∃ ins ∈ func.get_instructions, ins.id = x ∧ Value.instruction d ∈ ins.operands ∧
    ∃ y ∈ func.get_instructions, y.id = d

/-- The body of the loop of `DeadCode::sweep_globally` that erases functions. -/
def erase_function (self : DeadCode) (func : Nat) : DeadCode :=
  { self with m_ := { self.m_ with functions := self.m_.functions.filter (fun f => f.id != func) } }

/-- The body of the loop of `DeadCode::sweep_globally` that erases globals. -/
def erase_global (self : DeadCode) (glob : Nat) : DeadCode :=
  { self with m_ := { self.m_ with
      global_variable := self.m_.global_variable.filter (fun g => g.id != glob) } }

/-- The call of the `PureSquare` example: `x = call PureSquare(5)`. -/
def square_call : Instruction :=
  { id := 1, op := OpID.call, operands := [Value.function 101, Value.constant 5] }

/-- The entry block of `main` in the `PureSquare` example. -/
def square_entry : BasicBlock :=
  { id := 10, instructions := [square_call, { id := 2, op := OpID.ret, operands := [] }] }

/-- The function `main` of the `PureSquare` example. -/
def square_main : Function :=
  { id := 100, name := "main", entry_block := 10, basic_blocks := [square_entry] }

/-- The function `PureSquare` of the example, a declaration. -/
def square_callee : Function :=
  { id := 101, name := "PureSquare", entry_block := 20, basic_blocks := [] }

/-- The module of the `PureSquare` example: `main` calls the pure function
`PureSquare` (101) once, in its entry block, and does not use the result. -/
def square_module : Module :=
  { functions := [square_main, square_callee],
    global_variable := [],
    use_list := [
      (Value.function 101, [(1, 0)]),
      (Value.constant 5, [(1, 1)])] }

/-- The pass object of the `PureSquare` example. -/
def square_pass : DeadCode :=
  { m_ := square_module, marked := [], work_list := [], ins_count := 0 }

/-- The successor edge of `func` from the block at address `p` to the block at
address `b`: the terminator of `p` branches to `b`, both blocks of `func`. -/
def BlockEdge (func : Function) (p b : Nat) : Prop :=
  ∃ pb ∈ func.basic_blocks, pb.id = p ∧ b ∈ pb.get_succ_basic_blocks ∧
    ∃ bb ∈ func.basic_blocks, bb.id = b

/-- The function of the unreachable-loop example: the entry block 10 returns,
the blocks 20 and 21 branch to each other. -/
def loop_main : Function :=
  { id := 100, name := "main", entry_block := 10,
    basic_blocks := [
      { id := 10, instructions := [{ id := 1, op := OpID.ret, operands := [] }] },
      { id := 20, instructions := [{ id := 2, op := OpID.br, operands := [Value.basic_block 21] }] },
      { id := 21, instructions := [{ id := 3, op := OpID.br, operands := [Value.basic_block 20] }] }] }

/-- The pass object of the unreachable-loop example. -/
def loop_pass : DeadCode :=
  { m_ := { functions := [loop_main], global_variable := [],
            use_list := [(Value.basic_block 21, [(2, 0)]), (Value.basic_block 20, [(3, 0)])] },
    marked := [], work_list := [], ins_count := 0 }

/-- The pass object of the malformed-call example: the call 1 of `main` has
an argument, not a function, as operand 0. -/
def malformed_pass : DeadCode :=
  { m_ := { functions := [
              { id := 100, name := "main", entry_block := 10,
                basic_blocks := [
                  { id := 10, instructions := [
                      { id := 1, op := OpID.call, operands := [Value.argument 7] },
                      { id := 2, op := OpID.ret, operands := [] }] }] }],
            global_variable := [],
            use_list := [(Value.argument 7, [(1, 0)])] },
    marked := [], work_list := [], ins_count := 0 }

/-- The sequence of instructions that the `while` loop of
`DeadCode::mark(Function *)` takes from the front of the work list, in order
(`now` of each iteration). It follows `mark_loop` step by step. -/
def mark_loop_popped : Nat → DeadCode → List Nat
  | 0, _ => []
  | fuel + 1, self =>
    match self.work_list with
    | [] => []
    | now :: rest =>
      now :: mark_loop_popped fuel (mark_instruction now { self with work_list := rest })

/-- A function with a live operand cycle: the phi 1 and the addition 2 use
each other, and the store 3 uses the phi. -/
def cyclic_main : Function :=
  { id := 100, name := "main", entry_block := 10,
    basic_blocks := [
      { id := 10, instructions := [
          { id := 1, op := OpID.phi, operands := [Value.instruction 2] },
          { id := 2, op := OpID.binary, operands := [Value.instruction 1, Value.instruction 1] },
          { id := 3, op := OpID.store,
            operands := [Value.instruction 1, Value.global_variable 50] },
          { id := 4, op := OpID.ret, operands := [] }] }] }

/-- The pass object of the operand-cycle example, with stale marks and a
stale work list. -/
def cyclic_pass : DeadCode :=
  { m_ := { functions := [cyclic_main], global_variable := [{ id := 50 }],
            use_list := [
              (Value.instruction 1, [(2, 0), (2, 1), (3, 0)]),
              (Value.instruction 2, [(1, 0)]),
              (Value.global_variable 50, [(3, 1)])] },
    marked := [2, 7], work_list := [1, 1], ins_count := 0 }

/-- The blocks that repeated pruning takes out of `func`: the least set of
addresses such that a block other than the entry block, every predecessor of
which in `func` is in the set, is in the set. A block other than the entry
block that has no predecessor is in the set outright. -/
inductive Prunable (func : Function) : Nat → Prop where
  | intro (b : Nat) :
      b ≠ func.entry_block →
      (∀ p ∈ func.basic_blocks, b ∈ p.get_succ_basic_blocks → Prunable func p.id) →
      Prunable func b

/-- The invariant of `run` on the blocks, relative to the module `m0` the run
started from: every function is what is left of the function it was, and a
block of `m0` that is gone is not the entry block, every predecessor it had
in `m0` is gone too, and it is in the set `Prunable`. -/
def PruneInv (fi : Option Nat → Bool) (m0 m : Module) : Prop :=
  ModuleShrinks fi m0 m ∧
  ∀ (k : Nat) (func func' : Function),
    m0.functions[k]? = some func → m.functions[k]? = some func' →
    ∀ b ∈ func.basic_blocks, b.id ∉ func'.basic_blocks.map BasicBlock.id →
      Prunable func b.id ∧
      ∀ p ∈ func.basic_blocks, b.id ∈ p.get_succ_basic_blocks →
        p.id ∉ func'.basic_blocks.map BasicBlock.id

/-- The function `main` of the merge example: the entry block 10 branches to
block 11; block 12 has no predecessor, loads the global 50 and branches to
block 11; the phi 5 of block 11 has the load 3 of block 12 as operand 0 and
feeds the store 6. -/
def merge_main : Function :=
  { id := 100, name := "main", entry_block := 10,
    basic_blocks := [
      { id := 10, instructions := [
          { id := 1, op := OpID.br, operands := [Value.basic_block 11] }] },
      { id := 12, instructions := [
          { id := 3, op := OpID.load, operands := [Value.global_variable 50] },
          { id := 4, op := OpID.br, operands := [Value.basic_block 11] }] },
      { id := 11, instructions := [
          { id := 5, op := OpID.phi, operands := [Value.instruction 3, Value.constant 0] },
          { id := 6, op := OpID.store,
            operands := [Value.instruction 5, Value.global_variable 50] },
          { id := 7, op := OpID.ret, operands := [] }] }] }

/-- The pass object of the merge example; the use-lists agree with the operand
edges in both directions. -/
def merge_pass : DeadCode :=
  { m_ := { functions := [merge_main], global_variable := [{ id := 50 }],
            use_list := [
              (Value.instruction 3, [(5, 0)]),
              (Value.instruction 5, [(6, 0)]),
              (Value.global_variable 50, [(3, 0), (6, 1)]),
              (Value.basic_block 11, [(1, 0), (4, 0)]),
              (Value.constant 0, [(5, 1)])] },
    marked := [], work_list := [], ins_count := 0 }

/-- The operand is not an instruction, or it is an instruction whose address is
in `ids`. -/
def Value.is_local (ids : List Nat) : Value → Bool
  | Value.instruction d => decide (d ∈ ids)
  | _ => true

/-- Every operand that is an instruction belongs to the function of its user. -/
def Module.OperandsLocal (m : Module) : Prop :=
  ∀ f ∈ m.functions, ∀ x ∈ f.get_instructions, ∀ v ∈ x.operands,
    Value.is_local (f.get_instructions.map Instruction.id) v = true

instance (m : Module) : Decidable m.OperandsLocal := by
  unfold Module.OperandsLocal
  infer_instance

/-- The way a method of the pass ends when the purity analysis can raise: the
method returns (`done`), an exception raised by
`func_info->is_pure_function` leaves it (`raised`), or the fuel of the
embedding runs out (`stuck`). -/
inductive Outcome (α : Type) where
  | done (a : α)
  | raised
  | stuck
  deriving DecidableEq, Repr

/-- The outcome of a method that cannot raise. -/
def Outcome.of_option {α : Type} : Option α → Outcome α
  | some a => Outcome.done a
  | none => Outcome.stuck

/-- The value a method returned, if it returned. -/
def Outcome.returned {α : Type} : Outcome α → Option α
  | Outcome.done a => some a
  | _ => none

/-- The predicate `DeadCode::is_critical` for a purity analysis that can raise:
`is_pure_function callee` is `none` when the call
`func_info->is_pure_function(callee)` raises, and the exception leaves
`is_critical`. Nothing else in `is_critical` can fail: the result of the
cast to `Function *` is not tested. -/
def is_critical_raising (is_pure_function : Option Nat → Option Bool) (ins : Instruction) :
    Option Bool :=
  if ins.is_call then
    let callee := ins.get_callee
    match is_pure_function callee with
    | none => none
    | some p => if p then some false else some true
  else if ins.is_br || ins.is_ret then some true
  else if ins.is_store then some true
  else some false

/-- The first loop of `DeadCode::mark(Function *)` for a purity analysis that
can raise, over the instructions of the function in the order of the nested
loops; an exception leaves the loop. -/
def mark_critical_raising (is_pure_function : Option Nat → Option Bool) :
    List Instruction → DeadCode → Option DeadCode
  | [], self => some self
  | ins :: rest, self =>
    match is_critical_raising is_pure_function ins with
    | none => none
    | some c =>
      mark_critical_raising is_pure_function rest
        (if c then
          { self with marked := ins.id :: self.marked, work_list := self.work_list ++ [ins.id] }
        else self)

/-- The method `DeadCode::mark(Function *)` for a purity analysis that can
raise. -/
def mark_raising (is_pure_function : Option Nat → Option Bool) (k : Nat) (self : DeadCode) :
    Outcome DeadCode :=
  match self.m_.functions[k]? with
  | none => Outcome.stuck
  | some func =>
    match mark_critical_raising is_pure_function func.get_instructions
        { self with work_list := [], marked := [] } with
    | none => Outcome.raised
    | some s =>
      Outcome.of_option
        (mark_loop (func.get_instructions.length + self.m_.get_instructions.length + 1) s)

/-- The body of the `for` loop of `DeadCode::run` for a purity analysis that
can raise. -/
def run_function_raising (is_pure_function : Option Nat → Option Bool) (k : Nat)
    (self : DeadCode) : Outcome (Bool × DeadCode) :=
  let r1 := clear_basic_blocks k self
  match mark_raising is_pure_function k r1.2 with
  | Outcome.done s2 =>
    let r3 := sweep k s2
    Outcome.done (r1.1 || r3.1, r3.2)
  | Outcome.raised => Outcome.raised
  | Outcome.stuck => Outcome.stuck

/-- The `for` loop of `DeadCode::run` for a purity analysis that can raise. -/
def run_functions_raising (is_pure_function : Option Nat → Option Bool) :
    List Nat → Bool → DeadCode → Outcome (Bool × DeadCode)
  | [], changed, self => Outcome.done (changed, self)
  | k :: ks, changed, self =>
    match run_function_raising is_pure_function k self with
    | Outcome.done r => run_functions_raising is_pure_function ks (changed || r.1) r.2
    | Outcome.raised => Outcome.raised
    | Outcome.stuck => Outcome.stuck

/-- One round of the `do`-`while` loop of `DeadCode::run` for a purity analysis
that can raise. -/
def run_round_raising (is_pure_function : Option Nat → Option Bool) (self : DeadCode) :
    Outcome (Bool × DeadCode) :=
  run_functions_raising is_pure_function (List.range self.m_.functions.length) false self

/-- The `do`-`while` loop of `DeadCode::run` for a purity analysis that can
raise. -/
def run_loop_raising (is_pure_function : Option Nat → Option Bool) :
    Nat → DeadCode → Outcome DeadCode
  | 0, _ => Outcome.stuck
  | fuel + 1, self =>
    match run_round_raising is_pure_function self with
    | Outcome.done r =>
      if r.1 then run_loop_raising is_pure_function fuel r.2 else Outcome.done r.2
    | Outcome.raised => Outcome.raised
    | Outcome.stuck => Outcome.stuck

/-- The method `DeadCode::run` for a purity analysis that can raise. -/
def run_raising (is_pure_function : Option Nat → Option Bool) (self : DeadCode) :
    Outcome DeadCode :=
  run_loop_raising is_pure_function (self.m_.size + 1) self

/-- A purity analysis that raises on the null pointer and reports only the
function 101 pure. -/
def raising_oracle : Option Nat → Option Bool
  | none => none
  | some f => some (f == 101)

/-- The pass object of the discarded-call example: the call 1, whose operand 0
is an argument, not a function, is in block 12, which has no predecessor and
is not the entry block. -/
def discarded_call_pass : DeadCode :=
  { m_ := { functions := [
              { id := 100, name := "main", entry_block := 10,
                basic_blocks := [
                  { id := 10, instructions := [{ id := 2, op := OpID.ret, operands := [] }] },
                  { id := 12, instructions := [
                      { id := 1, op := OpID.call, operands := [Value.argument 7] },
                      { id := 3, op := OpID.ret, operands := [] }] }] }],
            global_variable := [],
            use_list := [(Value.argument 7, [(1, 0)])] },
    marked := [], work_list := [], ins_count := 0 }

/-! ## Lemmas on the substrate -/

theorem modify_function_functions (m : Module) (k : Nat) (g : Function → Function) :
    (m.modify_function k g).functions = m.functions.modify g k := rfl

theorem modify_function_use_list (m : Module) (k : Nat) (g : Function → Function) :
    (m.modify_function k g).use_list = m.use_list := rfl

theorem modify_function_global_variable (m : Module) (k : Nat) (g : Function → Function) :
    (m.modify_function k g).global_variable = m.global_variable := rfl

theorem modify_function_comp (m : Module) (k : Nat) (g h : Function → Function) :
    (m.modify_function k g).modify_function k h = m.modify_function k (h ∘ g) := by
  simp [Module.modify_function, List.modify_modify_eq]

theorem list_modify_of_fix {α : Type} (g : α → α) (hg : ∀ a, g a = a) (k : Nat) (l : List α) :
    l.modify g k = l := by
  apply List.ext_getElem?
  intro j
  rw [List.getElem?_modify]
  cases l[j]? with
  | none => rfl
  | some a => by_cases h : k = j <;> simp [h, hg]

theorem modify_function_of_fix (m : Module) (k : Nat) (g : Function → Function)
    (hg : ∀ f, g f = f) : m.modify_function k g = m := by
  simp [Module.modify_function, list_modify_of_fix g hg]

theorem modify_function_getElem?_self (m : Module) (k : Nat) (g : Function → Function) :
    (m.modify_function k g).functions[k]? = (m.functions[k]?).map g := by
  rw [modify_function_functions, List.getElem?_modify]
  cases m.functions[k]? <;> simp

theorem modify_function_getElem?_ne (m : Module) (k j : Nat) (g : Function → Function)
    (h : j ≠ k) : (m.modify_function k g).functions[j]? = m.functions[j]? := by
  rw [modify_function_functions, List.getElem?_modify]
  cases m.functions[j]? with
  | none => rfl
  | some a => simp [Ne.symm h]

theorem modify_function_length (m : Module) (k : Nat) (g : Function → Function) :
    (m.modify_function k g).functions.length = m.functions.length := by
  simp [Module.modify_function]

/-! ## `is_critical` -/

/-- Claim C2: `is_critical` is true exactly for a branch, a return, a store and
a call whose callee (operand 0 cast to a function) the oracle does not
report pure; a call with a null callee is critical when the oracle answers
"not pure" on the null pointer; an instruction of any other kind is not
critical. -/
theorem is_critical_iff (is_pure_function : Option Nat → Bool) (ins : Instruction) :
    (is_critical is_pure_function ins = true ↔
      (ins.op = OpID.br ∨ ins.op = OpID.ret ∨ ins.op = OpID.store ∨
        (ins.op = OpID.call ∧ is_pure_function ins.get_callee = false))) ∧
    (ins.op = OpID.call → ins.get_callee = none → is_pure_function none = false →
      is_critical is_pure_function ins = true) ∧
    (ins.op ≠ OpID.call → ins.op ≠ OpID.br → ins.op ≠ OpID.ret → ins.op ≠ OpID.store →
      is_critical is_pure_function ins = false) := by
  obtain ⟨id, op, operands⟩ := ins
  refine ⟨?_, ?_, ?_⟩
  · cases op <;>
      simp [is_critical, Instruction.is_call, Instruction.is_br, Instruction.is_ret,
        Instruction.is_store]
  · intro h1 h2 h3
    simp only at h1
    subst h1
    simp [is_critical, Instruction.is_call, h2, h3]
  · intro h1 h2 h3 h4
    cases op <;>
      simp_all [is_critical, Instruction.is_call, Instruction.is_br, Instruction.is_ret,
        Instruction.is_store]

/-- Claim C2, at an input: a call through a non-function operand 0 is critical
under an oracle that answers "not pure" on the null pointer. -/
theorem is_critical_iff_witness :
    is_critical (fun o => o == some 7)
      { id := 1, op := OpID.call, operands := [Value.argument 3] } = true :=
  (is_critical_iff (fun o => o == some 7)
    { id := 1, op := OpID.call, operands := [Value.argument 3] }).2.1 rfl rfl rfl

/-! ## `clear_basic_blocks` -/

theorem foldl_erase_block (k : Nat) (ids : List Nat) (self : DeadCode) :
    ids.foldl (erase_block k) self =
      { self with m_ := self.m_.modify_function k (Function.erase_basic_blocks ids) } := by
  induction ids generalizing self with
  | nil =>
    have h : ∀ f, Function.erase_basic_blocks [] f = f := by
      intro f
      simp [Function.erase_basic_blocks]
    simp [modify_function_of_fix _ _ _ h]
  | cons a ids ih =>
    rw [List.foldl_cons, ih]
    simp only [erase_block, modify_function_comp]
    congr 2
    funext f
    simp only [Function.comp, Function.erase_basic_blocks, Function.erase_basic_block,
      List.filter_filter]
    congr 1
    apply List.filter_congr
    intro b _
    by_cases h1 : b.id ∈ ids <;> by_cases h2 : b.id = a <;> simp [h1, h2]

theorem mem_dead_ids_iff (func : Function) (hnd : (func.basic_blocks.map BasicBlock.id).Nodup)
    (b : BasicBlock) (hb : b ∈ func.basic_blocks) :
    b.id ∈ (func.basic_blocks.filter (is_dead_block func)).map BasicBlock.id ↔
      is_dead_block func b = true := by
  constructor
  · intro h
    obtain ⟨b2, hb2, hid⟩ := List.mem_map.1 h
    obtain ⟨hb2m, hdead⟩ := List.mem_filter.1 hb2
    have : b2 = b := List.inj_on_of_nodup_map hnd hb2m hb hid
    rw [← this]
    exact hdead
  · intro h
    exact List.mem_map.2 ⟨b, List.mem_filter.2 ⟨hb, h⟩, rfl⟩

/-- Claim C4: `clear_basic_blocks` removes from the block sequence of the
function exactly the blocks that, in the function as scanned, have no
predecessor and are not the entry block; the other blocks stay, in order
and unchanged; the result is `true` exactly when a block was removed; the
other functions are untouched. -/
theorem clear_basic_blocks_spec (k : Nat) (self : DeadCode) (func : Function)
    (hk : self.m_.functions[k]? = some func)
    (hnd : (func.basic_blocks.map BasicBlock.id).Nodup) :
    (clear_basic_blocks k self).2.m_.functions[k]? =
      some { func with basic_blocks := func.basic_blocks.filter (fun bb =>
        !((func.get_pre_basic_blocks bb).isEmpty && bb.id != func.entry_block)) } ∧
    ((clear_basic_blocks k self).1 = true ↔
      ∃ bb ∈ func.basic_blocks,
        (func.get_pre_basic_blocks bb).isEmpty = true ∧ bb.id ≠ func.entry_block) ∧
    (∀ j, j ≠ k → (clear_basic_blocks k self).2.m_.functions[j]? = self.m_.functions[j]?) := by
  simp only [clear_basic_blocks, hk, foldl_erase_block]
  refine ⟨?_, ?_, ?_⟩
  · rw [modify_function_getElem?_self, hk]
    simp only [Option.map_some', Function.erase_basic_blocks]
    congr 2
    apply List.filter_congr
    intro b hb
    have := mem_dead_ids_iff func hnd b hb
    by_cases hd : is_dead_block func b = true
    · have h1 := this.2 hd
      simp only [is_dead_block] at hd
      simp [h1, hd]
    · have h1 : ¬ _ := fun h => hd (this.1 h)
      simp only [is_dead_block] at hd
      simp only [h1, not_false_eq_true, decide_True]
      have hd2 : func.get_pre_basic_blocks b = [] → b.id = func.entry_block := by
        simpa using hd
      by_cases hA : func.get_pre_basic_blocks b = []
      · simp [hA, hd2 hA]
      · simp [hA]
  · simp only [List.isEmpty_eq_true, Bool.not_eq_true', Bool.not_eq_true]
    constructor
    · intro h
      cases hf : func.basic_blocks.filter (is_dead_block func) with
      | nil => simp [hf] at h
      | cons b l =>
        have hb : b ∈ func.basic_blocks.filter (is_dead_block func) := by simp [hf]
        obtain ⟨hb1, hb2⟩ := List.mem_filter.1 hb
        refine ⟨b, hb1, ?_⟩
        simpa [is_dead_block] using hb2
    · rintro ⟨b, hb1, hb2⟩
      have hb : b ∈ func.basic_blocks.filter (is_dead_block func) :=
        List.mem_filter.2 ⟨hb1, by simpa [is_dead_block] using hb2⟩
      cases hf : func.basic_blocks.filter (is_dead_block func) with
      | nil => simp [hf] at hb
      | cons b l => simp
  · intro j hj
    exact modify_function_getElem?_ne _ _ _ _ hj

/-! ## `sweep`: the three loops as one filter -/

theorem map_instructions_comp (f : Function) (g h : List Instruction → List Instruction) :
    (f.map_instructions g).map_instructions h = f.map_instructions (h ∘ g) := by
  simp [Function.map_instructions]

theorem map_instructions_of_fix (f : Function) (g : List Instruction → List Instruction)
    (hg : ∀ bb ∈ f.basic_blocks, g bb.instructions = bb.instructions) :
    f.map_instructions g = f := by
  obtain ⟨id, name, e, bbs⟩ := f
  simp only [Function.map_instructions, Function.mk.injEq, true_and]
  conv_rhs => rw [← List.map_id bbs]
  apply List.map_congr_left
  intro bb hbb
  simp [hg bb hbb]

theorem map_instructions_congr (f : Function) (g h : List Instruction → List Instruction)
    (hg : ∀ bb ∈ f.basic_blocks, g bb.instructions = h bb.instructions) :
    f.map_instructions g = f.map_instructions h := by
  simp only [Function.map_instructions]
  congr 1
  apply List.map_congr_left
  intro bb hbb
  simp [hg bb hbb]

theorem mem_get_instructions (f : Function) (ins : Instruction) :
    ins ∈ f.get_instructions ↔ ∃ bb ∈ f.basic_blocks, ins ∈ bb.instructions := by
  simp [Function.get_instructions, List.mem_flatten]

theorem foldl_collect (marked : List Nat) (l : List Instruction) (w : List Instruction) :
    l.foldl (fun w ins => if ins.id ∈ marked then w else w ++ [ins]) w =
      w ++ l.filter (fun ins => decide (ins.id ∉ marked)) := by
  induction l generalizing w with
  | nil => simp
  | cons a l ih =>
    rw [List.foldl_cons, ih]
    by_cases h : a.id ∈ marked <;> simp [h]

theorem collect_wait_del_eq (func : Function) (marked : List Nat) :
    collect_wait_del func marked =
      func.get_instructions.filter (fun ins => decide (ins.id ∉ marked)) := by
  have := foldl_collect marked func.get_instructions []
  rw [Function.get_instructions, List.foldl_flatten, List.foldl_map] at this
  simpa [collect_wait_del, Function.get_instructions] using this

theorem foldl_erase_one (k : Nat) (wd : List Instruction) (self : DeadCode) :
    erase_all k wd self =
      { self with
        m_ := self.m_.modify_function k (Function.erase_instructions (wd.map Instruction.id)) } := by
  unfold erase_all
  induction wd generalizing self with
  | nil =>
    have h : ∀ f, Function.erase_instructions [] f = f := by
      intro f
      apply map_instructions_of_fix
      intro bb _
      simp
    simp [modify_function_of_fix _ _ _ h]
  | cons a wd ih =>
    rw [List.foldl_cons, ih]
    simp only [erase_one, modify_function_comp]
    congr 2
    funext f
    simp only [Function.comp, Function.erase_instructions, Function.erase_instruction,
      map_instructions_comp]
    apply map_instructions_congr
    intro bb _
    simp only [Function.comp, List.filter_filter]
    apply List.filter_congr
    intro b _
    by_cases h1 : b.id ∈ wd.map Instruction.id <;> by_cases h2 : b.id = a.id <;>
      simp [h1, h2]

theorem foldl_remove_use_modify (l : List (Nat × Value)) (id : Nat) (m : Module) (k : Nat)
    (g : Function → Function) :
    l.foldl (fun m p => m.remove_use p.2 (id, p.1)) (m.modify_function k g) =
      (l.foldl (fun m p => m.remove_use p.2 (id, p.1)) m).modify_function k g := by
  induction l generalizing m with
  | nil => rfl
  | cons a l ih =>
    rw [List.foldl_cons, List.foldl_cons, ← ih]
    rfl

theorem remove_uses_of_modify (ins : Instruction) (m : Module) (k : Nat)
    (g : Function → Function) :
    (m.modify_function k g).remove_uses_of ins = (m.remove_uses_of ins).modify_function k g :=
  foldl_remove_use_modify _ _ _ _ _

theorem foldl_remove_uses_of_modify (wd : List Instruction) (m : Module) (k : Nat)
    (g : Function → Function) :
    wd.foldl Module.remove_uses_of (m.modify_function k g) =
      (wd.foldl Module.remove_uses_of m).modify_function k g := by
  induction wd generalizing m with
  | nil => rfl
  | cons a wd ih => rw [List.foldl_cons, List.foldl_cons, remove_uses_of_modify, ih]

theorem foldl_remove_use_functions (l : List (Nat × Value)) (id : Nat) (m : Module) :
    (l.foldl (fun m p => m.remove_use p.2 (id, p.1)) m).functions = m.functions ∧
    (l.foldl (fun m p => m.remove_use p.2 (id, p.1)) m).global_variable = m.global_variable := by
  induction l generalizing m with
  | nil => exact ⟨rfl, rfl⟩
  | cons a l ih =>
    rw [List.foldl_cons]
    exact ih _

theorem foldl_remove_uses_of_functions (wd : List Instruction) (m : Module) :
    (wd.foldl Module.remove_uses_of m).functions = m.functions ∧
    (wd.foldl Module.remove_uses_of m).global_variable = m.global_variable := by
  induction wd generalizing m with
  | nil => exact ⟨rfl, rfl⟩
  | cons a wd ih =>
    rw [List.foldl_cons]
    have h := foldl_remove_use_functions a.operands.enum a.id m
    have h2 := ih (m.remove_uses_of a)
    exact ⟨h2.1.trans h.1, h2.2.trans h.2⟩

theorem clear_operands_of_nil (f : Function) : Function.clear_operands_of [] f = f := by
  apply map_instructions_of_fix
  intro bb _
  simp

theorem clear_operands_eq (a : Nat) :
    Function.clear_operands a = Function.clear_operands_of [a] := by
  funext f
  simp only [Function.clear_operands, Function.clear_operands_of]
  apply map_instructions_congr
  intro bb _
  apply List.map_congr_left
  intro b _
  simp only [List.mem_singleton]

theorem clear_operands_of_comp (S T : List Nat) :
    Function.clear_operands_of T ∘ Function.clear_operands_of S =
      Function.clear_operands_of (S ++ T) := by
  funext f
  simp only [Function.comp, Function.clear_operands_of, map_instructions_comp]
  apply map_instructions_congr
  intro bb _
  simp only [Function.comp, List.map_map]
  apply List.map_congr_left
  intro b _
  show (if (if b.id ∈ S then ({ b with operands := [] } : Instruction) else b).id ∈ T
        then { (if b.id ∈ S then ({ b with operands := [] } : Instruction) else b) with
          operands := [] }
        else (if b.id ∈ S then ({ b with operands := [] } : Instruction) else b)) =
      if b.id ∈ S ++ T then { b with operands := [] } else b
  by_cases h1 : b.id ∈ S
  · have h3 : b.id ∈ S ++ T := List.mem_append_left _ h1
    simp only [if_pos h1, if_pos h3]
    by_cases h2 : b.id ∈ T
    · simp only [if_pos h2]
    · simp only [if_neg h2]
  · simp only [if_neg h1]
    by_cases h2 : b.id ∈ T
    · simp only [if_pos h2, if_pos (List.mem_append_right S h2)]
    · have h3 : ¬ b.id ∈ S ++ T := fun h => (List.mem_append.1 h).elim h1 h2
      simp only [if_neg h2, if_neg h3]

theorem erase_clear_of_subset (ids S : List Nat) (h : ∀ a ∈ S, a ∈ ids) :
    Function.erase_instructions ids ∘ Function.clear_operands_of S =
      Function.erase_instructions ids := by
  funext f
  simp only [Function.comp, Function.clear_operands_of, Function.erase_instructions,
    map_instructions_comp]
  apply map_instructions_congr
  intro bb _
  simp only [Function.comp]
  generalize bb.instructions = l
  induction l with
  | nil => rfl
  | cons a l ih =>
    by_cases h1 : a.id ∈ ids
    · by_cases h2 : a.id ∈ S
      · simpa [h1, h2] using ih
      · simpa [h1, h2] using ih
    · have h2 : a.id ∉ S := fun hs => h1 (h a.id hs)
      simpa [h1, h2] using ih

theorem erase_clear_instructions (ids : List Nat) :
    Function.erase_instructions ids ∘ Function.clear_operands_of ids =
      Function.erase_instructions ids :=
  erase_clear_of_subset ids ids (fun _ h => h)

theorem remove_all_operands_functions (m : Module) (k : Nat) (inst : Instruction) :
    (m.remove_all_operands k inst).functions =
      m.functions.modify (Function.clear_operands_of [inst.id]) k ∧
    (m.remove_all_operands k inst).global_variable = m.global_variable := by
  unfold Module.remove_all_operands Module.remove_uses_of
  rw [modify_function_functions, modify_function_global_variable, clear_operands_eq]
  have h := foldl_remove_use_functions inst.operands.enum inst.id m
  exact ⟨by rw [h.1], h.2⟩

theorem find_instruction_id (f : Function) (a : Nat) (inst : Instruction)
    (h : f.find_instruction a = some inst) : inst.id = a ∧ inst ∈ f.get_instructions := by
  unfold Function.find_instruction at h
  exact ⟨by simpa using List.find?_some h, List.mem_of_find?_eq_some h⟩

theorem detach_one_fields (k : Nat) (s : DeadCode) (x : Instruction) :
    ∃ S : List Nat, (∀ a ∈ S, a = x.id) ∧
      (detach_one k s x).m_.functions =
        s.m_.functions.modify (Function.clear_operands_of S) k ∧
      (detach_one k s x).m_.global_variable = s.m_.global_variable ∧
      (detach_one k s x).marked = s.marked ∧ (detach_one k s x).work_list = s.work_list ∧
      (detach_one k s x).ins_count = s.ins_count := by
  unfold detach_one
  cases hf : (s.m_.functions[k]?).bind (fun f => f.find_instruction x.id) with
  | none =>
    refine ⟨[], fun a ha => absurd ha (List.not_mem_nil _), ?_, rfl, rfl, rfl, rfl⟩
    exact (list_modify_of_fix _ clear_operands_of_nil k _).symm
  | some inst =>
    obtain ⟨f, _, hfi⟩ := Option.bind_eq_some.1 hf
    have hid := (find_instruction_id f x.id inst hfi).1
    refine ⟨[x.id], fun a ha => List.mem_singleton.1 ha, ?_, ?_, rfl, rfl, rfl⟩
    · rw [← hid]
      exact (remove_all_operands_functions s.m_ k inst).1
    · exact (remove_all_operands_functions s.m_ k inst).2

theorem detach_all_fields (k : Nat) (wd : List Instruction) (s : DeadCode) :
    ∃ S : List Nat, (∀ a ∈ S, a ∈ wd.map Instruction.id) ∧
      (detach_all k wd s).m_.functions =
        s.m_.functions.modify (Function.clear_operands_of S) k ∧
      (detach_all k wd s).m_.global_variable = s.m_.global_variable ∧
      (detach_all k wd s).marked = s.marked ∧ (detach_all k wd s).work_list = s.work_list ∧
      (detach_all k wd s).ins_count = s.ins_count := by
  unfold detach_all
  induction wd generalizing s with
  | nil =>
    refine ⟨[], fun a ha => absurd ha (List.not_mem_nil _), ?_, rfl, rfl, rfl, rfl⟩
    exact (list_modify_of_fix _ clear_operands_of_nil k _).symm
  | cons x wd ih =>
    obtain ⟨S1, h1, f1, g1, m1, w1, c1⟩ := detach_one_fields k s x
    obtain ⟨S2, h2, f2, g2, m2, w2, c2⟩ := ih (detach_one k s x)
    refine ⟨S1 ++ S2, ?_, ?_, ?_, ?_, ?_, ?_⟩
    · intro a ha
      rcases List.mem_append.1 ha with h | h
      · rw [h1 a h]
        exact List.mem_map.2 ⟨x, List.mem_cons_self _ _, rfl⟩
      · obtain ⟨y, hy, hya⟩ := List.mem_map.1 (h2 a h)
        exact List.mem_map.2 ⟨y, List.mem_cons_of_mem _ hy, hya⟩
    · rw [List.foldl_cons, f2, f1, List.modify_modify_eq, clear_operands_of_comp]
    · rw [List.foldl_cons, g2, g1]
    · rw [List.foldl_cons, m2, m1]
    · rw [List.foldl_cons, w2, w1]
    · rw [List.foldl_cons, c2, c1]

theorem sweep_functions (k : Nat) (self : DeadCode) (func : Function)
    (hk : self.m_.functions[k]? = some func) :
    (sweep k self).2.m_.functions = self.m_.functions.modify
      (Function.erase_instructions ((collect_wait_del func self.marked).map Instruction.id)) k ∧
    (sweep k self).2.m_.global_variable = self.m_.global_variable := by
  obtain ⟨S, hS, hf, hg, _, _, _⟩ := detach_all_fields k (collect_wait_del func self.marked) self
  simp only [sweep, hk, foldl_erase_one, modify_function_functions,
    modify_function_global_variable]
  refine ⟨?_, hg⟩
  rw [hf, List.modify_modify_eq, erase_clear_of_subset _ S hS]

theorem sweep_fields (k : Nat) (self : DeadCode) :
    (sweep k self).2.marked = self.marked ∧ (sweep k self).2.work_list = self.work_list := by
  unfold sweep
  cases self.m_.functions[k]? with
  | none => exact ⟨rfl, rfl⟩
  | some func =>
    obtain ⟨_, _, _, _, hm, hw, _⟩ :=
      detach_all_fields k (collect_wait_del func self.marked) self
    simp only [foldl_erase_one]
    exact ⟨hm, hw⟩

theorem sweep_function (k : Nat) (self : DeadCode) (func : Function)
    (hk : self.m_.functions[k]? = some func) :
    (sweep k self).2.m_.functions[k]? = some (Function.erase_instructions
      ((collect_wait_del func self.marked).map Instruction.id) func) := by
  rw [(sweep_functions k self func hk).1, List.getElem?_modify, hk]
  simp

theorem sweep_getElem?_ne (k j : Nat) (s : DeadCode) (h : j ≠ k) :
    (sweep k s).2.m_.functions[j]? = s.m_.functions[j]? := by
  cases hk : s.m_.functions[k]? with
  | none => simp only [sweep, hk]
  | some func =>
    rw [(sweep_functions k s func hk).1, List.getElem?_modify]
    cases s.m_.functions[j]? with
    | none => rfl
    | some a => simp [Ne.symm h]

theorem clear_operands_instructions (a : Nat) (f : Function) :
    (Function.clear_operands a f).get_instructions =
      f.get_instructions.map (fun ins =>
        if ins.id = a then { ins with operands := [] } else ins) := by
  simp only [Function.clear_operands, Function.map_instructions, Function.get_instructions,
    List.map_map, List.map_flatten]
  rfl

theorem find_instruction_of_mem (f : Function)
    (hnd : (f.get_instructions.map Instruction.id).Nodup) (x : Instruction)
    (hx : x ∈ f.get_instructions) : f.find_instruction x.id = some x := by
  unfold Function.find_instruction
  cases hf : f.get_instructions.find? (fun ins => ins.id == x.id) with
  | none =>
    have := List.find?_eq_none.1 hf x hx
    simp at this
  | some y =>
    have hy : y ∈ f.get_instructions := List.mem_of_find?_eq_some hf
    have hid : y.id = x.id := by simpa using List.find?_some hf
    rw [List.inj_on_of_nodup_map hnd hy hx hid]

theorem foldl_detach_one (k : Nat) (wd : List Instruction) (self : DeadCode) (func : Function)
    (hk : self.m_.functions[k]? = some func)
    (hnd : (func.get_instructions.map Instruction.id).Nodup)
    (hwd : ∀ x ∈ wd, x ∈ func.get_instructions) (hwdn : (wd.map Instruction.id).Nodup) :
    detach_all k wd self =
      { self with
        m_ := (wd.foldl Module.remove_uses_of self.m_).modify_function k
          (Function.clear_operands_of (wd.map Instruction.id)) } := by
  unfold detach_all
  induction wd generalizing self func with
  | nil => simp [modify_function_of_fix _ _ _ clear_operands_of_nil]
  | cons a wd ih =>
    have hfind : (self.m_.functions[k]?).bind (fun f => f.find_instruction a.id) = some a := by
      rw [hk]
      exact find_instruction_of_mem func hnd a (hwd a (List.mem_cons_self _ _))
    have hstep : detach_one k self a = { self with m_ := self.m_.remove_all_operands k a } := by
      unfold detach_one
      rw [hfind]
    have hk1 : (detach_one k self a).m_.functions[k]? =
        some (Function.clear_operands a.id func) := by
      rw [hstep]
      simp only [Module.remove_all_operands, modify_function_getElem?_self]
      have := (foldl_remove_use_functions a.operands.enum a.id self.m_).1
      unfold Module.remove_uses_of
      rw [this, hk]
      rfl
    have hids : (Function.clear_operands a.id func).get_instructions.map Instruction.id =
        func.get_instructions.map Instruction.id := by
      rw [clear_operands_instructions, List.map_map]
      apply List.map_congr_left
      intro b _
      simp only [Function.comp]
      split <;> rfl
    have hwdn2 : a.id ∉ wd.map Instruction.id ∧ (wd.map Instruction.id).Nodup :=
      List.nodup_cons.1 (by rw [← List.map_cons]; exact hwdn)
    have hwd1 : ∀ x ∈ wd, x ∈ (Function.clear_operands a.id func).get_instructions := by
      intro x hx
      rw [clear_operands_instructions]
      refine List.mem_map.2 ⟨x, hwd x (List.mem_cons_of_mem _ hx), ?_⟩
      have hne : x.id ≠ a.id := by
        intro he
        exact hwdn2.1 (he ▸ List.mem_map.2 ⟨x, hx, rfl⟩)
      simp only [if_neg hne]
    rw [List.foldl_cons, ih (detach_one k self a) (Function.clear_operands a.id func) hk1
      (by rw [hids]; exact hnd) hwd1 hwdn2.2, hstep]
    simp only [Module.remove_all_operands, foldl_remove_uses_of_modify, modify_function_comp,
      List.foldl_cons, clear_operands_eq, clear_operands_of_comp, List.map_cons,
      List.singleton_append]

theorem wait_del_nodup (func : Function) (marked : List Nat)
    (hnd : (func.get_instructions.map Instruction.id).Nodup) :
    (∀ x ∈ collect_wait_del func marked, x ∈ func.get_instructions) ∧
    ((collect_wait_del func marked).map Instruction.id).Nodup := by
  rw [collect_wait_del_eq]
  exact ⟨fun x hx => (List.mem_filter.1 hx).1,
    List.Nodup.sublist (List.Sublist.map _ (List.filter_sublist _)) hnd⟩

theorem sweep_m_ (k : Nat) (self : DeadCode) (func : Function)
    (hk : self.m_.functions[k]? = some func)
    (hnd : (func.get_instructions.map Instruction.id).Nodup) :
    (sweep k self).2.m_ =
      ((collect_wait_del func self.marked).foldl Module.remove_uses_of self.m_).modify_function k
        (Function.erase_instructions ((collect_wait_del func self.marked).map Instruction.id)) := by
  obtain ⟨h1, h2⟩ := wait_del_nodup func self.marked hnd
  simp only [sweep, hk, foldl_erase_one, foldl_detach_one k _ self func hk hnd h1 h2,
    modify_function_comp, erase_clear_instructions]

theorem mem_wait_del_ids (func : Function) (marked : List Nat) (ins : Instruction)
    (h : ins ∈ func.get_instructions) :
    ins.id ∈ (collect_wait_del func marked).map Instruction.id ↔ ins.id ∉ marked := by
  rw [collect_wait_del_eq]
  constructor
  · intro hm
    obtain ⟨j, hj, hid⟩ := List.mem_map.1 hm
    have := (List.mem_filter.1 hj).2
    rw [← hid]
    simpa using this
  · intro hm
    exact List.mem_map.2 ⟨ins, List.mem_filter.2 ⟨h, by simpa using hm⟩, rfl⟩

theorem sweep_changed (k : Nat) (self : DeadCode) (func : Function)
    (hk : self.m_.functions[k]? = some func) :
    (sweep k self).1 = true ↔ ∃ ins ∈ func.get_instructions, ins.id ∉ self.marked := by
  simp only [sweep, hk, collect_wait_del_eq]
  cases hf : func.get_instructions.filter (fun ins => decide (ins.id ∉ self.marked)) with
  | nil =>
    simp only [List.isEmpty_nil, Bool.not_true, Bool.false_eq_true, false_iff, not_exists,
      not_and, not_not]
    intro ins hins
    by_contra hc
    have : ins ∈ func.get_instructions.filter (fun ins => decide (ins.id ∉ self.marked)) :=
      List.mem_filter.2 ⟨hins, by simpa using hc⟩
    rw [hf] at this
    exact absurd this (List.not_mem_nil _)
  | cons a l =>
    simp only [List.isEmpty_cons, Bool.not_false, true_iff]
    have : a ∈ func.get_instructions.filter (fun ins => decide (ins.id ∉ self.marked)) := by
      rw [hf]
      exact List.mem_cons_self _ _
    obtain ⟨h1, h2⟩ := List.mem_filter.1 this
    exact ⟨a, h1, by simpa using h2⟩

/-- Claim C3: `sweep` removes from the blocks of the function exactly the
instructions that are not marked, keeps the marked ones in their blocks in
the same order, returns `true` exactly when some instruction of the
function is not marked (and `false` exactly when all are marked), and leaves
the other functions untouched. -/
theorem sweep_spec (k : Nat) (self : DeadCode) (func : Function)
    (hk : self.m_.functions[k]? = some func) :
    (sweep k self).2.m_.functions[k]? =
      some { func with basic_blocks := func.basic_blocks.map (fun bb =>
        { bb with instructions :=
            bb.instructions.filter (fun ins => decide (ins.id ∈ self.marked)) }) } ∧
    ((sweep k self).1 = true ↔ ∃ ins ∈ func.get_instructions, ins.id ∉ self.marked) ∧
    ((sweep k self).1 = false ↔ ∀ ins ∈ func.get_instructions, ins.id ∈ self.marked) ∧
    (∀ j, j ≠ k → (sweep k self).2.m_.functions[j]? = self.m_.functions[j]?) := by
  have hex := sweep_changed k self func hk
  refine ⟨?_, hex, ?_, ?_⟩
  · rw [sweep_function k self func hk]
    simp only [Function.erase_instructions, Function.map_instructions]
    congr 2
    apply List.map_congr_left
    intro bb hbb
    congr 1
    apply List.filter_congr
    intro ins hins
    have hmem : ins ∈ func.get_instructions := (mem_get_instructions _ _).2 ⟨bb, hbb, hins⟩
    have := mem_wait_del_ids func self.marked ins hmem
    by_cases hm : ins.id ∈ self.marked
    · have h1 : ¬ _ := fun h => (this.1 h) hm
      simp [h1, hm]
    · have h1 := this.2 hm
      simp [h1, hm]
  · rw [← Bool.not_eq_true, hex]
    push_neg
    rfl
  · intro j hj
    exact sweep_getElem?_ne k j self hj

/-! ## `mark`: termination -/

theorem get_function_isSome (m : Module) (id : Nat) :
    (m.get_function id).isSome = true ↔ ∃ ins ∈ m.get_instructions, ins.id = id := by
  unfold Module.get_function Module.get_instructions
  rw [Option.isSome_map', List.find?_isSome]
  simp only [List.any_eq_true, beq_iff_eq, List.mem_flatten, List.mem_map]
  constructor
  · rintro ⟨f, hf, ins, hins, hid⟩
    exact ⟨ins, ⟨_, ⟨f, hf, rfl⟩, hins⟩, hid⟩
  · rintro ⟨ins, ⟨_, ⟨f, hf, rfl⟩, hins⟩, hid⟩
    exact ⟨f, hf, ins, hins, hid⟩

theorem mem_module_instructions (m : Module) (k : Nat) (func : Function)
    (hk : m.functions[k]? = some func) (ins : Instruction) (h : ins ∈ func.get_instructions) :
    ins ∈ m.get_instructions := by
  unfold Module.get_instructions
  rw [List.mem_flatten]
  exact ⟨_, List.mem_map.2 ⟨func, List.mem_iff_getElem?.2 ⟨k, hk⟩, rfl⟩, h⟩

theorem count_unmarked_cons_lt (m : Module) (marked : List Nat) (d : Nat)
    (hd : d ∉ marked) (hm : ∃ ins ∈ m.get_instructions, ins.id = d) :
    m.count_unmarked (d :: marked) < m.count_unmarked marked := by
  unfold Module.count_unmarked
  have h : m.get_instructions.filter (fun ins => decide (ins.id ∉ d :: marked)) =
      (m.get_instructions.filter (fun ins => decide (ins.id ∉ marked))).filter
        (fun ins => decide (ins.id ≠ d)) := by
    rw [List.filter_filter]
    apply List.filter_congr
    intro x _
    by_cases h1 : x.id = d <;> by_cases h2 : x.id ∈ marked <;> simp [h1, h2]
  rw [h, List.length_filter_lt_length_iff_exists]
  obtain ⟨ins, hins, hid⟩ := hm
  refine ⟨ins, List.mem_filter.2 ⟨hins, ?_⟩, ?_⟩
  · rw [hid]
    simpa using hd
  · simp [hid]

theorem mark_operand_m_ (now : Nat) (s : DeadCode) (op : Value) :
    (mark_operand now s op).m_ = s.m_ ∧ (mark_operand now s op).ins_count = s.ins_count := by
  unfold mark_operand
  split
  · split
    · exact ⟨rfl, rfl⟩
    · split <;> exact ⟨rfl, rfl⟩
  · exact ⟨rfl, rfl⟩

theorem foldl_mark_operand_m_ (now : Nat) (ops : List Value) (s : DeadCode) :
    (ops.foldl (mark_operand now) s).m_ = s.m_ ∧
    (ops.foldl (mark_operand now) s).ins_count = s.ins_count := by
  induction ops generalizing s with
  | nil => exact ⟨rfl, rfl⟩
  | cons a ops ih =>
    rw [List.foldl_cons]
    have h1 := ih (mark_operand now s a)
    have h2 := mark_operand_m_ now s a
    exact ⟨h1.1.trans h2.1, h1.2.trans h2.2⟩

theorem mark_instruction_m_ (now : Nat) (s : DeadCode) :
    (mark_instruction now s).m_ = s.m_ ∧ (mark_instruction now s).ins_count = s.ins_count := by
  unfold mark_instruction
  split
  · exact ⟨rfl, rfl⟩
  · exact foldl_mark_operand_m_ _ _ _

theorem mark_operand_pending (now : Nat) (s : DeadCode) (op : Value)
    (hnow : (s.m_.get_function now).isSome = true) (hs : s.work_list_owned) :
    (mark_operand now s op).work_list_owned ∧ (mark_operand now s op).pending ≤ s.pending := by
  unfold mark_operand
  split
  · rename_i d
    split
    · exact ⟨hs, le_refl _⟩
    · rename_i hd
      split
      · exact ⟨hs, le_refl _⟩
      · rename_i hf
        have hf2 : s.m_.get_function d = s.m_.get_function now := by
          by_contra hc
          exact hf hc
        have hd2 : (s.m_.get_function d).isSome = true := by rw [hf2]; exact hnow
        constructor
        · intro id hid
          simp only [List.mem_append, List.mem_singleton] at hid
          rcases hid with hid | hid
          · exact hs id hid
          · rw [hid]; exact hd2
        · have := count_unmarked_cons_lt s.m_ s.marked d hd ((get_function_isSome _ _).1 hd2)
          simp only [DeadCode.pending, List.length_append, List.length_singleton]
          omega
  · exact ⟨hs, le_refl _⟩

theorem foldl_mark_operand_pending (now : Nat) (ops : List Value) (s : DeadCode)
    (hnow : (s.m_.get_function now).isSome = true) (hs : s.work_list_owned) :
    (ops.foldl (mark_operand now) s).work_list_owned ∧
      (ops.foldl (mark_operand now) s).pending ≤ s.pending := by
  induction ops generalizing s with
  | nil => exact ⟨hs, le_refl _⟩
  | cons a ops ih =>
    rw [List.foldl_cons]
    have h1 := mark_operand_pending now s a hnow hs
    have h2 := ih (mark_operand now s a) (by rw [(mark_operand_m_ now s a).1]; exact hnow) h1.1
    exact ⟨h2.1, le_trans h2.2 h1.2⟩

theorem mark_instruction_pending (now : Nat) (s : DeadCode)
    (hnow : (s.m_.get_function now).isSome = true) (hs : s.work_list_owned) :
    (mark_instruction now s).work_list_owned ∧ (mark_instruction now s).pending ≤ s.pending := by
  unfold mark_instruction
  split
  · exact ⟨hs, le_refl _⟩
  · exact foldl_mark_operand_pending _ _ _ hnow hs

theorem mark_loop_terminates (fuel : Nat) (s : DeadCode) (hs : s.work_list_owned)
    (hfuel : s.pending < fuel) : ∃ s', mark_loop fuel s = some s' := by
  induction fuel generalizing s with
  | zero => omega
  | succ fuel ih =>
    unfold mark_loop
    cases hw : s.work_list with
    | nil => exact ⟨s, rfl⟩
    | cons now rest =>
      simp only
      have hnow : (s.m_.get_function now).isSome = true := hs now (by rw [hw]; simp)
      have hs1 : DeadCode.work_list_owned { s with work_list := rest } := by
        intro id hid
        exact hs id (by rw [hw]; exact List.mem_cons_of_mem _ hid)
      have h := mark_instruction_pending now { s with work_list := rest } hnow hs1
      apply ih _ h.1
      have hp : DeadCode.pending { s with work_list := rest } + 1 = s.pending := by
        simp only [DeadCode.pending, hw, List.length_cons]
        omega
      omega

/-- Induction over the loop of `mark`: a property that holds at the start and
is kept by every iteration holds at the end, where the work list is empty. -/
theorem mark_loop_induct (P : DeadCode → Prop)
    (hstep : ∀ s now rest, P s → s.work_list = now :: rest →
      P (mark_instruction now { s with work_list := rest }))
    (fuel : Nat) (s s' : DeadCode) (hP : P s) (h : mark_loop fuel s = some s') :
    P s' ∧ s'.work_list = [] := by
  induction fuel generalizing s with
  | zero => simp [mark_loop] at h
  | succ fuel ih =>
    unfold mark_loop at h
    cases hw : s.work_list with
    | nil =>
      rw [hw] at h
      simp only [Option.some.injEq] at h
      rw [← h]
      exact ⟨hP, hw⟩
    | cons now rest =>
      rw [hw] at h
      exact ih _ (hstep s now rest hP hw) h

theorem foldl_mark_if_critical (fi : Option Nat → Bool) (l : List Instruction) (s : DeadCode) :
    (l.foldl (mark_if_critical fi) s).m_ = s.m_ ∧
    (l.foldl (mark_if_critical fi) s).ins_count = s.ins_count ∧
    (l.foldl (mark_if_critical fi) s).work_list =
      s.work_list ++ (l.filter (is_critical fi)).map Instruction.id ∧
    (l.foldl (mark_if_critical fi) s).marked =
      ((l.filter (is_critical fi)).map Instruction.id).reverse ++ s.marked := by
  induction l generalizing s with
  | nil => simp
  | cons a l ih =>
    rw [List.foldl_cons]
    obtain ⟨h1, h2, h3, h4⟩ := ih (mark_if_critical fi s a)
    rw [h1, h2, h3, h4]
    unfold mark_if_critical
    by_cases hc : is_critical fi a = true
    · simp [hc]
    · simp [hc]

theorem mark_critical_eq (fi : Option Nat → Bool) (func : Function) (s : DeadCode) :
    mark_critical fi func s = func.get_instructions.foldl (mark_if_critical fi) s := by
  unfold mark_critical Function.get_instructions
  rw [List.foldl_flatten, List.foldl_map]

theorem mark_terminates (fi : Option Nat → Bool) (k : Nat) (self : DeadCode) (func : Function)
    (hk : self.m_.functions[k]? = some func) : ∃ s', mark fi k self = some s' := by
  simp only [mark, hk]
  obtain ⟨h1, _, h3, h4⟩ := foldl_mark_if_critical fi func.get_instructions
    { self with work_list := [], marked := [] }
  apply mark_loop_terminates
  · intro id hid
    rw [mark_critical_eq, h3] at hid
    rw [mark_critical_eq, h1, get_function_isSome]
    simp only [List.nil_append, List.mem_map, List.mem_filter] at hid
    obtain ⟨ins, ⟨hins, _⟩, hid⟩ := hid
    exact ⟨ins, mem_module_instructions _ k func hk ins hins, hid⟩
  · simp only [DeadCode.pending, mark_critical_eq, h1, h3, h4, List.nil_append,
      List.length_map, Module.count_unmarked]
    have a1 := List.length_filter_le (is_critical fi) func.get_instructions
    have a2 := List.length_filter_le (fun ins => decide (ins.id ∉
      ((func.get_instructions.filter (is_critical fi)).map Instruction.id).reverse ++ []))
      self.m_.get_instructions
    omega

theorem mark_m_ (fi : Option Nat → Bool) (k : Nat) (self s' : DeadCode)
    (h : mark fi k self = some s') :
    s'.m_ = self.m_ ∧ s'.ins_count = self.ins_count ∧ s'.work_list = [] := by
  unfold mark at h
  cases hk : self.m_.functions[k]? with
  | none => simp [hk] at h
  | some func =>
    rw [hk] at h
    simp only at h
    have := mark_loop_induct (fun s => s.m_ = self.m_ ∧ s.ins_count = self.ins_count)
      (by
        intro s now rest hP _
        have := mark_instruction_m_ now { s with work_list := rest }
        exact ⟨this.1.trans hP.1, this.2.trans hP.2⟩)
      _ _ _ (by
        rw [mark_critical_eq]
        have := foldl_mark_if_critical fi func.get_instructions
          { self with work_list := [], marked := [] }
        exact ⟨this.1, this.2.1⟩) h
    exact ⟨this.1.1, this.1.2, this.2⟩

/-! ## Lookups in a well-formed module -/

theorem mem_functions_of_getElem? (m : Module) (k : Nat) (func : Function)
    (hk : m.functions[k]? = some func) : func ∈ m.functions :=
  List.mem_iff_getElem?.2 ⟨k, hk⟩

theorem wf_function_nodup (m : Module) (hwf : m.WellFormed) (k : Nat) (func : Function)
    (hk : m.functions[k]? = some func) : (func.get_instructions.map Instruction.id).Nodup := by
  have h := hwf.1
  unfold Module.get_instructions at h
  rw [List.map_flatten] at h
  exact (List.nodup_flatten.1 h).1 _ (List.mem_map.2 ⟨func.get_instructions,
    List.mem_map.2 ⟨func, mem_functions_of_getElem? m k func hk, rfl⟩, rfl⟩)

theorem wf_instruction_eq (m : Module) (hwf : m.WellFormed) (x y : Instruction)
    (hx : x ∈ m.get_instructions) (hy : y ∈ m.get_instructions) (h : x.id = y.id) : x = y :=
  List.inj_on_of_nodup_map hwf.1 hx hy h

theorem wf_function_of_mem (m : Module) (hwf : m.WellFormed) (f g : Function)
    (hf : f ∈ m.functions) (hg : g ∈ m.functions) (x : Instruction)
    (hxf : x ∈ f.get_instructions) (hxg : x ∈ g.get_instructions) : f = g := by
  by_contra hne
  have hnd : m.get_instructions.Nodup := List.Nodup.of_map _ hwf.1
  unfold Module.get_instructions at hnd
  rw [List.nodup_flatten, List.pairwise_map] at hnd
  have hsym : Symmetric (fun a b : Function =>
      List.Disjoint a.get_instructions b.get_instructions) := by
    intro a b hab
    exact hab.symm
  have := List.Pairwise.forall hsym hnd.2 hf hg hne
  exact this hxf hxg

theorem wf_find_instruction (m : Module) (hwf : m.WellFormed) (x : Instruction)
    (hx : x ∈ m.get_instructions) : m.find_instruction x.id = some x := by
  unfold Module.find_instruction
  cases h : m.get_instructions.find? (fun ins => ins.id == x.id) with
  | none =>
    rw [List.find?_eq_none] at h
    have := h x hx
    simp at this
  | some y =>
    have hy := List.mem_of_find?_eq_some h
    have hid := List.find?_some h
    simp only [beq_iff_eq] at hid
    rw [wf_instruction_eq m hwf y x hy hx hid]

theorem wf_get_function (m : Module) (hwf : m.WellFormed) (k : Nat) (func : Function)
    (hk : m.functions[k]? = some func) (x : Instruction) (hx : x ∈ func.get_instructions) :
    m.get_function x.id = some func.id := by
  have hf := mem_functions_of_getElem? m k func hk
  unfold Module.get_function
  cases h : m.functions.find? (fun f => f.get_instructions.any (fun ins => ins.id == x.id)) with
  | none =>
    rw [List.find?_eq_none] at h
    have := h func hf
    simp only [List.any_eq_true, beq_iff_eq, not_exists, not_and] at this
    exact absurd rfl (this x hx)
  | some g =>
    have hg := List.mem_of_find?_eq_some h
    have hany := List.find?_some h
    simp only [List.any_eq_true, beq_iff_eq] at hany
    obtain ⟨y, hy, hid⟩ := hany
    obtain ⟨n, hn⟩ := List.mem_iff_getElem?.1 hg
    have hxy : y = x := wf_instruction_eq m hwf y x
      (mem_module_instructions m n g hn y hy)
      (mem_module_instructions m k func hk x hx) hid
    rw [hxy] at hy
    have : func = g := wf_function_of_mem m hwf func g hf hg x hx hy
    rw [this]
    rfl

theorem wf_get_function_mem (m : Module) (hwf : m.WellFormed) (k : Nat) (func : Function)
    (hk : m.functions[k]? = some func) (d : Nat) (h : m.get_function d = some func.id) :
    ∃ y ∈ func.get_instructions, y.id = d := by
  have hf := mem_functions_of_getElem? m k func hk
  unfold Module.get_function at h
  rw [Option.map_eq_some'] at h
  obtain ⟨g, hg, hid⟩ := h
  have hgm := List.mem_of_find?_eq_some hg
  have hany := List.find?_some hg
  simp only [List.any_eq_true, beq_iff_eq] at hany
  have : g = func := List.inj_on_of_nodup_map hwf.2.1 hgm hf hid
  rw [this] at hany
  exact hany

theorem wf_same_function (m : Module) (hwf : m.WellFormed) (k : Nat) (func : Function)
    (hk : m.functions[k]? = some func) (x : Instruction) (hx : x ∈ func.get_instructions)
    (d : Nat) :
    m.get_function d = m.get_function x.id ↔ ∃ y ∈ func.get_instructions, y.id = d := by
  rw [wf_get_function m hwf k func hk x hx]
  constructor
  · exact wf_get_function_mem m hwf k func hk d
  · rintro ⟨y, hy, rfl⟩
    exact wf_get_function m hwf k func hk y hy

theorem Live.exists_mem {fi : Option Nat → Bool} {func : Function} {id : Nat}
    (h : Live fi func id) : ∃ y ∈ func.get_instructions, y.id = id := by
  cases h with
  | critical ins h1 _ => exact ⟨ins, h1, rfl⟩
  | operand x d _ _ _ h4 => exact h4

/-! ## `mark`: the marks are the live set -/

theorem mark_operand_marked (now : Nat) (s : DeadCode) (op : Value) (id : Nat) :
    id ∈ (mark_operand now s op).marked ↔
      id ∈ s.marked ∨ (op = Value.instruction id ∧
        s.m_.get_function id = s.m_.get_function now) := by
  unfold mark_operand
  split
  · rename_i d
    split
    · rename_i hd
      constructor
      · exact fun h => Or.inl h
      · rintro (h | ⟨h1, _⟩)
        · exact h
        · simp only [Value.instruction.injEq] at h1
          rw [← h1]; exact hd
    · rename_i hd
      split
      · rename_i hf
        constructor
        · exact fun h => Or.inl h
        · rintro (h | ⟨h1, h2⟩)
          · exact h
          · simp only [Value.instruction.injEq] at h1
            rw [← h1] at h2
            exact absurd h2 hf
      · rename_i hf
        simp only [List.mem_cons, Value.instruction.injEq]
        constructor
        · rintro (h | h)
          · right
            refine ⟨h.symm, ?_⟩
            rw [h]
            by_contra hc
            exact hf hc
          · exact Or.inl h
        · rintro (h | ⟨h1, _⟩)
          · exact Or.inr h
          · exact Or.inl h1.symm
  · rename_i hop
    constructor
    · exact fun h => Or.inl h
    · rintro (h | ⟨h1, _⟩)
      · exact h
      · exact absurd h1 (hop id)

theorem mark_operand_work_list (now : Nat) (s : DeadCode) (op : Value) (id : Nat) :
    id ∈ (mark_operand now s op).work_list ↔
      id ∈ s.work_list ∨ (id ∉ s.marked ∧ op = Value.instruction id ∧
        s.m_.get_function id = s.m_.get_function now) := by
  unfold mark_operand
  split
  · rename_i d
    split
    · rename_i hd
      constructor
      · exact fun h => Or.inl h
      · rintro (h | ⟨h0, h1, _⟩)
        · exact h
        · simp only [Value.instruction.injEq] at h1
          rw [← h1] at h0; exact absurd hd h0
    · rename_i hd
      split
      · rename_i hf
        constructor
        · exact fun h => Or.inl h
        · rintro (h | ⟨_, h1, h2⟩)
          · exact h
          · simp only [Value.instruction.injEq] at h1
            rw [← h1] at h2
            exact absurd h2 hf
      · rename_i hf
        simp only [List.mem_append, List.mem_singleton, Value.instruction.injEq]
        constructor
        · rintro (h | h)
          · exact Or.inl h
          · right
            refine ⟨by rw [h]; exact hd, h.symm, ?_⟩
            rw [h]
            by_contra hc
            exact hf hc
        · rintro (h | ⟨_, h1, _⟩)
          · exact Or.inl h
          · exact Or.inr h1.symm
  · rename_i hop
    constructor
    · exact fun h => Or.inl h
    · rintro (h | ⟨_, h1, _⟩)
      · exact h
      · exact absurd h1 (hop id)

theorem foldl_mark_operand_marked (now : Nat) (ops : List Value) (s : DeadCode) (id : Nat) :
    id ∈ (ops.foldl (mark_operand now) s).marked ↔
      id ∈ s.marked ∨ (Value.instruction id ∈ ops ∧
        s.m_.get_function id = s.m_.get_function now) := by
  induction ops generalizing s with
  | nil => simp
  | cons a ops ih =>
    rw [List.foldl_cons, ih, mark_operand_marked, (mark_operand_m_ now s a).1]
    simp only [List.mem_cons]
    constructor
    · rintro ((h | ⟨h1, h2⟩) | ⟨h1, h2⟩)
      · exact Or.inl h
      · exact Or.inr ⟨Or.inl h1.symm, h2⟩
      · exact Or.inr ⟨Or.inr h1, h2⟩
    · rintro (h | ⟨h1 | h1, h2⟩)
      · exact Or.inl (Or.inl h)
      · exact Or.inl (Or.inr ⟨h1.symm, h2⟩)
      · exact Or.inr ⟨h1, h2⟩

theorem foldl_mark_operand_work_list (now : Nat) (ops : List Value) (s : DeadCode) (id : Nat) :
    id ∈ (ops.foldl (mark_operand now) s).work_list ↔
      id ∈ s.work_list ∨ (id ∉ s.marked ∧ Value.instruction id ∈ ops ∧
        s.m_.get_function id = s.m_.get_function now) := by
  induction ops generalizing s with
  | nil => simp
  | cons a ops ih =>
    rw [List.foldl_cons, ih, mark_operand_work_list, mark_operand_marked,
      (mark_operand_m_ now s a).1]
    simp only [List.mem_cons]
    constructor
    · rintro ((h | ⟨h0, h1, h2⟩) | ⟨h0, h1, h2⟩)
      · exact Or.inl h
      · exact Or.inr ⟨h0, Or.inl h1.symm, h2⟩
      · exact Or.inr ⟨fun h => h0 (Or.inl h), Or.inr h1, h2⟩
    · rintro (h | ⟨h0, h1 | h1, h2⟩)
      · exact Or.inl (Or.inl h)
      · exact Or.inl (Or.inr ⟨h0, h1.symm, h2⟩)
      · by_cases ha : a = Value.instruction id
        · exact Or.inl (Or.inr ⟨h0, ha, h2⟩)
        · refine Or.inr ⟨?_, h1, h2⟩
          rintro (h | ⟨h3, _⟩)
          · exact h0 h
          · exact ha h3

theorem MarkInv.at_start (fi : Option Nat → Bool) (self : DeadCode) (func : Function) :
    MarkInv fi self.m_ func
      (mark_critical fi func { self with work_list := [], marked := [] }) := by
  obtain ⟨h1, _, h3, h4⟩ := foldl_mark_if_critical fi func.get_instructions
    { self with work_list := [], marked := [] }
  rw [mark_critical_eq]
  simp only [List.nil_append, List.append_nil] at h3 h4
  refine ⟨h1, ?_, ?_, ?_, ?_⟩
  · intro id hid
    rw [h3] at hid
    rw [h4]
    exact List.mem_reverse.2 hid
  · intro id hid
    rw [h4, List.mem_reverse, List.mem_map] at hid
    obtain ⟨ins, hins, rfl⟩ := hid
    obtain ⟨h5, h6⟩ := List.mem_filter.1 hins
    exact Live.critical ins h5 h6
  · intro ins hins hc
    rw [h4, List.mem_reverse]
    exact List.mem_map.2 ⟨ins, List.mem_filter.2 ⟨hins, hc⟩, rfl⟩
  · intro x _ hx hnx
    rw [h4, List.mem_reverse] at hx
    rw [h3] at hnx
    exact absurd hx hnx

theorem MarkInv.after_step (fi : Option Nat → Bool) (m : Module) (hwf : m.WellFormed) (k : Nat)
    (func : Function) (hk : m.functions[k]? = some func) (s : DeadCode) (now : Nat)
    (rest : List Nat) (hinv : MarkInv fi m func s) (hw : s.work_list = now :: rest) :
    MarkInv fi m func (mark_instruction now { s with work_list := rest }) := by
  have hnow : now ∈ s.marked := hinv.queued_marked now (by rw [hw]; exact List.mem_cons_self _ _)
  have hlive := hinv.sound now hnow
  obtain ⟨x, hx, hxid⟩ := hlive.exists_mem
  have hxm := mem_module_instructions m k func hk x hx
  have hfind : m.find_instruction now = some x := by
    rw [← hxid]; exact wf_find_instruction m hwf x hxm
  have hsame : ∀ d, m.get_function d = m.get_function now ↔
      ∃ y ∈ func.get_instructions, y.id = d := by
    intro d
    rw [← hxid]
    exact wf_same_function m hwf k func hk x hx d
  have hmk : ∀ id, id ∈ (mark_instruction now { s with work_list := rest }).marked ↔
      id ∈ s.marked ∨ (Value.instruction id ∈ x.operands ∧
        ∃ y ∈ func.get_instructions, y.id = id) := by
    intro id
    simp only [mark_instruction, hinv.m_eq, hfind, foldl_mark_operand_marked, hsame]
  have hwl : ∀ id, id ∈ (mark_instruction now { s with work_list := rest }).work_list ↔
      id ∈ rest ∨ (id ∉ s.marked ∧ Value.instruction id ∈ x.operands ∧
        ∃ y ∈ func.get_instructions, y.id = id) := by
    intro id
    simp only [mark_instruction, hinv.m_eq, hfind, foldl_mark_operand_work_list, hsame]
  refine ⟨?_, ?_, ?_, ?_, ?_⟩
  · rw [(mark_instruction_m_ _ _).1]
    exact hinv.m_eq
  · intro id hid
    rw [hmk]
    rcases (hwl id).1 hid with h | ⟨_, h1, h2⟩
    · exact Or.inl (hinv.queued_marked id (by rw [hw]; exact List.mem_cons_of_mem _ h))
    · exact Or.inr ⟨h1, h2⟩
  · intro id hid
    rcases (hmk id).1 hid with h | ⟨h1, h2⟩
    · exact hinv.sound id h
    · exact Live.operand x id hx (by rw [hxid]; exact hlive) h1 h2
  · intro ins hins hc
    exact (hmk _).2 (Or.inl (hinv.critical ins hins hc))
  · intro y hy hym hyw d hd hdf
    by_cases hys : y.id ∈ s.marked
    · by_cases hyn : y.id = now
      · have hyx : y = x := wf_instruction_eq m hwf y x
          (mem_module_instructions m k func hk y hy) hxm (hyn.trans hxid.symm)
        rw [hyx] at hd
        exact (hmk d).2 (Or.inr ⟨hd, hdf⟩)
      · have hnw : y.id ∉ s.work_list := by
          rw [hw]
          intro hc
          rcases List.mem_cons.1 hc with hc | hc
          · exact hyn hc
          · exact hyw ((hwl y.id).2 (Or.inl hc))
        exact (hmk d).2 (Or.inl (hinv.closed y hy hys hnw d hd hdf))
    · rcases (hmk y.id).1 hym with h | ⟨h1, h2⟩
      · exact absurd h hys
      · exact absurd ((hwl y.id).2 (Or.inr ⟨hys, h1, h2⟩)) hyw

theorem live_iff_reaches (fi : Option Nat → Bool) (func : Function) (d : Nat) :
    Live fi func d ↔
      ∃ c ∈ func.get_instructions, is_critical fi c = true ∧
        Relation.ReflTransGen (OperandEdge func) c.id d := by
  constructor
  · intro h
    induction h with
    | critical ins h1 h2 => exact ⟨ins, h1, h2, Relation.ReflTransGen.refl⟩
    | operand x d h1 _ h3 h4 ih =>
      obtain ⟨c, hc1, hc2, hc3⟩ := ih
      exact ⟨c, hc1, hc2, Relation.ReflTransGen.tail hc3 ⟨x, h1, rfl, h3, h4⟩⟩
  · rintro ⟨c, hc1, hc2, hc3⟩
    induction hc3 with
    | refl => exact Live.critical c hc1 hc2
    | tail _ hedge ih =>
      obtain ⟨ins, hi1, hi2, hi3, hi4⟩ := hedge
      rw [← hi2] at ih
      exact Live.operand ins _ hi1 ih hi3 hi4

theorem live_iff_critical_or_reaches (fi : Option Nat → Bool) (m : Module) (hwf : m.WellFormed)
    (k : Nat) (func : Function) (hk : m.functions[k]? = some func) (ins : Instruction)
    (hins : ins ∈ func.get_instructions) :
    Live fi func ins.id ↔
      (is_critical fi ins = true ∨
        ∃ c ∈ func.get_instructions, is_critical fi c = true ∧
          Relation.TransGen (OperandEdge func) c.id ins.id) := by
  rw [live_iff_reaches]
  constructor
  · rintro ⟨c, hc1, hc2, hc3⟩
    rcases Relation.reflTransGen_iff_eq_or_transGen.1 hc3 with heq | ht
    · left
      have : ins = c := wf_instruction_eq m hwf ins c
        (mem_module_instructions m k func hk ins hins)
        (mem_module_instructions m k func hk c hc1) heq
      rw [this]
      exact hc2
    · exact Or.inr ⟨c, hc1, hc2, ht⟩
  · rintro (h | ⟨c, hc1, hc2, hc3⟩)
    · exact ⟨ins, hins, h, Relation.ReflTransGen.refl⟩
    · exact ⟨c, hc1, hc2, hc3.to_reflTransGen⟩

theorem mark_marked_iff (is_pure_function : Option Nat → Bool) (k : Nat) (self s' : DeadCode)
    (func : Function) (hwf : self.m_.WellFormed) (hk : self.m_.functions[k]? = some func)
    (hs' : mark is_pure_function k self = some s') :
    ∀ id, id ∈ s'.marked ↔ Live is_pure_function func id := by
  have h := hs'
  simp only [mark, hk] at h
  obtain ⟨hinv, hnil⟩ := mark_loop_induct (MarkInv is_pure_function self.m_ func)
    (fun s now rest hP hw => MarkInv.after_step is_pure_function self.m_ hwf k func hk s now rest hP hw)
    _ _ _ (MarkInv.at_start is_pure_function self func) h
  intro id
  constructor
  · exact hinv.sound id
  · intro hl
    induction hl with
    | critical ins h1 h2 => exact hinv.critical ins h1 h2
    | operand x d h1 _ h3 h4 ih =>
      exact hinv.closed x h1 ih (by rw [hnil]; exact List.not_mem_nil _) d h3 h4

/-- Claim C1: on a well-formed module, whatever the marks and the work list
held before, `mark` returns, leaves the module as it is, and the addresses
it has marked are exactly the least set that contains the critical
instructions of the function and is closed under taking operands that are
instructions of the same function; that is, an address is marked exactly
when a chain of such operand edges leads to it from a critical instruction
of the function. -/
theorem mark_spec (is_pure_function : Option Nat → Bool) (k : Nat) (self : DeadCode)
    (func : Function) (hwf : self.m_.WellFormed) (hk : self.m_.functions[k]? = some func) :
    ∃ s', mark is_pure_function k self = some s' ∧ s'.m_ = self.m_ ∧
      (∀ id, id ∈ s'.marked ↔ Live is_pure_function func id) ∧
      (∀ id, id ∈ s'.marked ↔
        ∃ c ∈ func.get_instructions, is_critical is_pure_function c = true ∧
          Relation.ReflTransGen (OperandEdge func) c.id id) := by
  obtain ⟨s', hs'⟩ := mark_terminates is_pure_function k self func hk
  have h := mark_marked_iff is_pure_function k self s' func hwf hk hs'
  exact ⟨s', hs', (mark_m_ _ _ _ _ hs').1, h,
    fun id => (h id).trans (live_iff_reaches is_pure_function func id)⟩

/-- Claim C1, at the example: the marks of `main` are its live set. -/
theorem mark_spec_witness :
    example_pass.m_.WellFormed ∧ example_pass.m_.functions[0]? = some example_main ∧
    ∃ s', mark example_oracle 0 example_pass = some s' ∧ s'.m_ = example_pass.m_ ∧
      (∀ id, id ∈ s'.marked ↔ Live example_oracle example_main id) ∧
      (∀ id, id ∈ s'.marked ↔
        ∃ c ∈ example_main.get_instructions, is_critical example_oracle c = true ∧
          Relation.ReflTransGen (OperandEdge example_main) c.id id) :=
  ⟨by decide, rfl, mark_spec example_oracle 0 example_pass example_main (by decide) rfl⟩

/-- Claim C3, at the example: with the stale marks 1 and 2, `sweep` keeps
exactly the instructions 1 and 2 of `main`. -/
theorem sweep_spec_witness :
    example_pass.m_.functions[0]? = some example_main ∧
    (sweep 0 example_pass).2.m_.functions[0]? =
      some { example_main with basic_blocks := example_main.basic_blocks.map (fun bb =>
        { bb with instructions :=
            bb.instructions.filter (fun ins => decide (ins.id ∈ example_pass.marked)) }) } ∧
    (sweep 0 example_pass).1 = true :=
  ⟨rfl, (sweep_spec 0 example_pass example_main rfl).1,
    (sweep_spec 0 example_pass example_main rfl).2.1.2
      ⟨{ id := 8, op := OpID.ret, operands := [] }, by decide, by decide⟩⟩

/-- Claim C4, at the example: `clear_basic_blocks` removes the orphan block 12
of `main` and nothing else. -/
theorem clear_basic_blocks_spec_witness :
    example_pass.m_.functions[0]? = some example_main ∧
    (example_main.basic_blocks.map BasicBlock.id).Nodup ∧
    (clear_basic_blocks 0 example_pass).2.m_.functions[0]? =
      some { example_main with basic_blocks := example_main.basic_blocks.filter (fun bb =>
        !((example_main.get_pre_basic_blocks bb).isEmpty &&
          bb.id != example_main.entry_block)) } ∧
    (clear_basic_blocks 0 example_pass).1 = true :=
  ⟨rfl, by decide, (clear_basic_blocks_spec 0 example_pass example_main rfl (by decide)).1,
    (clear_basic_blocks_spec 0 example_pass example_main rfl (by decide)).2.1.2
      ⟨{ id := 12, instructions := [
          { id := 9, op := OpID.call, operands := [Value.function 102] },
          { id := 13, op := OpID.br, operands := [Value.basic_block 11] }] },
        by decide, by decide, by decide⟩⟩

/-! ## Sizes -/

theorem sum_map_modify_le {α : Type} (sz : α → Nat) (g : α → α) (hg : ∀ a, sz (g a) ≤ sz a)
    (l : List α) (k : Nat) : ((l.modify g k).map sz).sum ≤ (l.map sz).sum := by
  induction l generalizing k with
  | nil => simp
  | cons a l ih =>
    cases k with
    | zero =>
      simp only [List.modify_zero_cons, List.map_cons, List.sum_cons]
      have := hg a
      omega
    | succ k =>
      simp only [List.modify_succ_cons, List.map_cons, List.sum_cons]
      have := ih k
      omega

theorem sum_map_modify_lt {α : Type} (sz : α → Nat) (g : α → α)
    (l : List α) (k : Nat) (a : α) (hk : l[k]? = some a) (ha : sz (g a) < sz a) :
    ((l.modify g k).map sz).sum < (l.map sz).sum := by
  induction l generalizing k with
  | nil => simp at hk
  | cons b l ih =>
    cases k with
    | zero =>
      simp only [List.getElem?_cons_zero, Option.some.injEq] at hk
      subst hk
      simp only [List.modify_zero_cons, List.map_cons, List.sum_cons]
      omega
    | succ k =>
      simp only [List.getElem?_cons_succ] at hk
      simp only [List.modify_succ_cons, List.map_cons, List.sum_cons]
      have := ih k hk
      omega

theorem flatten_sublist_of_sublist {α : Type} {L' L : List (List α)} (h : L'.Sublist L) :
    L'.flatten.Sublist L.flatten := by
  induction h with
  | slnil => exact List.Sublist.refl _
  | cons a _ ih =>
    rw [List.flatten_cons]
    exact ih.trans (List.sublist_append_right _ _)
  | cons₂ a _ ih =>
    rw [List.flatten_cons, List.flatten_cons]
    exact List.Sublist.append (List.Sublist.refl _) ih

theorem erase_basic_blocks_instructions (ids : List Nat) (f : Function) :
    (Function.erase_basic_blocks ids f).get_instructions.Sublist f.get_instructions := by
  unfold Function.get_instructions
  exact flatten_sublist_of_sublist ((List.filter_sublist _).map _)

theorem erase_instructions_instructions (ids : List Nat) (f : Function) :
    (Function.erase_instructions ids f).get_instructions =
      f.get_instructions.filter (fun ins => decide (ins.id ∉ ids)) := by
  unfold Function.get_instructions Function.erase_instructions Function.map_instructions
  simp only [List.map_map]
  generalize f.basic_blocks = l
  induction l with
  | nil => rfl
  | cons a l ih =>
    simp only [List.map_cons, List.flatten_cons, List.filter_append, Function.comp] at ih ⊢
    rw [ih]

theorem erase_basic_blocks_size (ids : List Nat) (f : Function) :
    (Function.erase_basic_blocks ids f).size ≤ f.size := by
  unfold Function.size
  have h1 := (erase_basic_blocks_instructions ids f).length_le
  have h2 : (Function.erase_basic_blocks ids f).basic_blocks.length ≤ f.basic_blocks.length :=
    List.length_filter_le _ _
  omega

theorem erase_basic_blocks_size_lt (ids : List Nat) (f : Function)
    (h : ∃ bb ∈ f.basic_blocks, bb.id ∈ ids) :
    (Function.erase_basic_blocks ids f).size < f.size := by
  unfold Function.size
  have h1 := (erase_basic_blocks_instructions ids f).length_le
  have h2 : (Function.erase_basic_blocks ids f).basic_blocks.length < f.basic_blocks.length := by
    unfold Function.erase_basic_blocks
    rw [List.length_filter_lt_length_iff_exists]
    obtain ⟨bb, hb, hid⟩ := h
    exact ⟨bb, hb, by simpa using hid⟩
  omega

theorem erase_instructions_size (ids : List Nat) (f : Function) :
    (Function.erase_instructions ids f).size ≤ f.size := by
  unfold Function.size
  rw [erase_instructions_instructions]
  have h1 := List.length_filter_le (fun ins => decide (ins.id ∉ ids)) f.get_instructions
  have h2 : (Function.erase_instructions ids f).basic_blocks.length = f.basic_blocks.length := by
    simp [Function.erase_instructions, Function.map_instructions]
  omega

theorem erase_instructions_size_lt (ids : List Nat) (f : Function)
    (h : ∃ ins ∈ f.get_instructions, ins.id ∈ ids) :
    (Function.erase_instructions ids f).size < f.size := by
  unfold Function.size
  rw [erase_instructions_instructions]
  have h1 : (f.get_instructions.filter (fun ins => decide (ins.id ∉ ids))).length <
      f.get_instructions.length := by
    rw [List.length_filter_lt_length_iff_exists]
    obtain ⟨ins, hb, hid⟩ := h
    exact ⟨ins, hb, by simpa using hid⟩
  have h2 : (Function.erase_instructions ids f).basic_blocks.length = f.basic_blocks.length := by
    simp [Function.erase_instructions, Function.map_instructions]
  omega

theorem clear_basic_blocks_m_ (k : Nat) (self : DeadCode) (func : Function)
    (hk : self.m_.functions[k]? = some func) :
    (clear_basic_blocks k self).2 =
      { self with m_ := self.m_.modify_function k (Function.erase_basic_blocks
          ((func.basic_blocks.filter (is_dead_block func)).map BasicBlock.id)) } := by
  simp only [clear_basic_blocks, hk, foldl_erase_block]

theorem clear_basic_blocks_changed (k : Nat) (self : DeadCode) (func : Function)
    (hk : self.m_.functions[k]? = some func) :
    (clear_basic_blocks k self).1 = true ↔
      ∃ bb ∈ func.basic_blocks, is_dead_block func bb = true := by
  simp only [clear_basic_blocks, hk]
  cases hf : func.basic_blocks.filter (is_dead_block func) with
  | nil =>
    simp only [List.map_nil, List.isEmpty_nil, Bool.not_true, Bool.false_eq_true, false_iff,
      not_exists, not_and]
    intro bb hbb hd
    have : bb ∈ func.basic_blocks.filter (is_dead_block func) := List.mem_filter.2 ⟨hbb, hd⟩
    rw [hf] at this
    exact absurd this (List.not_mem_nil _)
  | cons a l =>
    simp only [List.map_cons, List.isEmpty_cons, Bool.not_false, true_iff]
    have : a ∈ func.basic_blocks.filter (is_dead_block func) := by
      rw [hf]; exact List.mem_cons_self _ _
    exact ⟨a, (List.mem_filter.1 this).1, (List.mem_filter.1 this).2⟩

theorem clear_basic_blocks_unchanged (k : Nat) (self : DeadCode)
    (h : (clear_basic_blocks k self).1 = false) : (clear_basic_blocks k self).2 = self := by
  unfold clear_basic_blocks at h ⊢
  cases hk : self.m_.functions[k]? with
  | none => rfl
  | some func =>
    rw [hk] at h
    simp only [Bool.not_eq_false', List.isEmpty_eq_true] at h
    simp only [h, List.foldl_nil]

theorem clear_basic_blocks_size (k : Nat) (self : DeadCode) :
    (clear_basic_blocks k self).2.m_.size ≤ self.m_.size ∧
    ((clear_basic_blocks k self).1 = true →
      (clear_basic_blocks k self).2.m_.size < self.m_.size) ∧
    (clear_basic_blocks k self).2.m_.functions.length = self.m_.functions.length ∧
    (clear_basic_blocks k self).2.ins_count = self.ins_count := by
  cases hk : self.m_.functions[k]? with
  | none => simp [clear_basic_blocks, hk]
  | some func =>
    rw [clear_basic_blocks_m_ k self func hk, clear_basic_blocks_changed k self func hk]
    refine ⟨sum_map_modify_le _ _ (erase_basic_blocks_size _) _ _, ?_,
      modify_function_length _ _ _, rfl⟩
    rintro ⟨bb, hbb, hd⟩
    apply sum_map_modify_lt _ _ _ _ func hk
    exact erase_basic_blocks_size_lt _ _
      ⟨bb, hbb, List.mem_map.2 ⟨bb, List.mem_filter.2 ⟨hbb, hd⟩, rfl⟩⟩

theorem sweep_unchanged (k : Nat) (self : DeadCode)
    (h : (sweep k self).1 = false) : (sweep k self).2 = self := by
  unfold sweep at h ⊢
  cases hk : self.m_.functions[k]? with
  | none => rfl
  | some func =>
    rw [hk] at h
    simp only [Bool.not_eq_false', List.isEmpty_eq_true] at h
    simp only [h, erase_all, detach_all, List.foldl_nil, List.length_nil, Nat.add_zero]

theorem sweep_size (k : Nat) (self : DeadCode) :
    (sweep k self).2.m_.size ≤ self.m_.size ∧
    ((sweep k self).1 = true → (sweep k self).2.m_.size < self.m_.size) ∧
    (sweep k self).2.m_.functions.length = self.m_.functions.length := by
  cases hk : self.m_.functions[k]? with
  | none => simp [sweep, hk]
  | some func =>
    rw [sweep_changed k self func hk]
    simp only [Module.size, (sweep_functions k self func hk).1, List.length_modify]
    refine ⟨sum_map_modify_le _ _ (erase_instructions_size _) _ _, ?_, trivial⟩
    rintro ⟨ins, hins, hd⟩
    apply sum_map_modify_lt _ _ _ _ func hk
    exact erase_instructions_size_lt _ _
      ⟨ins, hins, (mem_wait_del_ids func self.marked ins hins).2 hd⟩

/-! ## `run`: termination and idempotence -/

theorem clear_basic_blocks_length (k : Nat) (self : DeadCode) :
    (clear_basic_blocks k self).2.m_.functions.length = self.m_.functions.length :=
  (clear_basic_blocks_size k self).2.2.1

theorem run_function_total (fi : Option Nat → Bool) (k : Nat) (self : DeadCode)
    (hk : k < self.m_.functions.length) : ∃ r, run_function fi k self = some r := by
  unfold run_function
  have hk1 : k < (clear_basic_blocks k self).2.m_.functions.length := by
    rw [clear_basic_blocks_length]; exact hk
  obtain ⟨func, hfunc⟩ : ∃ func, (clear_basic_blocks k self).2.m_.functions[k]? = some func :=
    ⟨_, List.getElem?_eq_getElem hk1⟩
  obtain ⟨s2, hs2⟩ := mark_terminates fi k _ func hfunc
  simp only [hs2]
  exact ⟨_, rfl⟩

theorem run_function_size (fi : Option Nat → Bool) (k : Nat) (self : DeadCode)
    (r : Bool × DeadCode) (h : run_function fi k self = some r) :
    r.2.m_.size ≤ self.m_.size ∧ (r.1 = true → r.2.m_.size < self.m_.size) ∧
    r.2.m_.functions.length = self.m_.functions.length := by
  unfold run_function at h
  cases hm : mark fi k (clear_basic_blocks k self).2 with
  | none => simp [hm] at h
  | some s2 =>
    simp only [hm, Option.some.injEq] at h
    have hc := clear_basic_blocks_size k self
    have hs := sweep_size k s2
    have hm2 := (mark_m_ fi k _ s2 hm).1
    rw [hm2] at hs
    rw [← h]
    refine ⟨le_trans hs.1 hc.1, ?_, hs.2.2.trans hc.2.2.1⟩
    intro hch
    simp only [Bool.or_eq_true] at hch
    rcases hch with hch | hch
    · exact lt_of_le_of_lt hs.1 (hc.2.1 hch)
    · exact lt_of_lt_of_le (hs.2.1 hch) hc.1

theorem run_function_unchanged (fi : Option Nat → Bool) (k : Nat) (self s' : DeadCode)
    (h : run_function fi k self = some (false, s')) :
    s'.m_ = self.m_ ∧ s'.ins_count = self.ins_count := by
  unfold run_function at h
  cases hm : mark fi k (clear_basic_blocks k self).2 with
  | none => simp [hm] at h
  | some s2 =>
    simp only [hm, Option.some.injEq, Prod.mk.injEq, Bool.or_eq_false_iff] at h
    obtain ⟨⟨h1, h2⟩, h3⟩ := h
    have hc := clear_basic_blocks_unchanged k self h1
    have hs := sweep_unchanged k s2 h2
    have hm2 := mark_m_ fi k _ s2 hm
    rw [← h3, hs, hm2.1, hm2.2.1, hc]
    exact ⟨rfl, rfl⟩

theorem clear_basic_blocks_congr (k : Nat) (s t : DeadCode) (hm : s.m_ = t.m_)
    (hc : s.ins_count = t.ins_count) :
    (clear_basic_blocks k s).1 = (clear_basic_blocks k t).1 ∧
    (clear_basic_blocks k s).2.m_ = (clear_basic_blocks k t).2.m_ ∧
    (clear_basic_blocks k s).2.ins_count = (clear_basic_blocks k t).2.ins_count := by
  unfold clear_basic_blocks
  rw [hm]
  cases hk : t.m_.functions[k]? with
  | none => exact ⟨rfl, hm, hc⟩
  | some func =>
    simp only [foldl_erase_block, hm, hc, and_self]

theorem mark_congr (fi : Option Nat → Bool) (k : Nat) (s t : DeadCode) (hm : s.m_ = t.m_)
    (hc : s.ins_count = t.ins_count) : mark fi k s = mark fi k t := by
  unfold mark
  rw [hm, hc]

theorem run_function_congr (fi : Option Nat → Bool) (k : Nat) (s t : DeadCode)
    (hm : s.m_ = t.m_) (hc : s.ins_count = t.ins_count) :
    run_function fi k s = run_function fi k t := by
  unfold run_function
  obtain ⟨h1, h2, h3⟩ := clear_basic_blocks_congr k s t hm hc
  simp only [mark_congr fi k _ _ h2 h3, h1]

theorem run_functions_total (fi : Option Nat → Bool) (ks : List Nat) (changed : Bool)
    (self : DeadCode) (hks : ∀ k ∈ ks, k < self.m_.functions.length) :
    ∃ r, run_functions fi ks changed self = some r := by
  induction ks generalizing changed self with
  | nil => exact ⟨_, rfl⟩
  | cons k ks ih =>
    unfold run_functions
    obtain ⟨r, hr⟩ := run_function_total fi k self (hks k (List.mem_cons_self _ _))
    simp only [hr]
    apply ih
    intro j hj
    rw [(run_function_size fi k self r hr).2.2]
    exact hks j (List.mem_cons_of_mem _ hj)

theorem run_functions_size (fi : Option Nat → Bool) (ks : List Nat) (changed : Bool)
    (self : DeadCode) (r : Bool × DeadCode) (h : run_functions fi ks changed self = some r) :
    r.2.m_.size ≤ self.m_.size ∧
    (r.1 = true → changed = true ∨ r.2.m_.size < self.m_.size) ∧
    (changed = true → r.1 = true) ∧
    r.2.m_.functions.length = self.m_.functions.length := by
  induction ks generalizing changed self with
  | nil =>
    simp only [run_functions, Option.some.injEq] at h
    rw [← h]
    exact ⟨le_refl _, fun h => Or.inl h, fun h => h, rfl⟩
  | cons k ks ih =>
    unfold run_functions at h
    cases hr : run_function fi k self with
    | none => simp [hr] at h
    | some r1 =>
      simp only [hr] at h
      obtain ⟨a1, a2, a3, a4⟩ := ih _ _ h
      obtain ⟨b1, b2, b3⟩ := run_function_size fi k self r1 hr
      refine ⟨le_trans a1 b1, ?_, ?_, a4.trans b3⟩
      · intro hr1
        rcases a2 hr1 with hc | hc
        · simp only [Bool.or_eq_true] at hc
          rcases hc with hc | hc
          · exact Or.inl hc
          · exact Or.inr (lt_of_le_of_lt a1 (b2 hc))
        · exact Or.inr (lt_of_lt_of_le hc b1)
      · intro hc
        exact a3 (by simp [hc])

theorem run_functions_unchanged (fi : Option Nat → Bool) (ks : List Nat) (self s' : DeadCode)
    (h : run_functions fi ks false self = some (false, s')) :
    s'.m_ = self.m_ ∧ s'.ins_count = self.ins_count ∧
    ∀ k ∈ ks, ∃ t t', t.m_ = self.m_ ∧ t.ins_count = self.ins_count ∧
      run_function fi k t = some (false, t') := by
  induction ks generalizing self with
  | nil =>
    simp only [run_functions, Option.some.injEq, Prod.mk.injEq, true_and] at h
    rw [← h]
    exact ⟨rfl, rfl, fun k hk => absurd hk (List.not_mem_nil _)⟩
  | cons k ks ih =>
    unfold run_functions at h
    cases hr : run_function fi k self with
    | none => simp [hr] at h
    | some r1 =>
      simp only [hr, Bool.false_or] at h
      have hr1 : r1.1 = false := by
        by_contra hc
        have := (run_functions_size fi ks r1.1 r1.2 _ h).2.2.1 (by simpa using hc)
        simp at this
      rw [hr1] at h
      obtain ⟨a1, a2, a3⟩ := ih _ h
      have hr' : run_function fi k self = some (false, r1.2) := by
        rw [hr, ← hr1]
      obtain ⟨b1, b2⟩ := run_function_unchanged fi k self r1.2 hr'
      refine ⟨a1.trans b1, a2.trans b2, ?_⟩
      intro j hj
      rcases List.mem_cons.1 hj with hj | hj
      · rw [hj]
        exact ⟨self, r1.2, rfl, rfl, hr'⟩
      · obtain ⟨t, t', c1, c2, c3⟩ := a3 j hj
        exact ⟨t, t', c1.trans b1, c2.trans b2, c3⟩

theorem run_functions_congr (fi : Option Nat → Bool) (ks : List Nat) (changed : Bool)
    (s t : DeadCode) (hm : s.m_ = t.m_) (hc : s.ins_count = t.ins_count) (hks : ks ≠ []) :
    run_functions fi ks changed s = run_functions fi ks changed t := by
  cases ks with
  | nil => exact absurd rfl hks
  | cons k ks =>
    unfold run_functions
    rw [run_function_congr fi k s t hm hc]

theorem run_functions_again (fi : Option Nat → Bool) (ks : List Nat) (self s' : DeadCode)
    (h : run_functions fi ks false self = some (false, s')) :
    run_functions fi ks false s' = some (false, s') := by
  cases ks with
  | nil => rfl
  | cons _ _ =>
    obtain ⟨h1, h2, _⟩ := run_functions_unchanged fi _ self s' h
    rw [run_functions_congr fi _ false s' self h1 h2 (List.cons_ne_nil _ _)]
    exact h

theorem run_round_again (fi : Option Nat → Bool) (self s' : DeadCode)
    (h : run_round fi self = some (false, s')) : run_round fi s' = some (false, s') := by
  unfold run_round at h ⊢
  rw [(run_functions_unchanged fi _ self s' h).1]
  exact run_functions_again fi _ self s' h

theorem run_round_total (fi : Option Nat → Bool) (self : DeadCode) :
    ∃ r, run_round fi self = some r :=
  run_functions_total fi _ false self (fun _ hk => List.mem_range.1 hk)

theorem run_round_size (fi : Option Nat → Bool) (self : DeadCode) (r : Bool × DeadCode)
    (h : run_round fi self = some r) :
    r.2.m_.size ≤ self.m_.size ∧ (r.1 = true → r.2.m_.size < self.m_.size) := by
  obtain ⟨a1, a2, _, _⟩ := run_functions_size fi _ false self r h
  refine ⟨a1, fun hr => ?_⟩
  rcases a2 hr with hc | hc
  · simp at hc
  · exact hc

theorem run_loop_total (fi : Option Nat → Bool) (fuel : Nat) (self : DeadCode)
    (hfuel : self.m_.size < fuel) : ∃ s', run_loop fi fuel self = some s' := by
  induction fuel generalizing self with
  | zero => omega
  | succ fuel ih =>
    unfold run_loop
    obtain ⟨r, hr⟩ := run_round_total fi self
    simp only [hr]
    by_cases hc : r.1 = true
    · simp only [hc, if_true]
      apply ih
      have := (run_round_size fi self r hr).2 hc
      omega
    · simp only [hc, Bool.false_eq_true, if_false]
      exact ⟨_, rfl⟩

theorem run_loop_last_round (fi : Option Nat → Bool) (fuel : Nat) (self s' : DeadCode)
    (h : run_loop fi fuel self = some s') : ∃ t, run_round fi t = some (false, s') := by
  induction fuel generalizing self with
  | zero => simp [run_loop] at h
  | succ fuel ih =>
    unfold run_loop at h
    cases hr : run_round fi self with
    | none => simp [hr] at h
    | some r =>
      simp only [hr] at h
      by_cases hc : r.1 = true
      · simp only [hc, if_true] at h
        exact ih _ h
      · simp only [hc, Bool.false_eq_true, if_false, Option.some.injEq] at h
        refine ⟨self, ?_⟩
        rw [hr, ← h]
        have : r.1 = false := by simpa using hc
        rw [← this]

theorem run_total (fi : Option Nat → Bool) (self : DeadCode) : ∃ s', run fi self = some s' :=
  run_loop_total fi _ self (Nat.lt_succ_self _)

theorem run_fixed (fi : Option Nat → Bool) (self s' : DeadCode) (h : run fi self = some s') :
    run_round fi s' = some (false, s') ∧ run fi s' = some s' := by
  obtain ⟨t, ht⟩ := run_loop_last_round fi _ self s' h
  have h1 := run_round_again fi t s' ht
  refine ⟨h1, ?_⟩
  unfold run run_loop
  simp only [h1, Bool.false_eq_true, if_false]

/-- Claim C8: the loop of `run` terminates on every module, and every round
either reports `changed = false` or strictly decreases the number of blocks
plus instructions of the module; no round increases that number. -/
theorem run_terminates (is_pure_function : Option Nat → Bool) (self : DeadCode) :
    (∃ s', run is_pure_function self = some s') ∧
    ∀ s : DeadCode, ∃ r, run_round is_pure_function s = some r ∧
      r.2.m_.size ≤ s.m_.size ∧ (r.1 = false ∨ r.2.m_.size < s.m_.size) := by
  refine ⟨run_total is_pure_function self, fun s => ?_⟩
  obtain ⟨r, hr⟩ := run_round_total is_pure_function s
  obtain ⟨h1, h2⟩ := run_round_size is_pure_function s r hr
  refine ⟨r, hr, h1, ?_⟩
  by_cases hc : r.1 = true
  · exact Or.inr (h2 hc)
  · exact Or.inl (by simpa using hc)

/-- Claim C9: for a fixed purity oracle, running the pass on its own output
changes nothing: the second run returns the state it was given, after one
round that reports `changed = false`. -/
theorem run_idempotent (is_pure_function : Option Nat → Bool) (self : DeadCode) :
    ∃ s', run is_pure_function self = some s' ∧
      run is_pure_function s' = some s' ∧
      run_round is_pure_function s' = some (false, s') := by
  obtain ⟨s', hs'⟩ := run_total is_pure_function self
  obtain ⟨h1, h2⟩ := run_fixed is_pure_function self s' hs'
  exact ⟨s', hs', h2, h1⟩

/-! ## What a run leaves of a module -/

theorem blockKept_refl (fi : Option Nat → Bool) (b : BasicBlock) : BlockKept fi b b :=
  ⟨rfl, List.Sublist.refl _, fun _ h _ => h⟩

theorem blockKept_trans {fi : Option Nat → Bool} {a b c : BasicBlock}
    (h1 : BlockKept fi a b) (h2 : BlockKept fi b c) : BlockKept fi a c :=
  ⟨h2.1.trans h1.1, h2.2.1.trans h1.2.1,
    fun ins hi hc => h2.2.2 ins (h1.2.2 ins hi hc) hc⟩

theorem functionShrinks_refl (fi : Option Nat → Bool) (f : Function) : FunctionShrinks fi f f :=
  ⟨rfl, rfl, rfl, List.Sublist.refl _, List.Sublist.refl _,
    fun b hb => ⟨b, hb, blockKept_refl fi b⟩,
    fun b hb _ => List.mem_map.2 ⟨b, hb, rfl⟩⟩

theorem functionShrinks_trans {fi : Option Nat → Bool} {f g h : Function}
    (h1 : FunctionShrinks fi f g) (h2 : FunctionShrinks fi g h) : FunctionShrinks fi f h := by
  obtain ⟨a1, a2, a3, a4, a5, a6, a7⟩ := h1
  obtain ⟨b1, b2, b3, b4, b5, b6, b7⟩ := h2
  refine ⟨b1.trans a1, b2.trans a2, b3.trans a3, b4.trans a4, b5.trans a5, ?_, ?_⟩
  · intro c hc
    obtain ⟨b, hb, hbc⟩ := b6 c hc
    obtain ⟨a, ha, hab⟩ := a6 b hb
    exact ⟨a, ha, blockKept_trans hab hbc⟩
  · intro b hb he
    obtain ⟨b', hb', hid⟩ := List.mem_map.1 (a7 b hb he)
    have := b7 b' hb' (by rw [hid, he, a3])
    rw [hid] at this
    exact this

theorem moduleShrinks_refl (fi : Option Nat → Bool) (m : Module) : ModuleShrinks fi m m :=
  List.forall₂_same.2 (fun f _ => functionShrinks_refl fi f)

theorem forall₂_trans {α : Type} {R : α → α → Prop}
    (hR : ∀ a b c, R a b → R b c → R a c) {l1 l2 l3 : List α}
    (h1 : List.Forall₂ R l1 l2) (h2 : List.Forall₂ R l2 l3) : List.Forall₂ R l1 l3 := by
  induction h1 generalizing l3 with
  | nil =>
    cases h2
    exact List.Forall₂.nil
  | cons hab _ ih =>
    cases h2 with
    | cons hbc h2' => exact List.Forall₂.cons (hR _ _ _ hab hbc) (ih h2')

theorem moduleShrinks_trans {fi : Option Nat → Bool} {m1 m2 m3 : Module}
    (h1 : ModuleShrinks fi m1 m2) (h2 : ModuleShrinks fi m2 m3) : ModuleShrinks fi m1 m3 :=
  forall₂_trans (R := FunctionShrinks fi) (fun _ _ _ h1 h2 => functionShrinks_trans h1 h2) h1 h2

theorem forall₂_modify {α : Type} {R : α → α → Prop} (hrefl : ∀ a, R a a) (g : α → α)
    (l : List α) (k : Nat) (hg : ∀ a, l[k]? = some a → R a (g a)) :
    List.Forall₂ R l (l.modify g k) := by
  induction l generalizing k with
  | nil => simp
  | cons b l ih =>
    cases k with
    | zero =>
      rw [List.modify_zero_cons]
      exact List.Forall₂.cons (hg b (by simp)) (List.forall₂_same.2 (fun a _ => hrefl a))
    | succ k =>
      rw [List.modify_succ_cons]
      exact List.Forall₂.cons (hrefl b) (ih k (fun a ha => hg a (by simpa using ha)))

theorem forall₂_getElem? {α : Type} {R : α → α → Prop} {l l' : List α}
    (h : List.Forall₂ R l l') (k : Nat) (a : α) (ha : l[k]? = some a) :
    ∃ a', l'[k]? = some a' ∧ R a a' := by
  induction h generalizing k with
  | nil => simp at ha
  | cons hab _ ih =>
    cases k with
    | zero =>
      simp only [List.getElem?_cons_zero, Option.some.injEq] at ha
      subst ha
      exact ⟨_, by simp, hab⟩
    | succ k =>
      simp only [List.getElem?_cons_succ] at ha ⊢
      exact ih k ha

theorem forall₂_getElem?_right {α : Type} {R : α → α → Prop} {l l' : List α}
    (h : List.Forall₂ R l l') (k : Nat) (a' : α) (ha : l'[k]? = some a') :
    ∃ a, l[k]? = some a ∧ R a a' := by
  induction h generalizing k with
  | nil => simp at ha
  | cons hab _ ih =>
    cases k with
    | zero =>
      simp only [List.getElem?_cons_zero, Option.some.injEq] at ha
      subst ha
      exact ⟨_, by simp, hab⟩
    | succ k =>
      simp only [List.getElem?_cons_succ] at ha ⊢
      exact ih k ha

theorem forall₂_shrinks_instructions {fi : Option Nat → Bool} {l l' : List Function}
    (h : List.Forall₂ (FunctionShrinks fi) l l') :
    (l'.map Function.get_instructions).flatten.Sublist
      (l.map Function.get_instructions).flatten := by
  induction h with
  | nil => exact List.Sublist.refl _
  | cons hab _ ih =>
    simp only [List.map_cons, List.flatten_cons]
    exact List.Sublist.append hab.2.2.2.2.1 ih

theorem forall₂_shrinks_ids {fi : Option Nat → Bool} {l l' : List Function}
    (h : List.Forall₂ (FunctionShrinks fi) l l') :
    l'.map Function.id = l.map Function.id := by
  induction h with
  | nil => rfl
  | cons hab _ ih =>
    simp only [List.map_cons]
    rw [hab.1, ih]

theorem ModuleShrinks.instructions {fi : Option Nat → Bool} {m m' : Module}
    (h : ModuleShrinks fi m m') : m'.get_instructions.Sublist m.get_instructions :=
  forall₂_shrinks_instructions h

theorem ModuleShrinks.function_ids {fi : Option Nat → Bool} {m m' : Module}
    (h : ModuleShrinks fi m m') : m'.functions.map Function.id = m.functions.map Function.id :=
  forall₂_shrinks_ids h

theorem ModuleShrinks.wellFormed {fi : Option Nat → Bool} {m m' : Module}
    (h : ModuleShrinks fi m m') (hwf : m.WellFormed) : m'.WellFormed := by
  refine ⟨List.Nodup.sublist (h.instructions.map _) hwf.1, ?_, ?_⟩
  · rw [h.function_ids]
    exact hwf.2.1
  · intro f' hf'
    obtain ⟨k, hk⟩ := List.mem_iff_getElem?.1 hf'
    obtain ⟨f, hf, hR⟩ := forall₂_getElem?_right h k f' hk
    exact List.Nodup.sublist hR.2.2.2.1 (hwf.2.2 f (List.mem_iff_getElem?.2 ⟨k, hf⟩))

theorem Live.of_functionShrinks {fi : Option Nat → Bool} {f f' : Function}
    (h : FunctionShrinks fi f f') {id : Nat} (hl : Live fi f' id) : Live fi f id := by
  have hsub : ∀ x, x ∈ f'.get_instructions → x ∈ f.get_instructions :=
    fun x hx => h.2.2.2.2.1.subset hx
  induction hl with
  | critical ins h1 h2 => exact Live.critical ins (hsub ins h1) h2
  | operand x d h1 _ h3 h4 ih =>
    obtain ⟨y, hy, hyd⟩ := h4
    exact Live.operand x d (hsub x h1) ih h3 ⟨y, hsub y hy, hyd⟩

theorem erase_basic_blocks_shrinks (fi : Option Nat → Bool) (func : Function) :
    FunctionShrinks fi func (Function.erase_basic_blocks
      ((func.basic_blocks.filter (is_dead_block func)).map BasicBlock.id) func) := by
  refine ⟨rfl, rfl, rfl, (List.filter_sublist _).map _, erase_basic_blocks_instructions _ _,
    ?_, ?_⟩
  · intro b' hb'
    exact ⟨b', (List.mem_filter.1 hb').1, blockKept_refl fi b'⟩
  · intro b hb he
    refine List.mem_map.2 ⟨b, List.mem_filter.2 ⟨hb, ?_⟩, rfl⟩
    simp only [decide_eq_true_eq]
    intro hc
    obtain ⟨b2, hb2, hid⟩ := List.mem_map.1 hc
    have hd := (List.mem_filter.1 hb2).2
    simp only [is_dead_block, Bool.and_eq_true, bne_iff_ne, ne_eq] at hd
    exact hd.2 (hid.trans he)

theorem erase_instructions_shrinks (fi : Option Nat → Bool) (func : Function)
    (marked : List Nat)
    (hm : ∀ ins ∈ func.get_instructions, is_critical fi ins = true → ins.id ∈ marked) :
    FunctionShrinks fi func (Function.erase_instructions
      ((collect_wait_del func marked).map Instruction.id) func) := by
  refine ⟨rfl, rfl, rfl, ?_, ?_, ?_, ?_⟩
  · simp only [Function.erase_instructions, Function.map_instructions, List.map_map]
    exact List.Sublist.refl _
  · rw [erase_instructions_instructions]
    exact List.filter_sublist _
  · intro b' hb'
    simp only [Function.erase_instructions, Function.map_instructions, List.mem_map] at hb'
    obtain ⟨b, hb, rfl⟩ := hb'
    refine ⟨b, hb, rfl, List.filter_sublist _, ?_⟩
    intro ins hins hc
    have hmem : ins ∈ func.get_instructions := (mem_get_instructions _ _).2 ⟨b, hb, hins⟩
    refine List.mem_filter.2 ⟨hins, ?_⟩
    simp only [decide_eq_true_eq]
    intro hw
    exact (mem_wait_del_ids func marked ins hmem).1 (List.mem_map.2 hw) (hm ins hmem hc)
  · intro b hb _
    simp only [Function.erase_instructions, Function.map_instructions, List.map_map]
    exact List.mem_map.2 ⟨b, hb, rfl⟩

theorem modify_function_shrinks (fi : Option Nat → Bool) (m : Module) (k : Nat)
    (g : Function → Function) (hg : ∀ f, m.functions[k]? = some f → FunctionShrinks fi f (g f)) :
    ModuleShrinks fi m (m.modify_function k g) :=
  forall₂_modify (functionShrinks_refl fi) g m.functions k hg

theorem clear_basic_blocks_shrinks (fi : Option Nat → Bool) (k : Nat) (self : DeadCode) :
    ModuleShrinks fi self.m_ (clear_basic_blocks k self).2.m_ := by
  cases hk : self.m_.functions[k]? with
  | none =>
    simp only [clear_basic_blocks, hk]
    exact moduleShrinks_refl fi _
  | some func =>
    rw [clear_basic_blocks_m_ k self func hk]
    apply modify_function_shrinks
    intro f hf
    rw [hk] at hf
    simp only [Option.some.injEq] at hf
    rw [← hf]
    exact erase_basic_blocks_shrinks fi func

theorem sweep_shrinks (fi : Option Nat → Bool) (k : Nat) (self : DeadCode)
    (hm : ∀ func, self.m_.functions[k]? = some func →
      ∀ ins ∈ func.get_instructions, is_critical fi ins = true → ins.id ∈ self.marked) :
    ModuleShrinks fi self.m_ (sweep k self).2.m_ := by
  cases hk : self.m_.functions[k]? with
  | none =>
    simp only [sweep, hk]
    exact moduleShrinks_refl fi _
  | some func =>
    unfold ModuleShrinks
    rw [(sweep_functions k self func hk).1]
    apply forall₂_modify (functionShrinks_refl fi)
    intro f hf
    rw [hk] at hf
    simp only [Option.some.injEq] at hf
    rw [← hf]
    exact erase_instructions_shrinks fi func self.marked (hm func hk)

theorem mark_critical_marked (fi : Option Nat → Bool) (k : Nat) (self s' : DeadCode)
    (func : Function) (hk : self.m_.functions[k]? = some func)
    (hs' : mark fi k self = some s') :
    ∀ ins ∈ func.get_instructions, is_critical fi ins = true → ins.id ∈ s'.marked := by
  simp only [mark, hk] at hs'
  have := mark_loop_induct
    (fun s => ∀ ins ∈ func.get_instructions, is_critical fi ins = true → ins.id ∈ s.marked)
    (by
      intro s now rest hP _ ins hins hc
      unfold mark_instruction
      split
      · exact hP ins hins hc
      · exact (foldl_mark_operand_marked _ _ _ _).2 (Or.inl (hP ins hins hc)))
    _ _ _ (MarkInv.at_start fi self func).critical hs'
  exact this.1

theorem run_function_shrinks (fi : Option Nat → Bool) (k : Nat) (self : DeadCode)
    (r : Bool × DeadCode) (h : run_function fi k self = some r) :
    ModuleShrinks fi self.m_ r.2.m_ := by
  unfold run_function at h
  cases hm : mark fi k (clear_basic_blocks k self).2 with
  | none => simp [hm] at h
  | some s2 =>
    simp only [hm, Option.some.injEq] at h
    rw [← h]
    have h1 := clear_basic_blocks_shrinks fi k self
    have hm2 := (mark_m_ fi k _ s2 hm).1
    have h2 := sweep_shrinks fi k s2 (by
      intro func hf
      rw [hm2] at hf
      exact mark_critical_marked fi k _ s2 func hf hm)
    rw [hm2] at h2
    exact moduleShrinks_trans h1 h2

theorem run_functions_shrinks (fi : Option Nat → Bool) (ks : List Nat) (changed : Bool)
    (self : DeadCode) (r : Bool × DeadCode) (h : run_functions fi ks changed self = some r) :
    ModuleShrinks fi self.m_ r.2.m_ := by
  induction ks generalizing changed self with
  | nil =>
    simp only [run_functions, Option.some.injEq] at h
    rw [← h]
    exact moduleShrinks_refl fi _
  | cons k ks ih =>
    unfold run_functions at h
    cases hr : run_function fi k self with
    | none => simp [hr] at h
    | some r1 =>
      simp only [hr] at h
      exact moduleShrinks_trans (run_function_shrinks fi k self r1 hr) (ih _ _ h)

theorem run_loop_shrinks (fi : Option Nat → Bool) (fuel : Nat) (self s' : DeadCode)
    (h : run_loop fi fuel self = some s') : ModuleShrinks fi self.m_ s'.m_ := by
  induction fuel generalizing self with
  | zero => simp [run_loop] at h
  | succ fuel ih =>
    unfold run_loop at h
    cases hr : run_round fi self with
    | none => simp [hr] at h
    | some r =>
      simp only [hr] at h
      have h1 := run_functions_shrinks fi _ false self r hr
      by_cases hc : r.1 = true
      · simp only [hc, if_true] at h
        exact moduleShrinks_trans h1 (ih _ h)
      · simp only [hc, Bool.false_eq_true, if_false, Option.some.injEq] at h
        rw [← h]
        exact h1

theorem run_shrinks (fi : Option Nat → Bool) (self s' : DeadCode)
    (h : run fi self = some s') : ModuleShrinks fi self.m_ s'.m_ :=
  run_loop_shrinks fi _ self s' h

/-! ## After `run` every instruction is live -/

theorem run_function_false_live (fi : Option Nat → Bool) (k : Nat) (t t' : DeadCode)
    (func : Function) (hwf : t.m_.WellFormed) (hk : t.m_.functions[k]? = some func)
    (h : run_function fi k t = some (false, t')) :
    ∀ ins ∈ func.get_instructions, Live fi func ins.id := by
  unfold run_function at h
  cases hm : mark fi k (clear_basic_blocks k t).2 with
  | none => simp [hm] at h
  | some s2 =>
    simp only [hm, Option.some.injEq, Prod.mk.injEq, Bool.or_eq_false_iff] at h
    obtain ⟨⟨h1, h2⟩, _⟩ := h
    have hc := clear_basic_blocks_unchanged k t h1
    rw [hc] at hm
    have hm2 := (mark_m_ fi k t s2 hm).1
    have hk2 : s2.m_.functions[k]? = some func := by rw [hm2]; exact hk
    intro ins hins
    rw [← mark_marked_iff fi k t s2 func hwf hk hm]
    by_contra hc2
    have := (sweep_changed k s2 func hk2).2 ⟨ins, hins, hc2⟩
    rw [h2] at this
    exact Bool.false_ne_true this

theorem run_final_live (fi : Option Nat → Bool) (self s' : DeadCode)
    (hwf : self.m_.WellFormed) (h : run fi self = some s') (k : Nat) (func' : Function)
    (hk : s'.m_.functions[k]? = some func') :
    ∀ ins ∈ func'.get_instructions, Live fi func' ins.id := by
  have hwf' := (run_shrinks fi self s' h).wellFormed hwf
  have hround := (run_fixed fi self s' h).1
  unfold run_round at hround
  obtain ⟨_, _, h3⟩ := run_functions_unchanged fi _ s' s' hround
  have hlt : k < s'.m_.functions.length := by
    by_contra hc
    rw [List.getElem?_eq_none (by omega)] at hk
    exact Option.noConfusion hk
  obtain ⟨t, t', ht1, _, ht3⟩ := h3 k (List.mem_range.2 hlt)
  exact run_function_false_live fi k t t' func' (by rw [ht1]; exact hwf')
    (by rw [ht1]; exact hk) ht3

/-- Claim C7: on a well-formed module `run` returns, and every instruction
that remains in a function is live there: it is critical, or a chain of
operand edges between instructions of the function leads to it from a
critical instruction of the function. -/
theorem run_all_live (is_pure_function : Option Nat → Bool) (self : DeadCode)
    (hwf : self.m_.WellFormed) :
    ∃ s', run is_pure_function self = some s' ∧
      ∀ (k : Nat) (func' : Function), s'.m_.functions[k]? = some func' →
        ∀ ins ∈ func'.get_instructions,
          is_critical is_pure_function ins = true ∨
          ∃ c ∈ func'.get_instructions, is_critical is_pure_function c = true ∧
            Relation.TransGen (OperandEdge func') c.id ins.id := by
  obtain ⟨s', hs'⟩ := run_total is_pure_function self
  have hwf' := (run_shrinks is_pure_function self s' hs').wellFormed hwf
  refine ⟨s', hs', fun k func' hk ins hins => ?_⟩
  exact (live_iff_critical_or_reaches is_pure_function s'.m_ hwf' k func' hk ins hins).1
    (run_final_live is_pure_function self s' hwf hs' k func' hk ins hins)

/-- Claim C7, at the example. -/
theorem run_all_live_witness :
    example_pass.m_.WellFormed ∧
    ∃ s', run example_oracle example_pass = some s' ∧
      ∀ (k : Nat) (func' : Function), s'.m_.functions[k]? = some func' →
        ∀ ins ∈ func'.get_instructions,
          is_critical example_oracle ins = true ∨
          ∃ c ∈ func'.get_instructions, is_critical example_oracle c = true ∧
            Relation.TransGen (OperandEdge func') c.id ins.id :=
  ⟨by decide, run_all_live example_oracle example_pass (by decide)⟩

theorem not_live_of_unused (fi : Option Nat → Bool) (m : Module) (hwf : m.WellFormed)
    (k : Nat) (func : Function) (c : Instruction) (hk : m.functions[k]? = some func)
    (hc : c ∈ func.get_instructions) (hcrit : is_critical fi c = false)
    (hunused : ∀ x ∈ func.get_instructions, is_critical fi x = true →
      ¬ Relation.TransGen (OperandEdge func) x.id c.id) :
    ¬ Live fi func c.id := by
  intro hl
  rcases (live_iff_critical_or_reaches fi m hwf k func hk c hc).1 hl with h | ⟨x, hx1, hx2, hx3⟩
  · rw [hcrit] at h
    exact Bool.false_ne_true h
  · exact hunused x hx1 hx2 hx3

/-- Claim C6: on a well-formed module `run` returns, and a call to a function
the oracle reports pure, to which no chain of operand edges between
instructions of its function leads from a critical instruction (its result
is used by no critical instruction, directly or transitively), is in no
function of the module afterwards. The call may lie on a cycle of operand
edges. -/
theorem run_removes_unused_pure_call (is_pure_function : Option Nat → Bool) (self : DeadCode)
    (hwf : self.m_.WellFormed) (k : Nat) (func : Function) (c : Instruction)
    (hk : self.m_.functions[k]? = some func) (hc : c ∈ func.get_instructions)
    (hcall : c.op = OpID.call) (hpure : is_pure_function c.get_callee = true)
    (hunused : ∀ x ∈ func.get_instructions, is_critical is_pure_function x = true →
      ¬ Relation.TransGen (OperandEdge func) x.id c.id) :
    ∃ s', run is_pure_function self = some s' ∧
      ∀ ins ∈ s'.m_.get_instructions, ins.id ≠ c.id := by
  obtain ⟨s', hs'⟩ := run_total is_pure_function self
  refine ⟨s', hs', ?_⟩
  have hcrit : is_critical is_pure_function c = false := by
    obtain ⟨id, op, operands⟩ := c
    simp only at hcall
    subst hcall
    simp [is_critical, Instruction.is_call, hpure]
  have hdead := not_live_of_unused is_pure_function self.m_ hwf k func c hk hc hcrit hunused
  have hsh := run_shrinks is_pure_function self s' hs'
  intro ins hins hid
  unfold Module.get_instructions at hins
  rw [List.mem_flatten] at hins
  obtain ⟨l, hl, hinl⟩ := hins
  obtain ⟨func', hf', rfl⟩ := List.mem_map.1 hl
  obtain ⟨j, hj⟩ := List.mem_iff_getElem?.1 hf'
  obtain ⟨f0, hf0, hR⟩ := forall₂_getElem?_right hsh j func' hj
  have hin0 : ins ∈ f0.get_instructions := hR.2.2.2.2.1.subset hinl
  have hlive := Live.of_functionShrinks hR
    (run_final_live is_pure_function self s' hwf hs' j func' hj ins hinl)
  have hinsc : ins = c := wf_instruction_eq self.m_ hwf ins c
    (mem_module_instructions _ j f0 hf0 ins hin0)
    (mem_module_instructions _ k func hk c hc) hid
  rw [hinsc] at hin0 hlive
  have hfeq : f0 = func := wf_function_of_mem self.m_ hwf f0 func
    (mem_functions_of_getElem? _ j f0 hf0) (mem_functions_of_getElem? _ k func hk) c hin0 hc
  rw [hfeq] at hlive
  exact hdead hlive

/-- Claim C6, at the example: the pure call 2, which lies on the dead cycle
1 → 2 → 1, is gone after the run. -/
theorem run_removes_unused_pure_call_witness :
    example_pass.m_.WellFormed ∧
    (∀ x ∈ example_main.get_instructions, is_critical example_oracle x = true →
      ¬ Relation.TransGen (OperandEdge example_main) x.id 2) ∧
    ∃ s', run example_oracle example_pass = some s' ∧
      ∀ ins ∈ s'.m_.get_instructions, ins.id ≠ 2 :=
  have hunused : ∀ x ∈ example_main.get_instructions, is_critical example_oracle x = true →
      ¬ Relation.TransGen (OperandEdge example_main) x.id 2 :=
    fun x hx hcrit ht =>
      (by decide : (2 : Nat) ∉ [3, 13, 9, 8, 7, 6, 5])
        ((mark_marked_iff example_oracle 0 example_pass
          { m_ := example_module, marked := [3, 13, 9, 8, 7, 6, 5], work_list := [],
            ins_count := 0 }
          example_main (by decide) rfl (by decide) 2).2
          ((live_iff_reaches example_oracle example_main 2).2
            ⟨x, hx, hcrit, ht.to_reflTransGen⟩))
  ⟨by decide, hunused,
    run_removes_unused_pure_call example_oracle example_pass (by decide) 0 example_main
      { id := 2, op := OpID.call, operands := [Value.function 101, Value.instruction 1] }
      rfl (by decide) rfl rfl hunused⟩

/-! ## Use-lists -/

theorem get_use_list_remove_use (m : Module) (v w : Value) (u : Use) :
    (m.remove_use v u).get_use_list w =
      if w = v then (m.get_use_list w).filter (fun e => e != u) else m.get_use_list w := by
  unfold Module.get_use_list Module.remove_use
  simp only
  rw [List.find?_map]
  have hcomp : ((fun row : Value × List Use => row.1 == w) ∘ fun row =>
      if row.1 = v then (row.1, row.2.filter (fun e => e != u)) else row) =
      fun row => row.1 == w := by
    funext row
    by_cases h : row.1 = v <;> simp [h]
  rw [hcomp]
  cases hf : m.use_list.find? (fun row => row.1 == w) with
  | none =>
    simp only [Option.map_none']
    split <;> rfl
  | some row =>
    have hrow : row.1 = w := by simpa using List.find?_some hf
    simp only [Option.map_some']
    by_cases h : w = v
    · have : row.1 = v := by rw [hrow]; exact h
      simp [h, this]
    · have : ¬ row.1 = v := by rw [hrow]; exact h
      simp [h, this]

theorem mem_get_use_list_remove_use (m : Module) (v w : Value) (u e : Use) :
    e ∈ (m.remove_use v u).get_use_list w ↔
      e ∈ m.get_use_list w ∧ ¬ (w = v ∧ e = u) := by
  rw [get_use_list_remove_use]
  by_cases h : w = v
  · simp [h, List.mem_filter]
  · simp [h]

theorem mem_get_use_list_foldl_remove_use (l : List (Nat × Value)) (id : Nat) (m : Module)
    (w : Value) (e : Use) :
    e ∈ (l.foldl (fun m p => m.remove_use p.2 (id, p.1)) m).get_use_list w ↔
      e ∈ m.get_use_list w ∧ ¬ ∃ p, (p, w) ∈ l ∧ e = (id, p) := by
  induction l generalizing m with
  | nil => simp
  | cons a l ih =>
    rw [List.foldl_cons, ih, mem_get_use_list_remove_use]
    constructor
    · rintro ⟨⟨h1, h2⟩, h3⟩
      refine ⟨h1, ?_⟩
      rintro ⟨p, hp, he⟩
      rcases List.mem_cons.1 hp with hp | hp
      · apply h2
        rw [← hp]
        exact ⟨rfl, he⟩
      · exact h3 ⟨p, hp, he⟩
    · rintro ⟨h1, h2⟩
      refine ⟨⟨h1, ?_⟩, ?_⟩
      · rintro ⟨hw, he⟩
        apply h2
        refine ⟨a.1, ?_, he⟩
        rw [hw]
        exact List.mem_cons_self _ _
      · rintro ⟨p, hp, he⟩
        exact h2 ⟨p, List.mem_cons_of_mem _ hp, he⟩

theorem mem_get_use_list_remove_uses_of (m : Module) (ins : Instruction) (w : Value) (e : Use) :
    e ∈ (m.remove_uses_of ins).get_use_list w ↔
      e ∈ m.get_use_list w ∧ ¬ ∃ p, ins.operands[p]? = some w ∧ e = (ins.id, p) := by
  unfold Module.remove_uses_of
  rw [mem_get_use_list_foldl_remove_use]
  simp only [List.mk_mem_enum_iff_getElem?]

theorem mem_get_use_list_detach (wd : List Instruction) (m : Module) (w : Value) (e : Use) :
    e ∈ (wd.foldl Module.remove_uses_of m).get_use_list w ↔
      e ∈ m.get_use_list w ∧
        ¬ ∃ ins ∈ wd, ∃ p, ins.operands[p]? = some w ∧ e = (ins.id, p) := by
  induction wd generalizing m with
  | nil => simp
  | cons a wd ih =>
    rw [List.foldl_cons, ih, mem_get_use_list_remove_uses_of]
    constructor
    · rintro ⟨⟨h1, h2⟩, h3⟩
      refine ⟨h1, ?_⟩
      rintro ⟨ins, hins, p, hp, he⟩
      rcases List.mem_cons.1 hins with hins | hins
      · rw [hins] at hp he
        exact h2 ⟨p, hp, he⟩
      · exact h3 ⟨ins, hins, p, hp, he⟩
    · rintro ⟨h1, h2⟩
      refine ⟨⟨h1, ?_⟩, ?_⟩
      · rintro ⟨p, hp, he⟩
        exact h2 ⟨a, List.mem_cons_self _ _, p, hp, he⟩
      · rintro ⟨ins, hins, p, hp, he⟩
        exact h2 ⟨ins, List.mem_cons_of_mem _ hins, p, hp, he⟩

theorem get_use_list_modify_function (m : Module) (k : Nat) (g : Function → Function)
    (w : Value) : (m.modify_function k g).get_use_list w = m.get_use_list w := rfl

theorem clear_basic_blocks_use_list (k : Nat) (self : DeadCode) (w : Value) :
    (clear_basic_blocks k self).2.m_.get_use_list w = self.m_.get_use_list w := by
  cases hk : self.m_.functions[k]? with
  | none => simp [clear_basic_blocks, hk]
  | some func =>
    rw [clear_basic_blocks_m_ k self func hk]
    rfl

theorem sweep_use_list (k : Nat) (self : DeadCode) (func : Function)
    (hk : self.m_.functions[k]? = some func)
    (hnd : (func.get_instructions.map Instruction.id).Nodup) (w : Value) (e : Use) :
    e ∈ (sweep k self).2.m_.get_use_list w ↔
      e ∈ self.m_.get_use_list w ∧
        ¬ ∃ ins ∈ collect_wait_del func self.marked, ∃ p,
          ins.operands[p]? = some w ∧ e = (ins.id, p) := by
  rw [sweep_m_ k self func hk hnd, get_use_list_modify_function, mem_get_use_list_detach]

theorem detach_one_use_list_subset (k : Nat) (s : DeadCode) (x : Instruction) (w : Value)
    (e : Use) (h : e ∈ (detach_one k s x).m_.get_use_list w) : e ∈ s.m_.get_use_list w := by
  unfold detach_one at h
  cases hf : (s.m_.functions[k]?).bind (fun f => f.find_instruction x.id) with
  | none =>
    rw [hf] at h
    exact h
  | some inst =>
    rw [hf] at h
    exact ((mem_get_use_list_remove_uses_of s.m_ inst w e).1 h).1

theorem detach_all_use_list_subset (k : Nat) (wd : List Instruction) (s : DeadCode)
    (w : Value) (e : Use) (h : e ∈ (detach_all k wd s).m_.get_use_list w) :
    e ∈ s.m_.get_use_list w := by
  unfold detach_all at h
  induction wd generalizing s with
  | nil => exact h
  | cons x wd ih =>
    rw [List.foldl_cons] at h
    exact detach_one_use_list_subset k s x w e (ih _ h)

theorem sweep_use_list_subset (k : Nat) (s : DeadCode) (w : Value) (e : Use)
    (h : e ∈ (sweep k s).2.m_.get_use_list w) : e ∈ s.m_.get_use_list w := by
  cases hk : s.m_.functions[k]? with
  | none =>
    have : (sweep k s).2.m_ = s.m_ := by simp only [sweep, hk]
    rw [this] at h
    exact h
  | some func =>
    simp only [sweep, hk, foldl_erase_one] at h
    exact detach_all_use_list_subset k _ s w e h

theorem usesSound_get_use_list (m : Module) (h : m.UsesSound) (v : Value) (e : Use)
    (he : e ∈ m.get_use_list v) :
    ∃ ins ∈ m.get_instructions, ins.id = e.1 ∧ ins.operands[e.2]? = some v := by
  unfold Module.get_use_list at he
  cases hf : m.use_list.find? (fun row => row.1 == v) with
  | none =>
    rw [hf] at he
    exact absurd he (List.not_mem_nil _)
  | some row =>
    rw [hf] at he
    have hrow : row.1 = v := by simpa using List.find?_some hf
    have := h row (List.mem_of_find?_eq_some hf) e he
    rw [hrow] at this
    exact this

/-- Induction over `run`: a property of the module that `clear_basic_blocks`
keeps, and that `sweep` keeps when the critical instructions of the function
are marked, holds after `run` when it holds before. -/
theorem run_induct (fi : Option Nat → Bool) (P : Module → Prop)
    (hclear : ∀ k s, P s.m_ → P (clear_basic_blocks k s).2.m_)
    (hsweep : ∀ k s, P s.m_ →
      (∀ func, s.m_.functions[k]? = some func →
        ∀ ins ∈ func.get_instructions, is_critical fi ins = true → ins.id ∈ s.marked) →
      P (sweep k s).2.m_)
    (self s' : DeadCode) (h0 : P self.m_) (h : run fi self = some s') : P s'.m_ := by
  have hfun : ∀ k s r, P s.m_ → run_function fi k s = some r → P r.2.m_ := by
    intro k s r hP hr
    unfold run_function at hr
    cases hm : mark fi k (clear_basic_blocks k s).2 with
    | none => simp [hm] at hr
    | some s2 =>
      simp only [hm, Option.some.injEq] at hr
      rw [← hr]
      have hm2 := (mark_m_ fi k _ s2 hm).1
      apply hsweep k s2
      · rw [hm2]
        exact hclear k s hP
      · intro func hf
        rw [hm2] at hf
        exact mark_critical_marked fi k _ s2 func hf hm
  have hfuns : ∀ ks c s r, P s.m_ → run_functions fi ks c s = some r → P r.2.m_ := by
    intro ks
    induction ks with
    | nil =>
      intro c s r hP hr
      simp only [run_functions, Option.some.injEq] at hr
      rw [← hr]
      exact hP
    | cons k ks ih =>
      intro c s r hP hr
      unfold run_functions at hr
      cases hr1 : run_function fi k s with
      | none => simp [hr1] at hr
      | some r1 =>
        simp only [hr1] at hr
        exact ih _ _ _ (hfun k s r1 hP hr1) hr
  have hloop : ∀ fuel s, P s.m_ → run_loop fi fuel s = some s' → P s'.m_ := by
    intro fuel
    induction fuel with
    | zero =>
      intro s _ hr
      simp [run_loop] at hr
    | succ fuel ih =>
      intro s hP hr
      unfold run_loop at hr
      cases hr1 : run_round fi s with
      | none => simp [hr1] at hr
      | some r =>
        simp only [hr1] at hr
        have h1 := hfuns _ _ _ _ hP hr1
        by_cases hc : r.1 = true
        · simp only [hc, if_true] at hr
          exact ih _ h1 hr
        · simp only [hc, Bool.false_eq_true, if_false, Option.some.injEq] at hr
          rw [← hr]
          exact h1
  exact hloop _ self h0 h

theorem Discarded.of_shrinks {fi : Option Nat → Bool} {m0 m m1 : Module} {u : Nat}
    (h : Discarded m0 m u) (hs : ModuleShrinks fi m m1) : Discarded m0 m1 u := by
  obtain ⟨k, func, bb, h1, h2, h3, h4⟩ := h
  refine ⟨k, func, bb, h1, h2, h3, ?_⟩
  intro func1 hf1 hmem
  obtain ⟨f, hf, hR⟩ := forall₂_getElem?_right hs k func1 hf1
  exact h4 f hf (hR.2.2.2.1.subset hmem)

theorem mem_module_instructions_iff (m : Module) (ins : Instruction) :
    ins ∈ m.get_instructions ↔
      ∃ (j : Nat) (f : Function), m.functions[j]? = some f ∧ ins ∈ f.get_instructions := by
  constructor
  · intro h
    unfold Module.get_instructions at h
    rw [List.mem_flatten] at h
    obtain ⟨l, hl, hin⟩ := h
    obtain ⟨f, hf, rfl⟩ := List.mem_map.1 hl
    obtain ⟨j, hj⟩ := List.mem_iff_getElem?.1 hf
    exact ⟨j, f, hj, hin⟩
  · rintro ⟨j, f, hj, hin⟩
    exact mem_module_instructions m j f hj ins hin

theorem wf_position_eq (m : Module) (hwf : m.WellFormed) (j k : Nat) (f g : Function)
    (hj : m.functions[j]? = some f) (hk : m.functions[k]? = some g) (x : Instruction)
    (hxf : x ∈ f.get_instructions) (hxg : x ∈ g.get_instructions) : j = k := by
  have hfg : f = g := wf_function_of_mem m hwf f g (mem_functions_of_getElem? m j f hj)
    (mem_functions_of_getElem? m k g hk) x hxf hxg
  have hnd : m.functions.Nodup := List.Nodup.of_map _ hwf.2.1
  obtain ⟨hj1, hj2⟩ := List.getElem?_eq_some.1 hj
  obtain ⟨hk1, hk2⟩ := List.getElem?_eq_some.1 hk
  exact (List.Nodup.getElem_inj_iff hnd).1 (by rw [hj2, hk2, hfg])

theorem UseInv.clear_step {fi : Option Nat → Bool} {m0 : Module} (k : Nat) (s : DeadCode)
    (h : UseInv fi m0 s.m_) : UseInv fi m0 (clear_basic_blocks k s).2.m_ := by
  have hsh := clear_basic_blocks_shrinks fi k s
  have hsub : ∀ ins, ins ∈ (clear_basic_blocks k s).2.m_.get_instructions →
      ins ∈ s.m_.get_instructions := fun ins hi => hsh.instructions.subset hi
  refine ⟨hsh.wellFormed h.wf, moduleShrinks_trans h.shrinks hsh, ?_, ?_, ?_⟩
  · intro ins hins p v hp
    rw [clear_basic_blocks_use_list]
    exact h.complete ins (hsub ins hins) p v hp
  · intro v e he ins hins hid
    rw [clear_basic_blocks_use_list] at he
    exact h.valid v e he ins (hsub ins hins) hid
  · intro v e he
    rw [clear_basic_blocks_use_list] at he
    rcases h.origin v e he with ⟨ins, hins, hid⟩ | hd
    · by_cases hstill : ins ∈ (clear_basic_blocks k s).2.m_.get_instructions
      · exact Or.inl ⟨ins, hstill, hid⟩
      · right
        obtain ⟨j, f, hj, hinf⟩ := (mem_module_instructions_iff _ _).1 hins
        have hjk : j = k := by
          by_contra hne
          apply hstill
          refine (mem_module_instructions_iff _ _).2 ⟨j, f, ?_, hinf⟩
          cases hk : s.m_.functions[k]? with
          | none => simp only [clear_basic_blocks, hk]; exact hj
          | some func =>
            rw [clear_basic_blocks_m_ k s func hk]
            rw [modify_function_getElem?_ne _ _ _ _ hne]
            exact hj
        subst hjk
        have hm1 := clear_basic_blocks_m_ j s f hj
        obtain ⟨b', hb', hinb⟩ := (mem_get_instructions _ _).1 hinf
        obtain ⟨f0, hf0, hR⟩ := forall₂_getElem?_right h.shrinks j f hj
        obtain ⟨b, hb, hkept⟩ := hR.2.2.2.2.2.1 b' hb'
        refine ⟨j, f0, b, hf0, hb, ?_, ?_⟩
        · rw [← hid]
          exact List.mem_map.2 ⟨ins, hkept.2.1.subset hinb, rfl⟩
        · intro func' hf' hmem
          rw [hm1, modify_function_getElem?_self, hj] at hf'
          simp only [Option.map_some', Option.some.injEq] at hf'
          rw [← hf'] at hmem
          obtain ⟨b2, hb2, hid2⟩ := List.mem_map.1 hmem
          have hb2' := List.mem_filter.1 hb2
          have hnot : b2.id ∉ (f.basic_blocks.filter (is_dead_block f)).map BasicBlock.id := by
            simpa using hb2'.2
          apply hstill
          refine (mem_module_instructions_iff _ _).2 ⟨j, Function.erase_basic_blocks
              ((f.basic_blocks.filter (is_dead_block f)).map BasicBlock.id) f, ?_, ?_⟩
          · rw [hm1, modify_function_getElem?_self, hj]
            rfl
          · refine (mem_get_instructions _ _).2 ⟨b', List.mem_filter.2 ⟨hb', ?_⟩, hinb⟩
            simp only [decide_eq_true_eq]
            rw [hkept.1, ← hid2]
            exact hnot
    · exact Or.inr (hd.of_shrinks hsh)

theorem UseInv.sweep_step {fi : Option Nat → Bool} {m0 : Module} (k : Nat) (s : DeadCode)
    (h : UseInv fi m0 s.m_)
    (hm : ∀ func, s.m_.functions[k]? = some func →
      ∀ ins ∈ func.get_instructions, is_critical fi ins = true → ins.id ∈ s.marked) :
    UseInv fi m0 (sweep k s).2.m_ := by
  have hsh := sweep_shrinks fi k s hm
  have hsub : ∀ ins, ins ∈ (sweep k s).2.m_.get_instructions →
      ins ∈ s.m_.get_instructions := fun ins hi => hsh.instructions.subset hi
  cases hk : s.m_.functions[k]? with
  | none =>
    have : (sweep k s).2.m_ = s.m_ := by simp only [sweep, hk]
    rw [this]
    exact h
  | some func =>
    have hfnd := wf_function_nodup s.m_ h.wf k func hk
    have huse := sweep_use_list k s func hk hfnd
    have hm1 := sweep_m_ k s func hk hfnd
    have hwd : ∀ x ∈ collect_wait_del func s.marked, x ∈ func.get_instructions := by
      intro x hx
      rw [collect_wait_del_eq] at hx
      exact (List.mem_filter.1 hx).1
    have hgone : ∀ x ∈ collect_wait_del func s.marked,
        x ∉ (sweep k s).2.m_.get_instructions := by
      intro x hx hin
      obtain ⟨j, f, hj, hinf⟩ := (mem_module_instructions_iff _ _).1 hin
      by_cases hjk : j = k
      · subst hjk
        rw [hm1, modify_function_getElem?_self, (foldl_remove_uses_of_functions _ _).1, hk] at hj
        simp only [Option.map_some', Option.some.injEq] at hj
        rw [← hj, erase_instructions_instructions] at hinf
        have := (List.mem_filter.1 hinf).2
        simp only [decide_eq_true_eq] at this
        exact this (List.mem_map.2 ⟨x, hx, rfl⟩)
      · rw [hm1, modify_function_getElem?_ne _ _ _ _ hjk,
          (foldl_remove_uses_of_functions _ _).1] at hj
        exact hjk (wf_position_eq s.m_ h.wf j k f func hj hk x hinf (hwd x hx))
    refine ⟨hsh.wellFormed h.wf, moduleShrinks_trans h.shrinks hsh, ?_, ?_, ?_⟩
    · intro ins hins p v hp
      rw [huse]
      refine ⟨h.complete ins (hsub ins hins) p v hp, ?_⟩
      rintro ⟨x, hx, q, _, he⟩
      simp only [Prod.mk.injEq] at he
      have hxi : x = ins := wf_instruction_eq s.m_ h.wf x ins
        (mem_module_instructions _ k func hk x (hwd x hx)) (hsub ins hins) he.1.symm
      rw [hxi] at hx
      exact hgone ins hx hins
    · intro v e he ins hins hid
      exact h.valid v e ((huse v e).1 he).1 ins (hsub ins hins) hid
    · intro v e he
      obtain ⟨he1, he2⟩ := (huse v e).1 he
      rcases h.origin v e he1 with ⟨ins, hins, hid⟩ | hd
      · by_cases hstill : ins ∈ (sweep k s).2.m_.get_instructions
        · exact Or.inl ⟨ins, hstill, hid⟩
        · exfalso
          apply he2
          have hop := h.valid v e he1 ins hins hid
          refine ⟨ins, ?_, e.2, hop, by rw [hid]⟩
          obtain ⟨j, f, hj, hinf⟩ := (mem_module_instructions_iff _ _).1 hins
          by_cases hjk : j = k
          · subst hjk
            rw [hk] at hj
            simp only [Option.some.injEq] at hj
            subst hj
            rw [collect_wait_del_eq]
            refine List.mem_filter.2 ⟨hinf, ?_⟩
            simp only [decide_eq_true_eq]
            intro hmk
            apply hstill
            refine (mem_module_instructions_iff _ _).2 ⟨j, Function.erase_instructions
                ((collect_wait_del func s.marked).map Instruction.id) func, ?_, ?_⟩
            · rw [hm1, modify_function_getElem?_self, (foldl_remove_uses_of_functions _ _).1,
                hk]
              rfl
            · rw [erase_instructions_instructions]
              refine List.mem_filter.2 ⟨hinf, ?_⟩
              simp only [decide_eq_true_eq]
              intro hw
              exact (mem_wait_del_ids func s.marked ins hinf).1 hw hmk
          · exfalso
            apply hstill
            refine (mem_module_instructions_iff _ _).2 ⟨j, f, ?_, hinf⟩
            rw [hm1, modify_function_getElem?_ne _ _ _ _ hjk,
              (foldl_remove_uses_of_functions _ _).1]
            exact hj
      · exact Or.inr (hd.of_shrinks hsh)

theorem UseInv.of_consistent (fi : Option Nat → Bool) (m : Module) (hwf : m.WellFormed)
    (hc : m.UsesComplete) (hs : m.UsesSound) : UseInv fi m m := by
  refine ⟨hwf, moduleShrinks_refl fi m, ?_, ?_, ?_⟩
  · intro ins hins p v hp
    exact hc ins hins (p, v) (List.mk_mem_enum_iff_getElem?.2 hp)
  · intro v e he ins hins hid
    obtain ⟨x, hx, hxid, hxop⟩ := usesSound_get_use_list m hs v e he
    have : x = ins := wf_instruction_eq m hwf x ins hx hins (hxid.trans hid.symm)
    rw [← this]
    exact hxop
  · intro v e he
    obtain ⟨x, hx, hxid, _⟩ := usesSound_get_use_list m hs v e he
    exact Or.inl ⟨x, hx, hxid⟩

theorem run_useInv (fi : Option Nat → Bool) (self s' : DeadCode) (hwf : self.m_.WellFormed)
    (hc : self.m_.UsesComplete) (hs : self.m_.UsesSound) (h : run fi self = some s') :
    UseInv fi self.m_ s'.m_ :=
  run_induct fi (UseInv fi self.m_) (fun k s hP => hP.clear_step k s)
    (fun k s hP hm => hP.sweep_step k s hm) self s' (UseInv.of_consistent fi self.m_ hwf hc hs) h

theorem remove_use_eq_filter_uses (m : Module) (v : Value) (u : Use) :
    m.remove_use v u = m.filter_uses (fun w e => !(decide (w = v) && (e == u))) := by
  unfold Module.remove_use Module.filter_uses
  congr 1
  apply List.map_congr_left
  intro row _
  by_cases h : row.1 = v
  · simp only [h, if_true, decide_True, Bool.true_and]
    congr 1
  · simp only [h, if_false, decide_False, Bool.false_and, Bool.not_false, List.filter_true]

theorem filter_uses_filter_uses (m : Module) (p q : Value → Use → Bool) :
    (m.filter_uses p).filter_uses q = m.filter_uses (fun w e => p w e && q w e) := by
  unfold Module.filter_uses
  simp only [List.map_map]
  congr 1
  apply List.map_congr_left
  intro row _
  simp only [Function.comp, List.filter_filter, Prod.mk.injEq, true_and]
  apply List.filter_congr
  intro e _
  exact Bool.and_comm _ _

theorem foldl_remove_use_eq_filter_uses (l : List (Nat × Value)) (id : Nat) (m : Module) :
    l.foldl (fun m p => m.remove_use p.2 (id, p.1)) m =
      m.filter_uses (fun w e => !(l.any (fun pv => decide (pv.2 = w) && (e == (id, pv.1))))) := by
  induction l generalizing m with
  | nil =>
    unfold Module.filter_uses
    simp
  | cons a l ih =>
    rw [List.foldl_cons, ih, remove_use_eq_filter_uses, filter_uses_filter_uses]
    congr 1
    funext w e
    simp only [List.any_cons, Bool.not_or]
    have : decide (w = a.2) = decide (a.2 = w) := by
      by_cases h : w = a.2
      · simp [h]
      · have h2 : ¬ a.2 = w := fun hc => h hc.symm
        simp [h, h2]
    rw [this]

theorem remove_uses_of_eq_filter_uses (m : Module) (ins : Instruction) :
    m.remove_uses_of ins = m.filter_uses (fun w e => !(ins.has_edge w e)) :=
  foldl_remove_use_eq_filter_uses _ _ _

theorem remove_uses_of_comm (m : Module) (a b : Instruction) :
    (m.remove_uses_of a).remove_uses_of b = (m.remove_uses_of b).remove_uses_of a := by
  simp only [remove_uses_of_eq_filter_uses, filter_uses_filter_uses]
  congr 1
  funext w e
  exact Bool.and_comm _ _

theorem erase_detach_eq (k : Nat) (wd : List Instruction) (self : DeadCode) (func : Function)
    (hk : self.m_.functions[k]? = some func)
    (hnd : (func.get_instructions.map Instruction.id).Nodup)
    (hwd : ∀ x ∈ wd, x ∈ func.get_instructions) (hwdn : (wd.map Instruction.id).Nodup) :
    erase_all k wd (detach_all k wd self) =
      { self with
        m_ := (wd.foldl Module.remove_uses_of self.m_).modify_function k
          (Function.erase_instructions (wd.map Instruction.id)) } := by
  simp only [foldl_erase_one, foldl_detach_one k wd self func hk hnd hwd hwdn,
    modify_function_comp, erase_clear_instructions]

/-! ## `sweep`: the iteration order of `wait_del` -/

/-- The order in which the loops of `sweep` visit `wait_del` does not matter:
when the instructions of the function have distinct addresses, any two orders
of the same instructions of the function give the same state. -/
theorem sweep_order_irrelevant (k : Nat) (wd wd' : List Instruction) (self : DeadCode)
    (func : Function) (hk : self.m_.functions[k]? = some func)
    (hnd : (func.get_instructions.map Instruction.id).Nodup)
    (hwd : ∀ x ∈ wd, x ∈ func.get_instructions) (hwdn : (wd.map Instruction.id).Nodup)
    (h : wd.Perm wd') :
    erase_all k wd' (detach_all k wd' self) = erase_all k wd (detach_all k wd self) := by
  rw [erase_detach_eq k wd self func hk hnd hwd hwdn,
    erase_detach_eq k wd' self func hk hnd (fun x hx => hwd x (h.mem_iff.2 hx))
      ((h.map Instruction.id).nodup_iff.1 hwdn)]
  have h1 : wd'.foldl Module.remove_uses_of self.m_ = wd.foldl Module.remove_uses_of self.m_ :=
    (List.Perm.foldl_eq' h (fun x _ y _ z => remove_uses_of_comm z x y) self.m_).symm
  have h2 : Function.erase_instructions (wd'.map Instruction.id) =
      Function.erase_instructions (wd.map Instruction.id) := by
    funext f
    unfold Function.erase_instructions
    apply map_instructions_congr
    intro bb _
    apply List.filter_congr
    intro ins _
    have := (h.map Instruction.id).mem_iff (a := ins.id)
    by_cases hm : ins.id ∈ wd.map Instruction.id
    · simp only [hm, this.1 hm]
    · have hm' : ins.id ∉ wd'.map Instruction.id := fun hc => hm (this.2 hc)
      simp only [hm, hm']
  rw [h1, h2]

theorem run_function_false_no_dead (fi : Option Nat → Bool) (k : Nat) (t t' : DeadCode)
    (func : Function) (hk : t.m_.functions[k]? = some func)
    (h : run_function fi k t = some (false, t')) :
    ∀ bb ∈ func.basic_blocks, is_dead_block func bb = false := by
  unfold run_function at h
  cases hm : mark fi k (clear_basic_blocks k t).2 with
  | none => simp [hm] at h
  | some s2 =>
    simp only [hm, Option.some.injEq, Prod.mk.injEq, Bool.or_eq_false_iff] at h
    obtain ⟨⟨h1, _⟩, _⟩ := h
    intro bb hbb
    by_contra hc
    have := (clear_basic_blocks_changed k t func hk).2 ⟨bb, hbb, by simpa using hc⟩
    rw [h1] at this
    exact Bool.false_ne_true this

theorem run_final_round (fi : Option Nat → Bool) (self s' : DeadCode)
    (h : run fi self = some s') (k : Nat) (func' : Function)
    (hk : s'.m_.functions[k]? = some func') :
    ∃ t t', t.m_ = s'.m_ ∧ run_function fi k t = some (false, t') := by
  have hround := (run_fixed fi self s' h).1
  unfold run_round at hround
  obtain ⟨_, _, h3⟩ := run_functions_unchanged fi _ s' s' hround
  have hlt : k < s'.m_.functions.length := by
    by_contra hc
    rw [List.getElem?_eq_none (by omega)] at hk
    exact Option.noConfusion hk
  obtain ⟨t, t', ht1, _, ht3⟩ := h3 k (List.mem_range.2 hlt)
  exact ⟨t, t', ht1, ht3⟩

theorem run_final_no_dead (fi : Option Nat → Bool) (self s' : DeadCode)
    (h : run fi self = some s') (k : Nat) (func' : Function)
    (hk : s'.m_.functions[k]? = some func') :
    ∀ bb ∈ func'.basic_blocks, is_dead_block func' bb = false := by
  obtain ⟨t, t', ht1, ht3⟩ := run_final_round fi self s' h k func' hk
  exact run_function_false_no_dead fi k t t' func' (by rw [ht1]; exact hk) ht3

/-- Claim C11: `run` returns on every module, and afterwards every block that
remains in a function is the entry block of the function or has a non-empty
predecessor set. -/
theorem run_no_orphan_block (is_pure_function : Option Nat → Bool) (self : DeadCode) :
    ∃ s', run is_pure_function self = some s' ∧
      ∀ (k : Nat) (func' : Function), s'.m_.functions[k]? = some func' →
        ∀ bb ∈ func'.basic_blocks,
          bb.id = func'.entry_block ∨ func'.get_pre_basic_blocks bb ≠ [] := by
  obtain ⟨s', hs'⟩ := run_total is_pure_function self
  refine ⟨s', hs', fun k func' hk bb hbb => ?_⟩
  have h := run_final_no_dead is_pure_function self s' hs' k func' hk bb hbb
  simp only [is_dead_block, Bool.and_eq_false_iff, List.isEmpty_eq_false, bne_eq_false_iff_eq,
    ne_eq] at h
  rcases h with h | h
  · exact Or.inr h
  · exact Or.inl h

/-- Claim C15 as stated fails at the example: the call 9 of the orphan block 12
of `main` calls the function 102, which the oracle does not report pure, so
it is critical; it is an instruction of the module before the run and of no
function after it. -/
theorem run_removes_impure_call_of_orphan_block :
    example_pass.m_.WellFormed ∧
    ({ id := 9, op := OpID.call, operands := [Value.function 102] } : Instruction) ∈
      example_pass.m_.get_instructions ∧
    example_oracle
      (Instruction.get_callee { id := 9, op := OpID.call, operands := [Value.function 102] }) =
      false ∧
    (run example_oracle example_pass).map
      (fun s' => s'.m_.get_instructions.map Instruction.id) = some [3, 5, 6, 7, 8] := by
  refine ⟨by decide, by decide, by decide, by decide⟩

theorem foldl_erase_function (ids : List Nat) (self : DeadCode) :
    ids.foldl erase_function self =
      { self with m_ := { self.m_ with
          functions := self.m_.functions.filter (fun f => decide (f.id ∉ ids)) } } := by
  induction ids generalizing self with
  | nil => simp
  | cons a ids ih =>
    rw [List.foldl_cons, ih]
    simp only [erase_function, List.filter_filter]
    congr 2
    apply List.filter_congr
    intro f _
    by_cases h1 : f.id ∈ ids <;> by_cases h2 : f.id = a <;> simp [h1, h2]

theorem foldl_erase_global (ids : List Nat) (self : DeadCode) :
    ids.foldl erase_global self =
      { self with m_ := { self.m_ with
          global_variable := self.m_.global_variable.filter (fun g => decide (g.id ∉ ids)) } } := by
  induction ids generalizing self with
  | nil => simp
  | cons a ids ih =>
    rw [List.foldl_cons, ih]
    simp only [erase_global, List.filter_filter]
    congr 2
    apply List.filter_congr
    intro f _
    by_cases h1 : f.id ∈ ids <;> by_cases h2 : f.id = a <;> simp [h1, h2]

theorem sweep_globally_eq (self : DeadCode) :
    sweep_globally self =
      { self with m_ := { self.m_ with
          functions := self.m_.functions.filter (fun f => decide (f.id ∉
            (self.m_.functions.filter (fun f_r =>
              (self.m_.get_use_list (Value.function f_r.id)).length == 0 &&
                f_r.name != "main")).map Function.id)),
          global_variable := self.m_.global_variable.filter (fun g => decide (g.id ∉
            (self.m_.global_variable.filter (fun glob_var_r =>
              (self.m_.get_use_list (Value.global_variable glob_var_r.id)).length == 0)).map
              GlobalVariable.id)) } } := by
  have h1 := foldl_erase_function
  have h2 := foldl_erase_global
  unfold erase_function at h1
  unfold erase_global at h2
  unfold sweep_globally
  simp only [h1, h2]

theorem filter_not_mem_ids {α : Type} (key : α → Nat) (p : α → Bool) (l : List α)
    (hnd : (l.map key).Nodup) :
    l.filter (fun a => decide (key a ∉ (l.filter p).map key)) = l.filter (fun a => !p a) := by
  apply List.filter_congr
  intro a ha
  by_cases hp : p a = true
  · have : key a ∈ (l.filter p).map key := List.mem_map.2 ⟨a, List.mem_filter.2 ⟨ha, hp⟩, rfl⟩
    simp [this, hp]
  · have : key a ∉ (l.filter p).map key := by
      intro hc
      obtain ⟨b, hb, hkey⟩ := List.mem_map.1 hc
      obtain ⟨hb1, hb2⟩ := List.mem_filter.1 hb
      have : b = a := List.inj_on_of_nodup_map hnd hb1 ha hkey
      rw [this] at hb2
      exact hp hb2
    simp only [this, not_false_eq_true, decide_True]
    simpa using hp

/-- Claim C13: `sweep_globally` removes from the module exactly the functions
whose use-list is empty on entry and whose name is not "main", and exactly
the global variables whose use-list is empty on entry; the others stay, in
order: a function named "main" stays even with an empty use-list, and every
function or global with a non-empty use-list stays. Functions have distinct
addresses, and so have globals. -/
theorem sweep_globally_spec (self : DeadCode)
    (hf : (self.m_.functions.map Function.id).Nodup)
    (hg : (self.m_.global_variable.map GlobalVariable.id).Nodup) :
    (sweep_globally self).m_.functions =
      self.m_.functions.filter (fun f =>
        !((self.m_.get_use_list (Value.function f.id)).length == 0 && f.name != "main")) ∧
    (sweep_globally self).m_.global_variable =
      self.m_.global_variable.filter (fun g =>
        !((self.m_.get_use_list (Value.global_variable g.id)).length == 0)) ∧
    (∀ f ∈ self.m_.functions, f.name = "main" → f ∈ (sweep_globally self).m_.functions) ∧
    (∀ f ∈ self.m_.functions, self.m_.get_use_list (Value.function f.id) ≠ [] →
      f ∈ (sweep_globally self).m_.functions) ∧
    (∀ g ∈ self.m_.global_variable, self.m_.get_use_list (Value.global_variable g.id) ≠ [] →
      g ∈ (sweep_globally self).m_.global_variable) := by
  have h1 : (sweep_globally self).m_.functions =
      self.m_.functions.filter (fun f =>
        !((self.m_.get_use_list (Value.function f.id)).length == 0 && f.name != "main")) := by
    rw [sweep_globally_eq]
    exact filter_not_mem_ids Function.id _ _ hf
  have h2 : (sweep_globally self).m_.global_variable =
      self.m_.global_variable.filter (fun g =>
        !((self.m_.get_use_list (Value.global_variable g.id)).length == 0)) := by
    rw [sweep_globally_eq]
    exact filter_not_mem_ids GlobalVariable.id _ _ hg
  refine ⟨h1, h2, ?_, ?_, ?_⟩
  · intro f hfm hname
    rw [h1]
    exact List.mem_filter.2 ⟨hfm, by simp [hname]⟩
  · intro f hfm huse
    rw [h1]
    refine List.mem_filter.2 ⟨hfm, ?_⟩
    have : (self.m_.get_use_list (Value.function f.id)).length ≠ 0 := by
      intro hc
      exact huse (List.length_eq_zero.1 hc)
    simp [this]
  · intro g hgm huse
    rw [h2]
    refine List.mem_filter.2 ⟨hgm, ?_⟩
    have : (self.m_.get_use_list (Value.global_variable g.id)).length ≠ 0 := by
      intro hc
      exact huse (List.length_eq_zero.1 hc)
    simp [this]

/-- Claim C13, at the example module. -/
theorem sweep_globally_spec_witness :
    (example_pass.m_.functions.map Function.id).Nodup ∧
    (example_pass.m_.global_variable.map GlobalVariable.id).Nodup ∧
    (sweep_globally example_pass).m_.functions =
      example_pass.m_.functions.filter (fun f =>
        !((example_pass.m_.get_use_list (Value.function f.id)).length == 0 &&
          f.name != "main")) ∧
    (sweep_globally example_pass).m_.global_variable =
      example_pass.m_.global_variable.filter (fun g =>
        !((example_pass.m_.get_use_list (Value.global_variable g.id)).length == 0)) :=
  ⟨by decide, by decide,
    (sweep_globally_spec example_pass (by decide) (by decide)).1,
    (sweep_globally_spec example_pass (by decide) (by decide)).2.1⟩

theorem clear_basic_blocks_global_variable (k : Nat) (s : DeadCode) :
    (clear_basic_blocks k s).2.m_.global_variable = s.m_.global_variable := by
  cases hk : s.m_.functions[k]? with
  | none => simp [clear_basic_blocks, hk]
  | some func =>
    rw [clear_basic_blocks_m_ k s func hk]
    rfl

theorem sweep_global_variable (k : Nat) (s : DeadCode) :
    (sweep k s).2.m_.global_variable = s.m_.global_variable := by
  cases hk : s.m_.functions[k]? with
  | none => simp [sweep, hk]
  | some func =>
    exact (sweep_functions k s func hk).2

theorem run_global_variable (fi : Option Nat → Bool) (self s' : DeadCode)
    (h : run fi self = some s') : s'.m_.global_variable = self.m_.global_variable :=
  run_induct fi (fun m => m.global_variable = self.m_.global_variable)
    (fun k s hP => (clear_basic_blocks_global_variable k s).trans hP)
    (fun k s hP _ => (sweep_global_variable k s).trans hP) self s' rfl h

theorem wf_block_of_mem (m : Module) (hwf : m.WellFormed) (k : Nat) (func : Function)
    (hk : m.functions[k]? = some func) (b1 b2 : BasicBlock) (h1 : b1 ∈ func.basic_blocks)
    (h2 : b2 ∈ func.basic_blocks) (x : Instruction) (hx1 : x ∈ b1.instructions)
    (hx2 : x ∈ b2.instructions) : b1 = b2 := by
  by_contra hne
  have hnd : m.get_instructions.Nodup := List.Nodup.of_map _ hwf.1
  unfold Module.get_instructions at hnd
  rw [List.nodup_flatten] at hnd
  have hfn : func.get_instructions.Nodup :=
    hnd.1 _ (List.mem_map.2 ⟨func, mem_functions_of_getElem? m k func hk, rfl⟩)
  unfold Function.get_instructions at hfn
  rw [List.nodup_flatten, List.pairwise_map] at hfn
  have hsym : Symmetric (fun a b : BasicBlock =>
      List.Disjoint a.instructions b.instructions) := by
    intro a b hab
    exact hab.symm
  exact List.Pairwise.forall hsym hfn.2 h1 h2 hne hx1 hx2

theorem run_removes_not_live (fi : Option Nat → Bool) (self s' : DeadCode)
    (hwf : self.m_.WellFormed) (hs' : run fi self = some s') (k : Nat) (func : Function)
    (c : Instruction) (hk : self.m_.functions[k]? = some func)
    (hc : c ∈ func.get_instructions) (hdead : ¬ Live fi func c.id) :
    ∀ ins ∈ s'.m_.get_instructions, ins.id ≠ c.id := by
  have hsh := run_shrinks fi self s' hs'
  intro ins hins hid
  obtain ⟨j, func', hj, hinl⟩ := (mem_module_instructions_iff _ _).1 hins
  obtain ⟨f0, hf0, hR⟩ := forall₂_getElem?_right hsh j func' hj
  have hin0 : ins ∈ f0.get_instructions := hR.2.2.2.2.1.subset hinl
  have hlive := Live.of_functionShrinks hR (run_final_live fi self s' hwf hs' j func' hj ins hinl)
  have hinsc : ins = c := wf_instruction_eq self.m_ hwf ins c
    (mem_module_instructions _ j f0 hf0 ins hin0)
    (mem_module_instructions _ k func hk c hc) hid
  rw [hinsc] at hin0 hlive
  have hfeq : f0 = func := wf_function_of_mem self.m_ hwf f0 func
    (mem_functions_of_getElem? _ j f0 hf0) (mem_functions_of_getElem? _ k func hk) c hin0 hc
  rw [hfeq] at hlive
  exact hdead hlive

theorem clear_sweep_use_list_subset (k : Nat) (s : DeadCode) (v : Value) (e : Use)
    (h : e ∈ (sweep k s).2.m_.get_use_list v) : e ∈ s.m_.get_use_list v :=
  sweep_use_list_subset k s v e h

theorem run_use_list_subset (fi : Option Nat → Bool) (self s' : DeadCode)
    (h : run fi self = some s') (v : Value) (e : Use)
    (he : e ∈ s'.m_.get_use_list v) : e ∈ self.m_.get_use_list v :=
  run_induct fi (fun m => ∀ (v : Value) (e : Use), e ∈ m.get_use_list v →
      e ∈ self.m_.get_use_list v)
    (fun k s hP v e he => hP v e (by rw [clear_basic_blocks_use_list] at he; exact he))
    (fun k s hP _ v e he => hP v e (clear_sweep_use_list_subset k s v e he))
    self s' (fun _ _ he => he) h v e he

theorem reach_or_cycle_aux (R : Nat → Nat → Prop) (B : List Nat) (entry b : Nat)
    (hpred : ∀ x ∈ B, x = entry ∨ ∃ p ∈ B, R p x) :
    ∀ (m : Nat) (visited : List Nat) (x : Nat), B.length - visited.length ≤ m →
      x ∈ B → x ∉ visited → visited.Nodup → (∀ v ∈ visited, v ∈ B) →
      (∀ v ∈ visited, Relation.TransGen R x v) → Relation.ReflTransGen R x b →
      Relation.ReflTransGen R entry b ∨
        ∃ c, Relation.TransGen R c c ∧ Relation.ReflTransGen R c b := by
  intro m
  induction m with
  | zero =>
    intro visited x hm hx hxv hnd hsub _ _
    exfalso
    have hnd2 : (x :: visited).Nodup := List.nodup_cons.2 ⟨hxv, hnd⟩
    have hsub2 : (x :: visited) ⊆ B := by
      intro y hy
      rcases List.mem_cons.1 hy with h | h
      · rw [h]; exact hx
      · exact hsub y h
    have := (List.subperm_of_subset hnd2 hsub2).length_le
    simp only [List.length_cons] at this
    omega
  | succ m ih =>
    intro visited x hm hx hxv hnd hsub htrans hreach
    rcases hpred x hx with he | ⟨p, hp, hR⟩
    · left
      rw [← he]
      exact hreach
    · by_cases hpv : p ∈ x :: visited
      · right
        refine ⟨p, ?_, Relation.ReflTransGen.head hR hreach⟩
        rcases List.mem_cons.1 hpv with h | h
        · rw [h] at hR ⊢
          exact Relation.TransGen.single hR
        · exact Relation.TransGen.head hR (htrans p h)
      · have hnd2 : (x :: visited).Nodup := List.nodup_cons.2 ⟨hxv, hnd⟩
        apply ih (x :: visited) p _ hp hpv hnd2
        · intro y hy
          rcases List.mem_cons.1 hy with h | h
          · rw [h]; exact hx
          · exact hsub y h
        · intro v hv
          rcases List.mem_cons.1 hv with h | h
          · rw [h]
            exact Relation.TransGen.single hR
          · exact Relation.TransGen.head hR (htrans v h)
        · exact Relation.ReflTransGen.head hR hreach
        · simp only [List.length_cons]
          omega

theorem reach_or_cycle (R : Nat → Nat → Prop) (B : List Nat) (entry : Nat)
    (hpred : ∀ x ∈ B, x = entry ∨ ∃ p ∈ B, R p x) (b : Nat) (hb : b ∈ B) :
    Relation.ReflTransGen R entry b ∨
      ∃ c, Relation.TransGen R c c ∧ Relation.ReflTransGen R c b :=
  reach_or_cycle_aux R B entry b hpred B.length [] b (by simp) hb (List.not_mem_nil _)
    List.nodup_nil (fun _ h => absurd h (List.not_mem_nil _))
    (fun _ h => absurd h (List.not_mem_nil _)) Relation.ReflTransGen.refl

theorem not_dead_block_pred (func : Function) (bb : BasicBlock) (hbb : bb ∈ func.basic_blocks)
    (h : is_dead_block func bb = false) :
    bb.id = func.entry_block ∨
      ∃ p ∈ func.basic_blocks.map BasicBlock.id, BlockEdge func p bb.id := by
  simp only [is_dead_block, Bool.and_eq_false_iff, List.isEmpty_eq_false, bne_eq_false_iff_eq,
    ne_eq] at h
  rcases h with h | h
  · right
    obtain ⟨p, hp⟩ := List.exists_mem_of_ne_nil _ h
    unfold Function.get_pre_basic_blocks at hp
    obtain ⟨pb, hpb, hpid⟩ := List.mem_map.1 hp
    obtain ⟨hpb1, hpb2⟩ := List.mem_filter.1 hpb
    refine ⟨p, List.mem_map.2 ⟨pb, hpb1, hpid⟩, pb, hpb1, hpid, ?_, bb, hbb, rfl⟩
    simpa using hpb2
  · exact Or.inl h

/-- Claim C12 as stated fails at the unreachable-loop example: the module is
well-formed with consistent use-lists, `run` leaves the function as it is,
with the blocks 20 and 21, and no path of successor edges leads from the
entry block 10 to the block 20. -/
theorem run_keeps_unreachable_loop :
    loop_pass.m_.WellFormed ∧ loop_pass.m_.UsesComplete ∧ loop_pass.m_.UsesSound ∧
    (run example_oracle loop_pass).map (fun s' => s'.m_.functions) = some [loop_main] ∧
    20 ∈ loop_main.basic_blocks.map BasicBlock.id ∧
    ¬ Relation.ReflTransGen (BlockEdge loop_main) loop_main.entry_block 20 := by
  refine ⟨by decide, by decide, by decide, by decide, by decide, ?_⟩
  intro h
  rcases Relation.ReflTransGen.cases_head h with h | ⟨c, hc, _⟩
  · exact absurd h (by decide)
  · obtain ⟨pb, hpb, hid, hsucc, _⟩ := hc
    have : pb ∈ loop_main.basic_blocks → pb.id = loop_main.entry_block →
        c ∉ pb.get_succ_basic_blocks := by
      intro h1 h2
      simp only [loop_main, List.mem_cons, List.mem_singleton, List.not_mem_nil, or_false] at h1
      rcases h1 with h1 | h1 | h1
      · rw [h1]
        simp [BasicBlock.get_succ_basic_blocks, Instruction.is_br]
      · rw [h1] at h2
        exact absurd h2 (by decide)
      · rw [h1] at h2
        exact absurd h2 (by decide)
    exact this hpb hid hsucc

theorem get_callee_eq_none (ins : Instruction)
    (hnull : ∀ f, ins.operands[0]? ≠ some (Value.function f)) : ins.get_callee = none := by
  unfold Instruction.get_callee
  split
  · rename_i f hf
    exact absurd hf (hnull f)
  · rfl

theorem mem_sweep_instructions (func : Function) (marked : List Nat) (x : Instruction) :
    x ∈ (Function.erase_instructions ((collect_wait_del func marked).map Instruction.id)
      func).get_instructions ↔ x ∈ func.get_instructions ∧ x.id ∈ marked := by
  rw [erase_instructions_instructions, List.mem_filter]
  constructor
  · rintro ⟨h1, h2⟩
    refine ⟨h1, ?_⟩
    simp only [decide_eq_true_eq] at h2
    by_contra hc
    exact h2 ((mem_wait_del_ids func marked x h1).2 hc)
  · rintro ⟨h1, h2⟩
    refine ⟨h1, ?_⟩
    simp only [decide_eq_true_eq]
    intro hc
    exact (mem_wait_del_ids func marked x h1).1 hc h2

/-- Claim C17: on a well-formed module `mark` returns, and after the `sweep`
that follows no instruction that remains in the function has an operand
that is an instruction deleted by that sweep; when every instruction
operand of an instruction of the function belongs to the function, every
instruction operand of a remaining instruction remains. -/
theorem mark_sweep_closed (is_pure_function : Option Nat → Bool) (k : Nat) (self : DeadCode)
    (func : Function) (hwf : self.m_.WellFormed) (hk : self.m_.functions[k]? = some func) :
    ∃ s1 func', mark is_pure_function k self = some s1 ∧
      (sweep k s1).2.m_.functions[k]? = some func' ∧
      (∀ x ∈ func'.get_instructions, ∀ d, Value.instruction d ∈ x.operands →
        d ∈ func.get_instructions.map Instruction.id →
        d ∈ func'.get_instructions.map Instruction.id) ∧
      ((∀ x ∈ func.get_instructions, ∀ d, Value.instruction d ∈ x.operands →
          d ∈ func.get_instructions.map Instruction.id) →
        ∀ x ∈ func'.get_instructions, ∀ d, Value.instruction d ∈ x.operands →
          d ∈ func'.get_instructions.map Instruction.id) := by
  obtain ⟨s1, hs1⟩ := mark_terminates is_pure_function k self func hk
  have hm := (mark_m_ is_pure_function k self s1 hs1).1
  have hk1 : s1.m_.functions[k]? = some func := by rw [hm]; exact hk
  have hlive := mark_marked_iff is_pure_function k self s1 func hwf hk hs1
  have key : ∀ x ∈ (Function.erase_instructions
      ((collect_wait_del func s1.marked).map Instruction.id) func).get_instructions,
      ∀ d, Value.instruction d ∈ x.operands →
      d ∈ func.get_instructions.map Instruction.id →
      d ∈ (Function.erase_instructions
        ((collect_wait_del func s1.marked).map Instruction.id) func).get_instructions.map
          Instruction.id := by
    intro x hx d hd hdf
    obtain ⟨hx1, hx2⟩ := (mem_sweep_instructions func s1.marked x).1 hx
    obtain ⟨y, hy, hyd⟩ := List.mem_map.1 hdf
    have hld : Live is_pure_function func d :=
      Live.operand x d hx1 ((hlive x.id).1 hx2) hd ⟨y, hy, hyd⟩
    refine List.mem_map.2 ⟨y, (mem_sweep_instructions func s1.marked y).2 ⟨hy, ?_⟩, hyd⟩
    rw [hyd]
    exact (hlive d).2 hld
  refine ⟨s1, _, hs1, sweep_function k s1 func hk1, key, ?_⟩
  intro hsame x hx d hd
  exact key x hx d hd (hsame x ((mem_sweep_instructions func s1.marked x).1 hx).1 d hd)

/-- Claim C17, at the example: after `mark` and `sweep` on `main` the load 3,
operand of the store 6, is still there. -/
theorem mark_sweep_closed_witness :
    example_pass.m_.WellFormed ∧ example_pass.m_.functions[0]? = some example_main ∧
    ∃ s1 func', mark example_oracle 0 example_pass = some s1 ∧
      (sweep 0 s1).2.m_.functions[0]? = some func' ∧
      (∀ x ∈ func'.get_instructions, ∀ d, Value.instruction d ∈ x.operands →
        d ∈ example_main.get_instructions.map Instruction.id →
        d ∈ func'.get_instructions.map Instruction.id) ∧
      ((∀ x ∈ example_main.get_instructions, ∀ d, Value.instruction d ∈ x.operands →
          d ∈ example_main.get_instructions.map Instruction.id) →
        ∀ x ∈ func'.get_instructions, ∀ d, Value.instruction d ∈ x.operands →
          d ∈ func'.get_instructions.map Instruction.id) :=
  ⟨by decide, rfl, mark_sweep_closed example_oracle 0 example_pass example_main (by decide) rfl⟩

theorem live_after_sweep (fi : Option Nat → Bool) (func : Function) (marked : List Nat)
    (hlive : ∀ id, id ∈ marked ↔ Live fi func id) (id : Nat) (h : Live fi func id) :
    Live fi (Function.erase_instructions
      ((collect_wait_del func marked).map Instruction.id) func) id := by
  induction h with
  | critical ins h1 h2 =>
    exact Live.critical ins
      ((mem_sweep_instructions func marked ins).2
        ⟨h1, (hlive ins.id).2 (Live.critical ins h1 h2)⟩) h2
  | operand x d h1 h2 h3 h4 ih =>
    obtain ⟨y, hy, hyd⟩ := h4
    have hd : Live fi func d := Live.operand x d h1 h2 h3 ⟨y, hy, hyd⟩
    exact Live.operand x d
      ((mem_sweep_instructions func marked x).2 ⟨h1, (hlive x.id).2 h2⟩) ih h3
      ⟨y, (mem_sweep_instructions func marked y).2 ⟨hy, by rw [hyd]; exact (hlive d).2 hd⟩, hyd⟩

theorem run_function_of_all_live (fi : Option Nat → Bool) (k : Nat) (t : DeadCode)
    (func : Function) (hwf : t.m_.WellFormed) (hk : t.m_.functions[k]? = some func)
    (hall : ∀ ins ∈ func.get_instructions, Live fi func ins.id)
    (hclear : (clear_basic_blocks k t).1 = false) :
    ∃ t', run_function fi k t = some (false, t') ∧ t'.m_ = t.m_ := by
  have hc := clear_basic_blocks_unchanged k t hclear
  obtain ⟨s2, hs2⟩ := mark_terminates fi k t func hk
  have hm := (mark_m_ fi k t s2 hs2).1
  have hk2 : s2.m_.functions[k]? = some func := by rw [hm]; exact hk
  have hlive := mark_marked_iff fi k t s2 func hwf hk hs2
  have hsw : (sweep k s2).1 = false := by
    by_contra hne
    obtain ⟨ins, hins, hnm⟩ := (sweep_changed k s2 func hk2).1 (by simpa using hne)
    exact hnm ((hlive ins.id).2 (hall ins hins))
  refine ⟨(sweep k s2).2, ?_, ?_⟩
  · unfold run_function
    simp only [hc, hs2, hclear, hsw, Bool.or_self]
  · rw [sweep_unchanged k s2 hsw, hm]

/-- Claim C20: on a well-formed module, after `mark` and `sweep` on a function,
a second `mark` marks every remaining instruction of the function, and the
second `sweep` returns `false` and leaves the module as it is. Hence, in
any later well-formed state in which the function is the same, the body of
the loop of `run` for this function changes nothing unless
`clear_basic_blocks` removes a block. -/
theorem mark_sweep_fixpoint (is_pure_function : Option Nat → Bool) (k : Nat) (self : DeadCode)
    (func : Function) (hwf : self.m_.WellFormed) (hk : self.m_.functions[k]? = some func) :
    ∃ s1 s2 func', mark is_pure_function k self = some s1 ∧
      (sweep k s1).2.m_.functions[k]? = some func' ∧
      mark is_pure_function k (sweep k s1).2 = some s2 ∧
      (∀ ins ∈ func'.get_instructions, ins.id ∈ s2.marked) ∧
      (sweep k s2).1 = false ∧
      (sweep k s2).2.m_ = (sweep k s1).2.m_ ∧
      ∀ t : DeadCode, t.m_.WellFormed → t.m_.functions[k]? = some func' →
        (clear_basic_blocks k t).1 = false →
        ∃ t', run_function is_pure_function k t = some (false, t') ∧ t'.m_ = t.m_ := by
  obtain ⟨s1, hs1⟩ := mark_terminates is_pure_function k self func hk
  have hm := (mark_m_ is_pure_function k self s1 hs1).1
  have hk1 : s1.m_.functions[k]? = some func := by rw [hm]; exact hk
  have hlive := mark_marked_iff is_pure_function k self s1 func hwf hk hs1
  have hwf1 : (sweep k s1).2.m_.WellFormed := by
    have hsh := sweep_shrinks is_pure_function k s1 (by
      intro f hf
      rw [hk1] at hf
      simp only [Option.some.injEq] at hf
      rw [← hf]
      exact mark_critical_marked is_pure_function k self s1 func hk hs1)
    rw [hm] at hsh
    exact hsh.wellFormed hwf
  obtain ⟨f1, hf1⟩ : ∃ f1, f1 = Function.erase_instructions
      ((collect_wait_del func s1.marked).map Instruction.id) func := ⟨_, rfl⟩
  have hk' : (sweep k s1).2.m_.functions[k]? = some f1 := by
    rw [hf1]
    exact sweep_function k s1 func hk1
  have hall : ∀ ins ∈ f1.get_instructions, Live is_pure_function f1 ins.id := by
    intro ins hins
    rw [hf1] at hins ⊢
    obtain ⟨_, h2⟩ := (mem_sweep_instructions func s1.marked ins).1 hins
    exact live_after_sweep is_pure_function func s1.marked hlive ins.id ((hlive ins.id).1 h2)
  obtain ⟨s2, hs2⟩ := mark_terminates is_pure_function k (sweep k s1).2 f1 hk'
  have hm2 := (mark_m_ is_pure_function k _ s2 hs2).1
  have hk2 : s2.m_.functions[k]? = some f1 := by rw [hm2]; exact hk'
  have hlive2 := mark_marked_iff is_pure_function k (sweep k s1).2 s2 f1 hwf1 hk' hs2
  have hmarked : ∀ ins ∈ f1.get_instructions, ins.id ∈ s2.marked :=
    fun ins hins => (hlive2 ins.id).2 (hall ins hins)
  have hsw : (sweep k s2).1 = false := by
    by_contra hne
    obtain ⟨ins, hins, hnm⟩ := (sweep_changed k s2 f1 hk2).1 (by simpa using hne)
    exact hnm (hmarked ins hins)
  refine ⟨s1, s2, f1, hs1, hk', hs2, hmarked, hsw, ?_, ?_⟩
  · rw [sweep_unchanged k s2 hsw, hm2]
  · intro t hwft hkt hclear
    exact run_function_of_all_live is_pure_function k t f1 hwft hkt hall hclear

/-- Claim C20, at the example. -/
theorem mark_sweep_fixpoint_witness :
    example_pass.m_.WellFormed ∧ example_pass.m_.functions[0]? = some example_main ∧
    ∃ s1 s2 func', mark example_oracle 0 example_pass = some s1 ∧
      (sweep 0 s1).2.m_.functions[0]? = some func' ∧
      mark example_oracle 0 (sweep 0 s1).2 = some s2 ∧
      (∀ ins ∈ func'.get_instructions, ins.id ∈ s2.marked) ∧
      (sweep 0 s2).1 = false ∧
      (sweep 0 s2).2.m_ = (sweep 0 s1).2.m_ ∧
      ∀ t : DeadCode, t.m_.WellFormed → t.m_.functions[0]? = some func' →
        (clear_basic_blocks 0 t).1 = false →
        ∃ t', run_function example_oracle 0 t = some (false, t') ∧ t'.m_ = t.m_ :=
  ⟨by decide, rfl,
    mark_sweep_fixpoint example_oracle 0 example_pass example_main (by decide) rfl⟩

theorem mark_operand_log (now : Nat) (s : DeadCode) (op : Value) :
    ∃ new, (mark_operand now s op).work_list = s.work_list ++ new ∧
      (mark_operand now s op).marked = new.reverse ++ s.marked ∧
      (s.marked.Nodup → (mark_operand now s op).marked.Nodup) := by
  cases op with
  | instruction d =>
    by_cases h1 : d ∈ s.marked
    · refine ⟨[], ?_, ?_, ?_⟩ <;> simp [mark_operand, h1]
    · by_cases h2 : s.m_.get_function d ≠ s.m_.get_function now
      · refine ⟨[], ?_, ?_, ?_⟩ <;> simp only [mark_operand, if_neg h1, if_pos h2] <;> simp
      · refine ⟨[d], ?_, ?_, ?_⟩
        · simp only [mark_operand, if_neg h1, if_neg h2]
        · simp only [mark_operand, if_neg h1, if_neg h2]
          simp
        · intro hnd
          simp only [mark_operand, if_neg h1, if_neg h2]
          exact List.nodup_cons.2 ⟨h1, hnd⟩
  | function _ => exact ⟨[], by simp [mark_operand], by simp [mark_operand], by simp [mark_operand]⟩
  | global_variable _ => exact ⟨[], by simp [mark_operand], by simp [mark_operand], by simp [mark_operand]⟩
  | basic_block _ => exact ⟨[], by simp [mark_operand], by simp [mark_operand], by simp [mark_operand]⟩
  | argument _ => exact ⟨[], by simp [mark_operand], by simp [mark_operand], by simp [mark_operand]⟩
  | constant _ => exact ⟨[], by simp [mark_operand], by simp [mark_operand], by simp [mark_operand]⟩

theorem foldl_mark_operand_log (now : Nat) (ops : List Value) (s : DeadCode) :
    ∃ new, (ops.foldl (mark_operand now) s).work_list = s.work_list ++ new ∧
      (ops.foldl (mark_operand now) s).marked = new.reverse ++ s.marked ∧
      (s.marked.Nodup → (ops.foldl (mark_operand now) s).marked.Nodup) := by
  induction ops generalizing s with
  | nil => exact ⟨[], by simp, by simp, by simp⟩
  | cons op ops ih =>
    obtain ⟨n1, h1, h2, h3⟩ := mark_operand_log now s op
    obtain ⟨n2, g1, g2, g3⟩ := ih (mark_operand now s op)
    refine ⟨n1 ++ n2, ?_, ?_, ?_⟩
    · rw [List.foldl_cons, g1, h1, List.append_assoc]
    · rw [List.foldl_cons, g2, h2, List.reverse_append, List.append_assoc]
    · intro hnd
      rw [List.foldl_cons]
      exact g3 (h3 hnd)

theorem mark_instruction_log (now : Nat) (s : DeadCode) :
    ∃ new, (mark_instruction now s).work_list = s.work_list ++ new ∧
      (mark_instruction now s).marked = new.reverse ++ s.marked ∧
      (s.marked.Nodup → (mark_instruction now s).marked.Nodup) := by
  unfold mark_instruction
  cases s.m_.find_instruction now with
  | none => exact ⟨[], by simp, by simp, by simp⟩
  | some i => exact foldl_mark_operand_log now i.operands s

theorem mark_loop_log (fuel : Nat) (s s' : DeadCode) (done : List Nat)
    (h : mark_loop fuel s = some s') (hq : s.marked.reverse = done ++ s.work_list)
    (hnd : s.marked.Nodup) :
    s'.marked.reverse = done ++ mark_loop_popped fuel s ∧ s'.marked.Nodup ∧
      s'.work_list = [] ∧ ∃ new, s'.marked = new ++ s.marked := by
  induction fuel generalizing s done with
  | zero => simp [mark_loop] at h
  | succ fuel ih =>
    unfold mark_loop at h
    unfold mark_loop_popped
    cases hw : s.work_list with
    | nil =>
      rw [hw] at h
      simp only [Option.some.injEq] at h
      subst h
      rw [hw] at hq
      exact ⟨by simpa using hq, hnd, hw, [], by simp⟩
    | cons now rest =>
      rw [hw] at h
      simp only at h
      obtain ⟨new, h1, h2, h3⟩ := mark_instruction_log now { s with work_list := rest }
      have hq' : (mark_instruction now { s with work_list := rest }).marked.reverse =
          (done ++ [now]) ++ (mark_instruction now { s with work_list := rest }).work_list := by
        rw [h1, h2, List.reverse_append, List.reverse_reverse, hq, hw]
        simp
      obtain ⟨g1, g2, g3, n2, g4⟩ := ih _ (done ++ [now]) h hq' (h3 hnd)
      refine ⟨?_, g2, g3, n2 ++ new.reverse, ?_⟩
      · rw [g1]
        simp
      · rw [g4, h2]
        simp

/-- Claim C19: for every function whose instructions have distinct addresses
and every prior state of the marks and of the work list, `mark` returns even
when the operand graph is cyclic; the work list is empty on return; the
instructions taken from the work list by the loop are, in order, exactly the
instructions marked, each of them once (so each instruction is pushed at most
once); and neither a step of the loop nor the whole loop resets a mark. -/
theorem mark_pushes_once (is_pure_function : Option Nat → Bool) (k : Nat) (self : DeadCode)
    (func : Function) (hk : self.m_.functions[k]? = some func)
    (hnd : (func.get_instructions.map Instruction.id).Nodup) :
    ∃ s', mark is_pure_function k self = some s' ∧ s'.work_list = [] ∧
      mark_loop_popped (func.get_instructions.length + self.m_.get_instructions.length + 1)
        (mark_critical is_pure_function func { self with work_list := [], marked := [] }) =
        s'.marked.reverse ∧
      s'.marked.Nodup ∧
      (∀ ins ∈ func.get_instructions, is_critical is_pure_function ins = true →
        ins.id ∈ s'.marked) ∧
      (∀ (now : Nat) (s : DeadCode) (id : Nat), id ∈ s.marked →
        id ∈ (mark_instruction now s).marked) ∧
      (∀ (fuel : Nat) (s t : DeadCode) (id : Nat), mark_loop fuel s = some t →
        id ∈ s.marked → id ∈ t.marked) := by
  obtain ⟨s', hs'⟩ := mark_terminates is_pure_function k self func hk
  have hcrit := mark_critical_marked is_pure_function k self s' func hk hs'
  have hloop : mark_loop (func.get_instructions.length + self.m_.get_instructions.length + 1)
      (mark_critical is_pure_function func { self with work_list := [], marked := [] }) =
      some s' := by
    have := hs'
    unfold mark at this
    rw [hk] at this
    exact this
  obtain ⟨_, _, e1, e2⟩ := foldl_mark_if_critical is_pure_function func.get_instructions
    { self with work_list := [], marked := [] }
  rw [← mark_critical_eq] at e1 e2
  have hq : (mark_critical is_pure_function func
      { self with work_list := [], marked := [] }).marked.reverse =
      [] ++ (mark_critical is_pure_function func
        { self with work_list := [], marked := [] }).work_list := by
    rw [e1, e2]
    simp
  have hnd0 : (mark_critical is_pure_function func
      { self with work_list := [], marked := [] }).marked.Nodup := by
    rw [e2]
    simp only [List.append_nil, List.nodup_reverse]
    exact List.Nodup.sublist (List.Sublist.map _ (List.filter_sublist _)) hnd
  obtain ⟨g1, g2, g3, _⟩ := mark_loop_log _ _ s' [] hloop hq hnd0
  refine ⟨s', hs', g3, ?_, g2, hcrit, ?_, ?_⟩
  · rw [g1, List.nil_append]
  · intro now s id hid
    obtain ⟨new, _, h2, _⟩ := mark_instruction_log now s
    rw [h2]
    exact List.mem_append_right _ hid
  · intro fuel s t id ht hid
    exact (mark_loop_induct (fun u => id ∈ u.marked) (by
      intro u now rest hu _
      obtain ⟨new, _, h2, _⟩ := mark_instruction_log now { u with work_list := rest }
      rw [h2]
      exact List.mem_append_right _ hu) fuel s t hid ht).1

/-- Claim C19, at a function with a live operand cycle. -/
theorem mark_pushes_once_witness :
    cyclic_pass.m_.functions[0]? = some cyclic_main ∧
    (cyclic_main.get_instructions.map Instruction.id).Nodup ∧
    (mark example_oracle 0 cyclic_pass).map (fun s => (s.marked, s.work_list)) =
      some ([2, 1, 4, 3], []) ∧
    ∃ s', mark example_oracle 0 cyclic_pass = some s' ∧ s'.work_list = [] ∧
      mark_loop_popped (cyclic_main.get_instructions.length +
          cyclic_pass.m_.get_instructions.length + 1)
        (mark_critical example_oracle cyclic_main
          { cyclic_pass with work_list := [], marked := [] }) = s'.marked.reverse ∧
      s'.marked.Nodup ∧
      (∀ ins ∈ cyclic_main.get_instructions, is_critical example_oracle ins = true →
        ins.id ∈ s'.marked) ∧
      (∀ (now : Nat) (s : DeadCode) (id : Nat), id ∈ s.marked →
        id ∈ (mark_instruction now s).marked) ∧
      (∀ (fuel : Nat) (s t : DeadCode) (id : Nat), mark_loop fuel s = some t →
        id ∈ s.marked → id ∈ t.marked) :=
  ⟨rfl, by decide, by decide,
    mark_pushes_once example_oracle 0 cyclic_pass cyclic_main rfl (by decide)⟩

theorem mem_wait_del (func : Function) (marked : List Nat) (x : Instruction) :
    x ∈ collect_wait_del func marked ↔ x ∈ func.get_instructions ∧ x.id ∉ marked := by
  rw [collect_wait_del_eq, List.mem_filter]
  simp

theorem getLast?_of_sublist_append {α : Type} (l xs : List α) (t : α)
    (hsub : l.Sublist (xs ++ [t])) (hmem : t ∈ l) (hnot : t ∉ xs) : l.getLast? = some t := by
  obtain ⟨l1, l2, rfl, h1, h2⟩ := List.sublist_append_iff.1 hsub
  cases l2 with
  | nil =>
    exfalso
    rw [List.append_nil] at hmem
    exact hnot (h1.subset hmem)
  | cons a l3 =>
    have hlen := h2.length_le
    simp only [List.length_cons, List.length_nil] at hlen
    have hl3 : l3 = [] := List.eq_nil_of_length_eq_zero (by omega)
    subst hl3
    have ha : a = t := by
      have := h2.subset (List.mem_cons_self a [])
      simpa using this
    subst ha
    simp

theorem is_critical_of_is_br (fi : Option Nat → Bool) (t : Instruction) (h : t.is_br = true) :
    is_critical fi t = true := by
  obtain ⟨id, op, operands⟩ := t
  simp only [Instruction.is_br, beq_iff_eq] at h
  subst h
  simp [is_critical, Instruction.is_call, Instruction.is_br]

theorem blockKept_succ (fi : Option Nat → Bool) (b b' : BasicBlock) (h : BlockKept fi b b')
    (hnd : b.instructions.Nodup) (t : Nat) (ht : t ∈ b.get_succ_basic_blocks) :
    t ∈ b'.get_succ_basic_blocks := by
  unfold BasicBlock.get_succ_basic_blocks at ht ⊢
  cases hl : b.instructions.getLast? with
  | none => simp [hl] at ht
  | some x =>
    rw [hl] at ht
    simp only at ht
    by_cases hbr : x.is_br = true
    · have hsplit : b.instructions.dropLast ++ [x] = b.instructions :=
        List.dropLast_append_getLast? x (by rw [hl]; rfl)
      have hxb : x ∈ b.instructions := by
        rw [← hsplit]
        simp
      have hx' : x ∈ b'.instructions := h.2.2 x hxb (is_critical_of_is_br fi x hbr)
      have hnot : x ∉ b.instructions.dropLast := by
        intro hin
        rw [← hsplit] at hnd
        exact (List.disjoint_of_nodup_append hnd) hin (List.mem_singleton_self x)
      have hsub : b'.instructions.Sublist (b.instructions.dropLast ++ [x]) := by
        rw [hsplit]
        exact h.2.1
      rw [getLast?_of_sublist_append _ _ x hsub hx' hnot]
      exact ht
    · simp only [hbr] at ht
      simp at ht

theorem wf_block_nodup (m : Module) (hwf : m.WellFormed) (func : Function)
    (hf : func ∈ m.functions) (b : BasicBlock) (hb : b ∈ func.basic_blocks) :
    b.instructions.Nodup := by
  have h1 : m.get_instructions.Nodup := List.Nodup.of_map _ hwf.1
  unfold Module.get_instructions at h1
  have h2 : func.get_instructions.Nodup :=
    (List.nodup_flatten.1 h1).1 _ (List.mem_map.2 ⟨func, hf, rfl⟩)
  unfold Function.get_instructions at h2
  exact (List.nodup_flatten.1 h2).1 _ (List.mem_map.2 ⟨b, hb, rfl⟩)

theorem pruneInv_refl (fi : Option Nat → Bool) (m : Module) : PruneInv fi m m := by
  refine ⟨moduleShrinks_refl fi m, ?_⟩
  intro k func func' h1 h2 b hb hgone
  rw [h1] at h2
  simp only [Option.some.injEq] at h2
  subst h2
  exact absurd (List.mem_map.2 ⟨b, hb, rfl⟩) hgone

theorem PruneInv.clear_blocks {fi : Option Nat → Bool} {m0 : Module} (hwf0 : m0.WellFormed)
    (k : Nat) (s : DeadCode) (h : PruneInv fi m0 s.m_) :
    PruneInv fi m0 (clear_basic_blocks k s).2.m_ := by
  refine ⟨moduleShrinks_trans h.1 (clear_basic_blocks_shrinks fi k s), ?_⟩
  cases hk : s.m_.functions[k]? with
  | none =>
    have : (clear_basic_blocks k s).2 = s := by simp only [clear_basic_blocks, hk]
    rw [this]
    exact h.2
  | some fc =>
    intro j func func' h1 h2 b hb hgone
    rw [clear_basic_blocks_m_ k s fc hk] at h2
    by_cases hjk : j = k
    · subst hjk
      simp only [modify_function_getElem?_self, hk, Option.map_some', Option.some.injEq] at h2
      subst h2
      have hsub : ∀ i, i ∈ (Function.erase_basic_blocks
          ((fc.basic_blocks.filter (is_dead_block fc)).map BasicBlock.id) fc).basic_blocks.map
          BasicBlock.id → i ∈ fc.basic_blocks.map BasicBlock.id := by
        intro i hi
        obtain ⟨x, hx, rfl⟩ := List.mem_map.1 hi
        exact List.mem_map.2 ⟨x, (List.mem_filter.1 hx).1, rfl⟩
      by_cases hin : b.id ∈ fc.basic_blocks.map BasicBlock.id
      · obtain ⟨bc, hbc, hbcid⟩ := List.mem_map.1 hin
        have hdead : bc.id ∈ (fc.basic_blocks.filter (is_dead_block fc)).map BasicBlock.id := by
          by_contra hnd
          apply hgone
          rw [← hbcid]
          refine List.mem_map.2 ⟨bc, ?_, rfl⟩
          exact List.mem_filter.2 ⟨hbc, by simpa using hnd⟩
        obtain ⟨bd, hbd, hbdid⟩ := List.mem_map.1 hdead
        obtain ⟨hbdm, hbdd⟩ := List.mem_filter.1 hbd
        obtain ⟨_, hR⟩ := forall₂_getElem? h.1 j func h1
        obtain ⟨fc', hfc', hR⟩ := forall₂_getElem? h.1 j func h1
        rw [hk] at hfc'
        simp only [Option.some.injEq] at hfc'
        subst hfc'
        simp only [is_dead_block, Bool.and_eq_true, List.isEmpty_iff, bne_iff_ne, ne_eq] at hbdd
        have hpreds : ∀ p ∈ func.basic_blocks, b.id ∈ p.get_succ_basic_blocks →
            p.id ∉ fc.basic_blocks.map BasicBlock.id := by
          intro p hp hsucc hpin
          obtain ⟨pc, hpc, hpcid⟩ := List.mem_map.1 hpin
          obtain ⟨p0, hp0, hkept⟩ := hR.2.2.2.2.2.1 pc hpc
          have hnd := hwf0.2.2 func (mem_functions_of_getElem? _ j func h1)
          have hpeq : p0 = p := List.inj_on_of_nodup_map hnd hp0 hp (hkept.1.symm.trans hpcid)
          rw [hpeq] at hkept
          have hs2 := blockKept_succ fi p pc hkept
            (wf_block_nodup m0 hwf0 func (mem_functions_of_getElem? _ j func h1) p hp) b.id hsucc
          have hmem : pc.id ∈ fc.get_pre_basic_blocks bd := by
            unfold Function.get_pre_basic_blocks
            refine List.mem_map.2 ⟨pc, List.mem_filter.2 ⟨hpc, ?_⟩, rfl⟩
            rw [hbdid, hbcid]
            simpa using hs2
          rw [hbdd.1] at hmem
          exact List.not_mem_nil _ hmem
        refine ⟨Prunable.intro b.id ?_ ?_, ?_⟩
        · rw [← hR.2.2.1, ← hbcid, ← hbdid]
          exact hbdd.2
        · intro p hp hsucc
          exact (h.2 j func fc h1 hk p hp (hpreds p hp hsucc)).1
        · intro p hp hsucc hpin
          exact hpreds p hp hsucc (hsub _ hpin)
      · obtain ⟨hpr, hpg⟩ := h.2 j func fc h1 hk b hb hin
        exact ⟨hpr, fun p hp hsucc hpin => hpg p hp hsucc (hsub _ hpin)⟩
    · rw [modify_function_getElem?_ne _ _ _ _ hjk] at h2
      exact h.2 j func func' h1 h2 b hb hgone

theorem sweep_block_ids (k j : Nat) (s : DeadCode) (f f' : Function)
    (h : s.m_.functions[j]? = some f) (h' : (sweep k s).2.m_.functions[j]? = some f') :
    f'.basic_blocks.map BasicBlock.id = f.basic_blocks.map BasicBlock.id := by
  by_cases hjk : j = k
  · subst hjk
    rw [sweep_function j s f h] at h'
    simp only [Option.some.injEq] at h'
    subst h'
    simp [Function.erase_instructions, Function.map_instructions, List.map_map,
      Function.comp_def]
  · rw [sweep_getElem?_ne k j s hjk, h] at h'
    simp only [Option.some.injEq] at h'
    rw [h']

theorem PruneInv.sweep_instructions {fi : Option Nat → Bool} {m0 : Module} (k : Nat)
    (s : DeadCode) (h : PruneInv fi m0 s.m_)
    (hm : ∀ func, s.m_.functions[k]? = some func →
      ∀ ins ∈ func.get_instructions, is_critical fi ins = true → ins.id ∈ s.marked) :
    PruneInv fi m0 (sweep k s).2.m_ := by
  have hsh := sweep_shrinks fi k s hm
  refine ⟨moduleShrinks_trans h.1 hsh, ?_⟩
  intro j func func' h1 h2 b hb hgone
  obtain ⟨fc, hfc, _⟩ := forall₂_getElem?_right hsh j func' h2
  have hids := sweep_block_ids k j s fc func' hfc h2
  rw [hids] at hgone ⊢
  exact h.2 j func fc h1 hfc b hb hgone

theorem run_pruneInv (fi : Option Nat → Bool) (self s' : DeadCode) (hwf : self.m_.WellFormed)
    (h : run fi self = some s') : PruneInv fi self.m_ s'.m_ :=
  run_induct fi (PruneInv fi self.m_) (fun k s hP => hP.clear_blocks hwf k s)
    (fun k s hP hm => hP.sweep_instructions k s hm) self s' (pruneInv_refl fi self.m_) h

theorem Prunable.not_reached {func : Function} {b : Nat} (h : Prunable func b) :
    ¬ Relation.ReflTransGen (BlockEdge func) func.entry_block b := by
  induction h with
  | intro b hne _ ih =>
    intro hr
    rcases Relation.ReflTransGen.cases_tail hr with heq | ⟨c, hc, hedge⟩
    · exact hne heq
    · obtain ⟨pb, hpb, hpid, hsucc, _⟩ := hedge
      apply ih pb hpb hsucc
      rw [hpid]
      exact hc

theorem run_keeps_or_prunes (fi : Option Nat → Bool) (self s' : DeadCode)
    (hwf : self.m_.WellFormed) (hs' : run fi self = some s') (k : Nat) (func : Function)
    (bb : BasicBlock) (ins : Instruction) (hk : self.m_.functions[k]? = some func)
    (hbb : bb ∈ func.basic_blocks) (hins : ins ∈ bb.instructions)
    (hcrit : is_critical fi ins = true) :
    ∃ func', s'.m_.functions[k]? = some func' ∧ func'.id = func.id ∧
      ((∃ bb' ∈ func'.basic_blocks, bb'.id = bb.id ∧ ins ∈ bb'.instructions) ∨
        (bb.id ∉ func'.basic_blocks.map BasicBlock.id ∧ bb.id ≠ func.entry_block ∧
          (∀ p ∈ func.basic_blocks, bb.id ∈ p.get_succ_basic_blocks →
            p.id ∉ func'.basic_blocks.map BasicBlock.id) ∧
          Prunable func bb.id)) ∧
      (∀ bb' ∈ func'.basic_blocks, bb'.id = bb.id → ins ∈ bb'.instructions) ∧
      (Relation.ReflTransGen (BlockEdge func) func.entry_block bb.id →
        ∃ bb' ∈ func'.basic_blocks, bb'.id = bb.id ∧ ins ∈ bb'.instructions) := by
  have hinv := run_pruneInv fi self s' hwf hs'
  obtain ⟨func', hf', hR⟩ := forall₂_getElem? hinv.1 k func hk
  have hkeep : ∀ bb' ∈ func'.basic_blocks, bb'.id = bb.id → ins ∈ bb'.instructions := by
    intro bb' hbb' hid
    obtain ⟨b, hb, hkept⟩ := hR.2.2.2.2.2.1 bb' hbb'
    have hnd := hwf.2.2 func (mem_functions_of_getElem? _ k func hk)
    have hbeq : b = bb := List.inj_on_of_nodup_map hnd hb hbb (hkept.1.symm.trans hid)
    rw [hbeq] at hkept
    exact hkept.2.2 ins hins hcrit
  have hcases : (∃ bb' ∈ func'.basic_blocks, bb'.id = bb.id ∧ ins ∈ bb'.instructions) ∨
      (bb.id ∉ func'.basic_blocks.map BasicBlock.id ∧ bb.id ≠ func.entry_block ∧
        (∀ p ∈ func.basic_blocks, bb.id ∈ p.get_succ_basic_blocks →
          p.id ∉ func'.basic_blocks.map BasicBlock.id) ∧
        Prunable func bb.id) := by
    by_cases hin : bb.id ∈ func'.basic_blocks.map BasicBlock.id
    · obtain ⟨bb', hbb', hid⟩ := List.mem_map.1 hin
      exact Or.inl ⟨bb', hbb', hid, hkeep bb' hbb' hid⟩
    · obtain ⟨hpr, hpg⟩ := hinv.2 k func func' hk hf' bb hbb hin
      refine Or.inr ⟨hin, ?_, hpg, hpr⟩
      cases hpr with
      | intro _ hne _ => exact hne
  refine ⟨func', hf', hR.1, hcases, hkeep, ?_⟩
  intro hreach
  rcases hcases with h | ⟨_, _, _, hpr⟩
  · exact h
  · exact absurd hreach hpr.not_reached

/-- Claim C5: on a well-formed module `run` returns, and every branch, return
and store that was in a block of a function before the run is afterwards in
the block with the same address of the same function, unless that block is
gone. A block that is gone is not the entry block, every predecessor it had
is gone as well, and it is in the set `Prunable` of the blocks that repeated
removal of blocks without predecessors takes out; so the instruction stays
in every block that is reached from the entry block. -/
theorem run_keeps_critical (is_pure_function : Option Nat → Bool) (self : DeadCode)
    (hwf : self.m_.WellFormed) (k : Nat) (func : Function) (bb : BasicBlock)
    (ins : Instruction) (hk : self.m_.functions[k]? = some func)
    (hbb : bb ∈ func.basic_blocks) (hins : ins ∈ bb.instructions)
    (hop : ins.op = OpID.br ∨ ins.op = OpID.ret ∨ ins.op = OpID.store) :
    ∃ s' func', run is_pure_function self = some s' ∧
      s'.m_.functions[k]? = some func' ∧ func'.id = func.id ∧
      ((∃ bb' ∈ func'.basic_blocks, bb'.id = bb.id ∧ ins ∈ bb'.instructions) ∨
        (bb.id ∉ func'.basic_blocks.map BasicBlock.id ∧ bb.id ≠ func.entry_block ∧
          (∀ p ∈ func.basic_blocks, bb.id ∈ p.get_succ_basic_blocks →
            p.id ∉ func'.basic_blocks.map BasicBlock.id) ∧
          Prunable func bb.id)) ∧
      (∀ bb' ∈ func'.basic_blocks, bb'.id = bb.id → ins ∈ bb'.instructions) ∧
      (Relation.ReflTransGen (BlockEdge func) func.entry_block bb.id →
        ∃ bb' ∈ func'.basic_blocks, bb'.id = bb.id ∧ ins ∈ bb'.instructions) := by
  obtain ⟨s', hs'⟩ := run_total is_pure_function self
  have hcrit : is_critical is_pure_function ins = true := by
    obtain ⟨id, op, operands⟩ := ins
    simp only at hop
    rcases hop with h | h | h <;> subst h <;>
      simp [is_critical, Instruction.is_call, Instruction.is_br, Instruction.is_ret,
        Instruction.is_store]
  obtain ⟨func', h1, h2, h3, h4, h5⟩ :=
    run_keeps_or_prunes is_pure_function self s' hwf hs' k func bb ins hk hbb hins hcrit
  exact ⟨s', func', hs', h1, h2, h3, h4, h5⟩

/-- Claim C5, at the example: the return 8 of block 11 of `main`, a block other
than the entry block that the entry block 10 branches to. -/
theorem run_keeps_critical_witness :
    example_pass.m_.WellFormed ∧
    Relation.ReflTransGen (BlockEdge example_main) example_main.entry_block 11 ∧
    ∃ s' func', run example_oracle example_pass = some s' ∧
      s'.m_.functions[0]? = some func' ∧ func'.id = example_main.id ∧
      ((∃ bb' ∈ func'.basic_blocks, bb'.id = 11 ∧
          ({ id := 8, op := OpID.ret, operands := [] } : Instruction) ∈ bb'.instructions) ∨
        (11 ∉ func'.basic_blocks.map BasicBlock.id ∧ 11 ≠ example_main.entry_block ∧
          (∀ p ∈ example_main.basic_blocks, 11 ∈ p.get_succ_basic_blocks →
            p.id ∉ func'.basic_blocks.map BasicBlock.id) ∧
          Prunable example_main 11)) ∧
      (∀ bb' ∈ func'.basic_blocks, bb'.id = 11 →
        ({ id := 8, op := OpID.ret, operands := [] } : Instruction) ∈ bb'.instructions) ∧
      (Relation.ReflTransGen (BlockEdge example_main) example_main.entry_block 11 →
        ∃ bb' ∈ func'.basic_blocks, bb'.id = 11 ∧
          ({ id := 8, op := OpID.ret, operands := [] } : Instruction) ∈ bb'.instructions) :=
  ⟨by decide,
    Relation.ReflTransGen.single
      ⟨{ id := 10, instructions := [
          { id := 1, op := OpID.phi, operands := [Value.instruction 2] },
          { id := 2, op := OpID.call, operands := [Value.function 101, Value.instruction 1] },
          { id := 3, op := OpID.load, operands := [Value.global_variable 50] },
          { id := 4, op := OpID.call, operands := [Value.function 101, Value.instruction 3] },
          { id := 5, op := OpID.call, operands := [Value.function 102] },
          { id := 6, op := OpID.store,
            operands := [Value.instruction 3, Value.global_variable 50] },
          { id := 7, op := OpID.br, operands := [Value.basic_block 11] }] },
        by decide, rfl, by decide,
        { id := 11, instructions := [{ id := 8, op := OpID.ret, operands := [] }] },
        by decide, rfl⟩,
    run_keeps_critical example_oracle example_pass (by decide) 0 example_main
      { id := 11, instructions := [{ id := 8, op := OpID.ret, operands := [] }] }
      { id := 8, op := OpID.ret, operands := [] }
      rfl (by decide) (by decide) (Or.inr (Or.inl rfl))⟩

/-- Claim C15, as amended: on a well-formed module `run` returns, and a call
whose callee the oracle does not report pure, whether its result is used or
not, is afterwards in the block with the same address of the same function,
unless that block is gone. A block that is gone is not the entry block,
every predecessor it had is gone as well, and it is in the set `Prunable` of
the blocks that repeated removal of blocks without predecessors takes out;
so the call stays in every block that is reached from the entry block. -/
theorem run_keeps_impure_call (is_pure_function : Option Nat → Bool) (self : DeadCode)
    (hwf : self.m_.WellFormed) (k : Nat) (func : Function) (bb : BasicBlock)
    (ins : Instruction) (hk : self.m_.functions[k]? = some func)
    (hbb : bb ∈ func.basic_blocks) (hins : ins ∈ bb.instructions)
    (hcall : ins.op = OpID.call) (himpure : is_pure_function ins.get_callee = false) :
    ∃ s' func', run is_pure_function self = some s' ∧
      s'.m_.functions[k]? = some func' ∧ func'.id = func.id ∧
      ((∃ bb' ∈ func'.basic_blocks, bb'.id = bb.id ∧ ins ∈ bb'.instructions) ∨
        (bb.id ∉ func'.basic_blocks.map BasicBlock.id ∧ bb.id ≠ func.entry_block ∧
          (∀ p ∈ func.basic_blocks, bb.id ∈ p.get_succ_basic_blocks →
            p.id ∉ func'.basic_blocks.map BasicBlock.id) ∧
          Prunable func bb.id)) ∧
      (∀ bb' ∈ func'.basic_blocks, bb'.id = bb.id → ins ∈ bb'.instructions) ∧
      (Relation.ReflTransGen (BlockEdge func) func.entry_block bb.id →
        ∃ bb' ∈ func'.basic_blocks, bb'.id = bb.id ∧ ins ∈ bb'.instructions) := by
  obtain ⟨s', hs'⟩ := run_total is_pure_function self
  have hcrit : is_critical is_pure_function ins = true := by
    obtain ⟨id, op, operands⟩ := ins
    simp only at hcall
    subst hcall
    simp only [is_critical, Instruction.is_call, beq_self_eq_true, if_true]
    simp only [himpure]
    rfl
  obtain ⟨func', h1, h2, h3, h4, h5⟩ :=
    run_keeps_or_prunes is_pure_function self s' hwf hs' k func bb ins hk hbb hins hcrit
  exact ⟨s', func', hs', h1, h2, h3, h4, h5⟩

/-- Claim C15 as amended, at the example: the impure call 5 of the entry block
10 of `main`, whose result is not used. -/
theorem run_keeps_impure_call_witness :
    example_pass.m_.WellFormed ∧
    ∃ s' func', run example_oracle example_pass = some s' ∧
      s'.m_.functions[0]? = some func' ∧ func'.id = example_main.id ∧
      ((∃ bb' ∈ func'.basic_blocks, bb'.id = 10 ∧
          ({ id := 5, op := OpID.call, operands := [Value.function 102] } : Instruction) ∈
            bb'.instructions) ∨
        (10 ∉ func'.basic_blocks.map BasicBlock.id ∧ 10 ≠ example_main.entry_block ∧
          (∀ p ∈ example_main.basic_blocks, 10 ∈ p.get_succ_basic_blocks →
            p.id ∉ func'.basic_blocks.map BasicBlock.id) ∧
          Prunable example_main 10)) ∧
      (∀ bb' ∈ func'.basic_blocks, bb'.id = 10 →
        ({ id := 5, op := OpID.call, operands := [Value.function 102] } : Instruction) ∈
          bb'.instructions) ∧
      (Relation.ReflTransGen (BlockEdge example_main) example_main.entry_block 10 →
        ∃ bb' ∈ func'.basic_blocks, bb'.id = 10 ∧
          ({ id := 5, op := OpID.call, operands := [Value.function 102] } : Instruction) ∈
            bb'.instructions) :=
  ⟨by decide,
    run_keeps_impure_call example_oracle example_pass (by decide) 0 example_main
      { id := 10, instructions := [
          { id := 1, op := OpID.phi, operands := [Value.instruction 2] },
          { id := 2, op := OpID.call, operands := [Value.function 101, Value.instruction 1] },
          { id := 3, op := OpID.load, operands := [Value.global_variable 50] },
          { id := 4, op := OpID.call, operands := [Value.function 101, Value.instruction 3] },
          { id := 5, op := OpID.call, operands := [Value.function 102] },
          { id := 6, op := OpID.store,
            operands := [Value.instruction 3, Value.global_variable 50] },
          { id := 7, op := OpID.br, operands := [Value.basic_block 11] }] }
      { id := 5, op := OpID.call, operands := [Value.function 102] }
      rfl (by decide) (by decide) rfl rfl⟩

theorem forall₂_shrinks_names {fi : Option Nat → Bool} {l l' : List Function}
    (h : List.Forall₂ (FunctionShrinks fi) l l') :
    l'.map (fun f => (f.id, f.name)) = l.map (fun f => (f.id, f.name)) := by
  induction h with
  | nil => rfl
  | cons hab _ ih =>
    simp only [List.map_cons]
    rw [hab.1, hab.2.1, ih]

/-- Claim C14, as amended: `run` returns and removes no function and no global
variable: the module has the same functions, by address and name, and the
same global variables as before, and no use-list has gained an entry; so a
function other than "main" with an empty use-list and a global variable
with an empty use-list are still in the module after `run`. In particular,
on a well-formed module, an unused call to an oracle-pure function `P` is
gone from the module after `run`, and `P` is still in it. -/
theorem run_keeps_functions_and_globals (is_pure_function : Option Nat → Bool)
    (self : DeadCode) :
    ∃ s', run is_pure_function self = some s' ∧
      s'.m_.functions.map (fun f => (f.id, f.name)) =
        self.m_.functions.map (fun f => (f.id, f.name)) ∧
      s'.m_.global_variable = self.m_.global_variable ∧
      (∀ (v : Value) (e : Use), e ∈ s'.m_.get_use_list v → e ∈ self.m_.get_use_list v) ∧
      (∀ f ∈ self.m_.functions, self.m_.get_use_list (Value.function f.id) = [] →
        ∃ f' ∈ s'.m_.functions, f'.id = f.id ∧ f'.name = f.name ∧
          s'.m_.get_use_list (Value.function f'.id) = []) ∧
      (∀ g ∈ self.m_.global_variable, self.m_.get_use_list (Value.global_variable g.id) = [] →
        g ∈ s'.m_.global_variable ∧ s'.m_.get_use_list (Value.global_variable g.id) = []) ∧
      ∀ (k : Nat) (func : Function) (c : Instruction) (P : Function),
        self.m_.WellFormed → self.m_.functions[k]? = some func →
        c ∈ func.get_instructions → c.op = OpID.call →
        c.get_callee = some P.id → is_pure_function (some P.id) = true →
        (∀ x ∈ func.get_instructions, is_critical is_pure_function x = true →
          ¬ Relation.TransGen (OperandEdge func) x.id c.id) →
        P ∈ self.m_.functions →
        (∀ ins ∈ s'.m_.get_instructions, ins.id ≠ c.id) ∧
        ∃ P' ∈ s'.m_.functions, P'.id = P.id ∧ P'.name = P.name := by
  obtain ⟨s', hs'⟩ := run_total is_pure_function self
  have hsh := run_shrinks is_pure_function self s' hs'
  have hsub := run_use_list_subset is_pure_function self s' hs'
  have hstay : ∀ f ∈ self.m_.functions, ∃ f' ∈ s'.m_.functions, f'.id = f.id ∧ f'.name = f.name := by
    intro f hf
    obtain ⟨j, hj⟩ := List.mem_iff_getElem?.1 hf
    obtain ⟨f', hf', hR⟩ := forall₂_getElem? hsh j f hj
    exact ⟨f', List.mem_iff_getElem?.2 ⟨j, hf'⟩, hR.1, hR.2.1⟩
  have hglob := run_global_variable is_pure_function self s' hs'
  refine ⟨s', hs', forall₂_shrinks_names hsh, hglob, hsub, ?_, ?_, ?_⟩
  · intro f hf hempty
    obtain ⟨f', hf', hid, hname⟩ := hstay f hf
    refine ⟨f', hf', hid, hname, ?_⟩
    rw [List.eq_nil_iff_forall_not_mem]
    intro e he
    have := hsub _ e he
    rw [hid, hempty] at this
    exact List.not_mem_nil _ this
  · intro g hg hempty
    refine ⟨by rw [hglob]; exact hg, ?_⟩
    rw [List.eq_nil_iff_forall_not_mem]
    intro e he
    have := hsub _ e he
    rw [hempty] at this
    exact List.not_mem_nil _ this
  · intro k func c P hwf hk hcf hcall hcallee hpure hunused hP
    have hcrit : is_critical is_pure_function c = false := by
      obtain ⟨id, op, operands⟩ := c
      simp only at hcall
      subst hcall
      simp [is_critical, Instruction.is_call, hcallee, hpure]
    have hdead := not_live_of_unused is_pure_function self.m_ hwf k func c hk hcf hcrit hunused
    exact ⟨run_removes_not_live is_pure_function self s' hwf hs' k func c hk hcf hdead,
      hstay P hP⟩

/-- Claim C14 as amended, at the `PureSquare` example: `run` removes the call 1,
and the function 101, `PureSquare`, is still in the module. -/
theorem run_keeps_functions_and_globals_witness :
    square_pass.m_.WellFormed ∧
    (run example_oracle square_pass).map (fun s' =>
      (s'.m_.get_instructions.map Instruction.id,
        s'.m_.functions.map (fun f => (f.id, f.name)),
        s'.m_.get_use_list (Value.function 101))) =
      some ([2], [(100, "main"), (101, "PureSquare")], []) ∧
    ∃ s', run example_oracle square_pass = some s' ∧
      (∀ ins ∈ s'.m_.get_instructions, ins.id ≠ 1) ∧
      ∃ P' ∈ s'.m_.functions, P'.id = 101 ∧ P'.name = "PureSquare" := by
  obtain ⟨s', h1, _, _, _, _, _, h7⟩ :=
    run_keeps_functions_and_globals example_oracle square_pass
  refine ⟨by decide, by decide, s', h1, ?_⟩
  refine h7 0 square_main square_call square_callee (by decide) rfl (by decide) rfl rfl rfl ?_
    (by decide)
  intro x hx hcrit ht
  exact (by decide : (1 : Nat) ∉ [2])
    ((mark_marked_iff example_oracle 0 square_pass
      { m_ := square_module, marked := [2], work_list := [], ins_count := 0 }
      square_main (by decide) rfl (by decide) 1).2
      ((live_iff_reaches example_oracle square_main 1).2
        ⟨x, hx, hcrit, ht.to_reflTransGen⟩))

/-- Claim C14 as stated fails at the example: the module is well formed with
consistent use-lists, and after `run` the function 101, named "square", is
still in the module with an empty use-list, and so is the global variable
51. -/
theorem run_leaves_unused_function :
    example_pass.m_.WellFormed ∧ example_pass.m_.UsesComplete ∧ example_pass.m_.UsesSound ∧
    (run example_oracle example_pass).map (fun s' =>
      s'.m_.functions.map (fun f => (f.id, f.name))) =
      some [(100, "main"), (101, "square"), (102, "output")] ∧
    (run example_oracle example_pass).map (fun s' =>
      s'.m_.get_use_list (Value.function 101)) = some [] ∧
    (run example_oracle example_pass).map (fun s' =>
      s'.m_.global_variable.map GlobalVariable.id) = some [50, 51] ∧
    (run example_oracle example_pass).map (fun s' =>
      s'.m_.get_use_list (Value.global_variable 51)) = some [] := by
  refine ⟨by decide, by decide, by decide, by decide, by decide, by decide, by decide⟩

theorem clear_operands_of_instructions (S : List Nat) (f : Function) :
    (Function.clear_operands_of S f).get_instructions =
      f.get_instructions.map (fun ins =>
        if ins.id ∈ S then { ins with operands := [] } else ins) := by
  simp only [Function.clear_operands_of, Function.map_instructions, Function.get_instructions,
    List.map_map, List.map_flatten]
  rfl

theorem clear_operands_of_ids (S : List Nat) (f : Function) :
    (Function.clear_operands_of S f).get_instructions.map Instruction.id =
      f.get_instructions.map Instruction.id := by
  rw [clear_operands_of_instructions, List.map_map]
  apply List.map_congr_left
  intro b _
  simp only [Function.comp]
  split <;> rfl

theorem clear_operands_of_layout (ids : List Nat) (f : Function) :
    (Function.clear_operands_of ids f).basic_blocks.map
        (fun bb => (bb.id, bb.instructions.map Instruction.id)) =
      f.basic_blocks.map (fun bb => (bb.id, bb.instructions.map Instruction.id)) := by
  unfold Function.clear_operands_of Function.map_instructions
  simp only [List.map_map]
  apply List.map_congr_left
  intro bb _
  simp only [Function.comp_apply, Prod.mk.injEq, true_and]
  rw [List.map_map]
  apply List.map_congr_left
  intro ins _
  simp only [Function.comp_apply]
  split <;> rfl

theorem find_instruction_clear_operands_of (S : List Nat) (f : Function)
    (hnd : (f.get_instructions.map Instruction.id).Nodup) (x : Instruction)
    (hx : x ∈ f.get_instructions) :
    (Function.clear_operands_of S f).find_instruction x.id =
      some (if x.id ∈ S then { x with operands := [] } else x) := by
  have hmem : (if x.id ∈ S then ({ x with operands := [] } : Instruction) else x) ∈
      (Function.clear_operands_of S f).get_instructions := by
    rw [clear_operands_of_instructions]
    exact List.mem_map.2 ⟨x, hx, rfl⟩
  have hid : (if x.id ∈ S then ({ x with operands := [] } : Instruction) else x).id = x.id := by
    split <;> rfl
  have := find_instruction_of_mem (Function.clear_operands_of S f)
    (by rw [clear_operands_of_ids]; exact hnd) _ hmem
  rw [hid] at this
  exact this

theorem erase_clear_ids (P W : List Nat) (f : Function) :
    (Function.erase_instructions P (Function.clear_operands_of W f)).get_instructions.map
        Instruction.id =
      (f.get_instructions.map Instruction.id).filter (fun a => decide (a ∉ P)) := by
  rw [erase_instructions_instructions, clear_operands_of_instructions]
  generalize f.get_instructions = l
  induction l with
  | nil => rfl
  | cons a l ih =>
    have hid : (if a.id ∈ W then ({ a with operands := [] } : Instruction) else a).id = a.id := by
      split <;> rfl
    simp only [List.map_cons, List.filter_cons, hid]
    by_cases h : a.id ∈ P
    · simpa [h] using ih
    · simpa [h, hid] using ih

theorem detach_all_state (k : Nat) (pre : List Instruction) (s : DeadCode) (func : Function)
    (hwf : s.m_.WellFormed) (hs : s.m_.UsesSound) (hk : s.m_.functions[k]? = some func)
    (hpre : ∀ x ∈ pre, x ∈ func.get_instructions) (hpren : (pre.map Instruction.id).Nodup) :
    (detach_all k pre s).m_.functions[k]? =
      some (Function.clear_operands_of (pre.map Instruction.id) func) ∧
    ∀ (w : Value) (e : Use), e ∈ (detach_all k pre s).m_.get_use_list w ↔
      e ∈ s.m_.get_use_list w ∧ e.1 ∉ pre.map Instruction.id := by
  have hfnd := wf_function_nodup s.m_ hwf k func hk
  rw [foldl_detach_one k pre s func hk hfnd hpre hpren]
  refine ⟨?_, ?_⟩
  · simp only [modify_function_getElem?_self, (foldl_remove_uses_of_functions _ _).1, hk]
    rfl
  · intro w e
    rw [get_use_list_modify_function, mem_get_use_list_detach]
    constructor
    · rintro ⟨h1, h2⟩
      refine ⟨h1, ?_⟩
      intro hin
      obtain ⟨y, hy, hye⟩ := List.mem_map.1 hin
      obtain ⟨ins, hins, hid, hop⟩ := usesSound_get_use_list s.m_ hs w e h1
      have hyi : y = ins := wf_instruction_eq s.m_ hwf y ins
        (mem_module_instructions _ k func hk y (hpre y hy)) hins (hye.trans hid.symm)
      apply h2
      refine ⟨y, hy, e.2, ?_, ?_⟩
      · rw [hyi]
        exact hop
      · rw [hye]
    · rintro ⟨h1, h2⟩
      refine ⟨h1, ?_⟩
      rintro ⟨ins, hins, p, _, rfl⟩
      exact h2 (List.mem_map.2 ⟨ins, hins, rfl⟩)

theorem condemned_unused (fi : Option Nat → Bool) (k : Nat) (s : DeadCode) (func : Function)
    (hwf : s.m_.WellFormed) (hs : s.m_.UsesSound) (hloc : s.m_.OperandsLocal)
    (hk : s.m_.functions[k]? = some func)
    (hlive : ∀ id, id ∈ s.marked ↔ Live fi func id)
    (x : Instruction) (hx : x ∈ collect_wait_del func s.marked) (e : Use)
    (he : e ∈ s.m_.get_use_list (Value.instruction x.id)) :
    e.1 ∈ (collect_wait_del func s.marked).map Instruction.id := by
  obtain ⟨hxf, hxm⟩ := (mem_wait_del func s.marked x).1 hx
  obtain ⟨ins, hins, hid, hop⟩ := usesSound_get_use_list s.m_ hs _ e he
  obtain ⟨j, g, hj, hig⟩ := (mem_module_instructions_iff _ _).1 hins
  have hopm : Value.instruction x.id ∈ ins.operands := List.getElem?_mem hop
  have hl := hloc g (mem_functions_of_getElem? _ j g hj) ins hig _ hopm
  simp only [Value.is_local, decide_eq_true_eq] at hl
  obtain ⟨y, hy, hyx⟩ := List.mem_map.1 hl
  have hyeq : y = x := wf_instruction_eq s.m_ hwf y x
    (mem_module_instructions _ j g hj y hy) (mem_module_instructions _ k func hk x hxf) hyx
  rw [hyeq] at hy
  have hjk : j = k := wf_position_eq s.m_ hwf j k g func hj hk x hy hxf
  subst hjk
  rw [hk] at hj
  simp only [Option.some.injEq] at hj
  subst hj
  rw [← hid]
  refine List.mem_map.2 ⟨ins, (mem_wait_del func s.marked ins).2 ⟨hig, ?_⟩, rfl⟩
  intro hmk
  apply hxm
  rw [hlive]
  exact Live.operand ins x.id hig ((hlive ins.id).1 hmk) hopm ⟨x, hxf, rfl⟩

theorem mem_sweep_of_not_condemned (k : Nat) (s : DeadCode) (func : Function)
    (hk : s.m_.functions[k]? = some func) (x : Instruction)
    (hx : x ∈ s.m_.get_instructions)
    (hid : x.id ∉ (collect_wait_del func s.marked).map Instruction.id) :
    x ∈ (sweep k s).2.m_.get_instructions := by
  obtain ⟨j, f, hj, hxf⟩ := (mem_module_instructions_iff _ _).1 hx
  by_cases hjk : j = k
  · subst hjk
    rw [hk] at hj
    simp only [Option.some.injEq] at hj
    subst hj
    refine (mem_module_instructions_iff _ _).2 ⟨j, _, sweep_function j s func hk, ?_⟩
    rw [erase_instructions_instructions]
    exact List.mem_filter.2 ⟨hxf, by simpa using hid⟩
  · refine (mem_module_instructions_iff _ _).2 ⟨j, f, ?_, hxf⟩
    rw [sweep_getElem?_ne k j s hjk]
    exact hj

theorem not_mem_sweep_of_condemned (k : Nat) (s : DeadCode) (func : Function)
    (hwf : s.m_.WellFormed) (hk : s.m_.functions[k]? = some func) (x : Instruction)
    (hx : x ∈ collect_wait_del func s.marked) :
    ∀ y ∈ (sweep k s).2.m_.get_instructions, y.id ≠ x.id := by
  intro y hy hyx
  have hxf := ((mem_wait_del func s.marked x).1 hx).1
  obtain ⟨j, f, hj, hyf⟩ := (mem_module_instructions_iff _ _).1 hy
  by_cases hjk : j = k
  · subst hjk
    rw [sweep_function j s func hk] at hj
    simp only [Option.some.injEq] at hj
    rw [← hj, erase_instructions_instructions] at hyf
    have := (List.mem_filter.1 hyf).2
    simp only [decide_eq_true_eq] at this
    exact this (hyx ▸ List.mem_map.2 ⟨x, hx, rfl⟩)
  · rw [sweep_getElem?_ne k j s hjk] at hj
    have hyeq : y = x := wf_instruction_eq s.m_ hwf y x
      (mem_module_instructions _ j f hj y hyf) (mem_module_instructions _ k func hk x hxf) hyx
    rw [hyeq] at hyf
    exact hjk (wf_position_eq s.m_ hwf j k f func hj hk x hyf hxf)

/-- The order of the two loops of `sweep` matters: at the example, running
the detach loop after the erase loop finds no condemned instruction to
dereference and leaves the entry `(4, 1)` of the erased call 4 in the
use-list of the load 3, where `sweep` leaves the entry of the store 6
only. -/
theorem detach_after_erase_differs :
    (mark example_oracle 0 example_pass).map (fun s1 =>
      (detach_all 0 (collect_wait_del example_main s1.marked)
        (erase_all 0 (collect_wait_del example_main s1.marked) s1)).m_.get_use_list
        (Value.instruction 3)) = some [(4, 1), (6, 0)] ∧
    (mark example_oracle 0 example_pass).map (fun s1 =>
      (sweep 0 s1).2.m_.get_use_list (Value.instruction 3)) = some [(6, 0)] := by
  refine ⟨by decide, by decide⟩

theorem is_critical_raising_total (fi : Option Nat → Bool) (ins : Instruction) :
    is_critical_raising (fun c => some (fi c)) ins = some (is_critical fi ins) := by
  unfold is_critical_raising is_critical
  by_cases h1 : ins.is_call = true
  · simp only [h1, if_true]
    by_cases h2 : fi ins.get_callee = true <;> simp [h2]
  · simp only [h1]
    by_cases h2 : (ins.is_br || ins.is_ret) = true
    · simp [h2]
    · by_cases h3 : ins.is_store = true <;> simp [h2, h3]

theorem mark_critical_raising_total (fi : Option Nat → Bool) (l : List Instruction)
    (s : DeadCode) :
    mark_critical_raising (fun c => some (fi c)) l s =
      some (l.foldl (mark_if_critical fi) s) := by
  induction l generalizing s with
  | nil => rfl
  | cons a l ih =>
    unfold mark_critical_raising
    rw [is_critical_raising_total]
    simp only [List.foldl_cons]
    rw [ih]
    rfl

theorem mark_raising_total (fi : Option Nat → Bool) (k : Nat) (s : DeadCode) :
    mark_raising (fun c => some (fi c)) k s = Outcome.of_option (mark fi k s) := by
  unfold mark_raising mark
  cases s.m_.functions[k]? with
  | none => rfl
  | some func =>
    simp only [mark_critical_raising_total, mark_critical_eq]

theorem run_function_raising_total (fi : Option Nat → Bool) (k : Nat) (s : DeadCode) :
    run_function_raising (fun c => some (fi c)) k s =
      Outcome.of_option (run_function fi k s) := by
  unfold run_function_raising run_function
  simp only [mark_raising_total]
  cases mark fi k (clear_basic_blocks k s).2 <;> rfl

theorem run_functions_raising_total (fi : Option Nat → Bool) (ks : List Nat) (c : Bool)
    (s : DeadCode) :
    run_functions_raising (fun c => some (fi c)) ks c s =
      Outcome.of_option (run_functions fi ks c s) := by
  induction ks generalizing c s with
  | nil => rfl
  | cons k ks ih =>
    unfold run_functions_raising run_functions
    rw [run_function_raising_total]
    cases run_function fi k s with
    | none => rfl
    | some r => exact ih _ _

theorem run_loop_raising_total (fi : Option Nat → Bool) (fuel : Nat) (s : DeadCode) :
    run_loop_raising (fun c => some (fi c)) fuel s = Outcome.of_option (run_loop fi fuel s) := by
  induction fuel generalizing s with
  | zero => rfl
  | succ fuel ih =>
    unfold run_loop_raising run_loop run_round_raising run_round
    rw [run_functions_raising_total]
    cases run_functions fi (List.range s.m_.functions.length) false s with
    | none => rfl
    | some r =>
      by_cases hr : r.1 = true
      · simp only [Outcome.of_option, hr, if_true]
        exact ih _
      · simp only [Outcome.of_option, hr]
        rfl

theorem run_raising_total (fi : Option Nat → Bool) (s : DeadCode) :
    run_raising (fun c => some (fi c)) s = Outcome.of_option (run fi s) :=
  run_loop_raising_total fi _ s

theorem is_critical_raising_cases (oracle : Option Nat → Option Bool) (ins : Instruction) :
    is_critical_raising oracle ins = none ∨
      is_critical_raising oracle ins =
        some (is_critical (fun c => (oracle c).getD false) ins) := by
  unfold is_critical_raising is_critical
  by_cases h1 : ins.is_call = true
  · simp only [h1, if_true]
    rcases Option.eq_none_or_eq_some (oracle ins.get_callee) with h2 | ⟨p, h2⟩
    · left
      simp only [h2]
    · right
      simp only [h2]
      cases p <;> simp
  · right
    simp only [h1]
    by_cases h2 : (ins.is_br || ins.is_ret) = true
    · simp [h2]
    · by_cases h3 : ins.is_store = true <;> simp [h2, h3]

theorem mark_critical_raising_cases (oracle : Option Nat → Option Bool)
    (l : List Instruction) (s : DeadCode) :
    mark_critical_raising oracle l s = none ∨
      mark_critical_raising oracle l s =
        some (l.foldl (mark_if_critical (fun c => (oracle c).getD false)) s) := by
  induction l generalizing s with
  | nil => exact Or.inr rfl
  | cons a l ih =>
    unfold mark_critical_raising
    rcases is_critical_raising_cases oracle a with h | h
    · left
      rw [h]
    · rw [h]
      simp only [List.foldl_cons]
      exact ih _

theorem mark_raising_cases (oracle : Option Nat → Option Bool) (k : Nat) (s : DeadCode) :
    mark_raising oracle k s = Outcome.raised ∨
      mark_raising oracle k s =
        Outcome.of_option (mark (fun c => (oracle c).getD false) k s) := by
  unfold mark_raising mark
  cases s.m_.functions[k]? with
  | none => exact Or.inr rfl
  | some func =>
    simp only
    rcases mark_critical_raising_cases oracle func.get_instructions
      { s with work_list := [], marked := [] } with h | h
    · left
      rw [h]
    · right
      rw [h, mark_critical_eq]

theorem run_function_raising_cases (oracle : Option Nat → Option Bool) (k : Nat)
    (s : DeadCode) :
    run_function_raising oracle k s = Outcome.raised ∨
      run_function_raising oracle k s =
        Outcome.of_option (run_function (fun c => (oracle c).getD false) k s) := by
  unfold run_function_raising run_function
  rcases mark_raising_cases oracle k (clear_basic_blocks k s).2 with h | h
  · left
    simp only [h]
  · right
    simp only [h]
    cases mark (fun c => (oracle c).getD false) k (clear_basic_blocks k s).2 <;> rfl

theorem mark_critical_raising_raises (oracle : Option Nat → Option Bool)
    (l : List Instruction) (s : DeadCode) (ins : Instruction) (hin : ins ∈ l)
    (hr : is_critical_raising oracle ins = none) : mark_critical_raising oracle l s = none := by
  induction l generalizing s with
  | nil => exact absurd hin (List.not_mem_nil _)
  | cons a l ih =>
    unfold mark_critical_raising
    cases h : is_critical_raising oracle a with
    | none => rfl
    | some c =>
      simp only
      rcases List.mem_cons.1 hin with he | he
      · rw [he, h] at hr
        exact absurd hr (by simp)
      · exact ih _ he

theorem run_function_raising_raises (oracle : Option Nat → Option Bool) (k : Nat)
    (s : DeadCode) (func : Function) (bb : BasicBlock) (ins : Instruction)
    (hk : s.m_.functions[k]? = some func)
    (hbnd : (func.basic_blocks.map BasicBlock.id).Nodup) (hbb : bb ∈ func.basic_blocks)
    (hlive : is_dead_block func bb = false) (hins : ins ∈ bb.instructions)
    (hr : is_critical_raising oracle ins = none) :
    run_function_raising oracle k s = Outcome.raised := by
  have hk1 : (clear_basic_blocks k s).2.m_.functions[k]? = some (Function.erase_basic_blocks
      ((func.basic_blocks.filter (is_dead_block func)).map BasicBlock.id) func) := by
    rw [clear_basic_blocks_m_ k s func hk]
    simp only [modify_function_getElem?_self, hk]
    rfl
  have hmem : ins ∈ (Function.erase_basic_blocks
      ((func.basic_blocks.filter (is_dead_block func)).map BasicBlock.id)
      func).get_instructions := by
    refine (mem_get_instructions _ _).2 ⟨bb, ?_, hins⟩
    refine List.mem_filter.2 ⟨hbb, ?_⟩
    simp only [decide_eq_true_eq]
    intro hd
    have := (mem_dead_ids_iff func hbnd bb hbb).1 hd
    rw [hlive] at this
    exact Bool.false_ne_true this
  unfold run_function_raising mark_raising
  simp only [hk1, mark_critical_raising_raises oracle _ _ ins hmem hr]

theorem run_function_getElem?_ne (fi : Option Nat → Bool) (j k : Nat) (s : DeadCode)
    (r : Bool × DeadCode) (h : run_function fi j s = some r) (hjk : k ≠ j) :
    r.2.m_.functions[k]? = s.m_.functions[k]? := by
  unfold run_function at h
  cases hm : mark fi j (clear_basic_blocks j s).2 with
  | none => simp [hm] at h
  | some s2 =>
    simp only [hm, Option.some.injEq] at h
    rw [← h]
    simp only
    rw [sweep_getElem?_ne j k s2 hjk, (mark_m_ fi j _ s2 hm).1]
    cases hj : s.m_.functions[j]? with
    | none => simp only [clear_basic_blocks, hj]
    | some f =>
      rw [clear_basic_blocks_m_ j s f hj]
      exact modify_function_getElem?_ne _ _ _ _ hjk

theorem run_functions_raising_raises (oracle : Option Nat → Option Bool) (k : Nat)
    (func : Function) (bb : BasicBlock) (ins : Instruction)
    (hbnd : (func.basic_blocks.map BasicBlock.id).Nodup) (hbb : bb ∈ func.basic_blocks)
    (hlive : is_dead_block func bb = false) (hins : ins ∈ bb.instructions)
    (hr : is_critical_raising oracle ins = none) (ks : List Nat) (c : Bool) (s : DeadCode)
    (hks : ∀ j ∈ ks, j < s.m_.functions.length) (hkin : k ∈ ks)
    (hk : s.m_.functions[k]? = some func) :
    run_functions_raising oracle ks c s = Outcome.raised := by
  induction ks generalizing c s with
  | nil => exact absurd hkin (List.not_mem_nil _)
  | cons j ks ih =>
    unfold run_functions_raising
    by_cases hjk : j = k
    · subst hjk
      rw [run_function_raising_raises oracle j s func bb ins hk hbnd hbb hlive hins hr]
    · rcases run_function_raising_cases oracle j s with h | h
      · rw [h]
      · obtain ⟨r, hr1⟩ := run_function_total (fun c => (oracle c).getD false) j s
          (hks j (List.mem_cons_self _ _))
        rw [h, hr1]
        simp only [Outcome.of_option]
        apply ih
        · intro i hi
          rw [(run_function_size _ j s r hr1).2.2]
          exact hks i (List.mem_cons_of_mem _ hi)
        · rcases List.mem_cons.1 hkin with he | he
          · exact absurd he.symm hjk
          · exact he
        · rw [run_function_getElem?_ne _ j k s r hr1 (fun he => hjk he.symm)]
          exact hk

theorem run_raising_raises (oracle : Option Nat → Option Bool) (self : DeadCode) (k : Nat)
    (func : Function) (bb : BasicBlock) (ins : Instruction)
    (hk : self.m_.functions[k]? = some func)
    (hbnd : (func.basic_blocks.map BasicBlock.id).Nodup) (hbb : bb ∈ func.basic_blocks)
    (hlive : is_dead_block func bb = false) (hins : ins ∈ bb.instructions)
    (hr : is_critical_raising oracle ins = none) :
    run_raising oracle self = Outcome.raised := by
  have hlt : k < self.m_.functions.length := (List.getElem?_eq_some.1 hk).1
  unfold run_raising run_loop_raising run_round_raising
  rw [run_functions_raising_raises oracle k func bb ins hbnd hbb hlive hins hr _ false self
    (fun _ hj => List.mem_range.1 hj) (List.mem_range.2 hlt) hk]

/-- Claim C16, as amended: for a call whose operand 0 is not a function,
`is_critical` makes no test of its own: the callee is the null pointer, the
purity analysis is asked about it, and `is_critical` raises exactly when the
analysis does; otherwise the call is classified by the negation of the
answer. When the analysis never raises, `run` returns on every module. When
the analysis raises on the null pointer, `run` raises on every module in
which the call is in a block that is the entry block or has a predecessor;
a call in a block that `clear_basic_blocks` removes first is not looked
at. -/
theorem is_critical_raises_with_oracle (is_pure_function : Option Nat → Option Bool)
    (ins : Instruction) (v : Value) (hcall : ins.op = OpID.call)
    (hop : ins.operands[0]? = some v) (hnull : ∀ f, v ≠ Value.function f) :
    ins.get_callee = none ∧
    is_critical_raising is_pure_function ins = (is_pure_function none).map (fun p => !p) ∧
    (∀ fi : Option Nat → Bool, (∀ c, is_pure_function c = some (fi c)) →
      is_critical_raising is_pure_function ins = some (!(fi none)) ∧
      ∀ self : DeadCode, ∃ s', run fi self = some s' ∧
        run_raising is_pure_function self = Outcome.done s') ∧
    (is_pure_function none = none →
      is_critical_raising is_pure_function ins = none ∧
      ∀ (self : DeadCode) (k : Nat) (func : Function) (bb : BasicBlock),
        self.m_.functions[k]? = some func → (func.basic_blocks.map BasicBlock.id).Nodup →
        bb ∈ func.basic_blocks → ins ∈ bb.instructions →
        (bb.id = func.entry_block ∨ func.get_pre_basic_blocks bb ≠ []) →
        run_raising is_pure_function self = Outcome.raised) := by
  have hcallee : ins.get_callee = none := by
    apply get_callee_eq_none
    intro f hf
    rw [hop] at hf
    exact hnull f (Option.some.inj hf)
  have hcrit : is_critical_raising is_pure_function ins =
      (is_pure_function none).map (fun p => !p) := by
    obtain ⟨id, op, operands⟩ := ins
    simp only at hcall
    subst hcall
    simp only [is_critical_raising, Instruction.is_call, beq_self_eq_true, if_true, hcallee]
    cases is_pure_function none with
    | none => rfl
    | some p => cases p <;> rfl
  refine ⟨hcallee, hcrit, ?_, ?_⟩
  · intro fi hfi
    refine ⟨by rw [hcrit, hfi]; rfl, ?_⟩
    intro self
    obtain ⟨s', hs'⟩ := run_total fi self
    refine ⟨s', hs', ?_⟩
    have : is_pure_function = fun c => some (fi c) := funext hfi
    rw [this, run_raising_total, hs']
    rfl
  · intro hraise
    have hr : is_critical_raising is_pure_function ins = none := by rw [hcrit, hraise]; rfl
    refine ⟨hr, ?_⟩
    intro self k func bb hk hbnd hbb hins hkept
    apply run_raising_raises is_pure_function self k func bb ins hk hbnd hbb ?_ hins hr
    simp only [is_dead_block, Bool.and_eq_false_iff, List.isEmpty_eq_false, bne_eq_false_iff_eq,
      ne_eq]
    rcases hkept with h | h
    · exact Or.inr h
    · exact Or.inl h

/-- Claim C16 as amended, at the malformed-call example with a purity analysis
that raises on the null pointer: `is_critical` raises on the call 1, which is
in the entry block, and so does `run`. -/
theorem is_critical_raises_with_oracle_witness :
    (({ id := 1, op := OpID.call, operands := [Value.argument 7] } : Instruction).op =
      OpID.call) ∧
    ({ id := 1, op := OpID.call, operands := [Value.argument 7] } : Instruction).operands[0]? =
      some (Value.argument 7) ∧
    (∀ f, Value.argument 7 ≠ Value.function f) ∧
    run_raising raising_oracle malformed_pass = Outcome.raised ∧
    (Instruction.get_callee { id := 1, op := OpID.call, operands := [Value.argument 7] } =
      none ∧
    is_critical_raising raising_oracle
        { id := 1, op := OpID.call, operands := [Value.argument 7] } =
      (raising_oracle none).map (fun p => !p) ∧
    (∀ fi : Option Nat → Bool, (∀ c, raising_oracle c = some (fi c)) →
      is_critical_raising raising_oracle
          { id := 1, op := OpID.call, operands := [Value.argument 7] } = some (!(fi none)) ∧
      ∀ self : DeadCode, ∃ s', run fi self = some s' ∧
        run_raising raising_oracle self = Outcome.done s') ∧
    (raising_oracle none = none →
      is_critical_raising raising_oracle
          { id := 1, op := OpID.call, operands := [Value.argument 7] } = none ∧
      ∀ (self : DeadCode) (k : Nat) (func : Function) (bb : BasicBlock),
        self.m_.functions[k]? = some func → (func.basic_blocks.map BasicBlock.id).Nodup →
        bb ∈ func.basic_blocks →
        ({ id := 1, op := OpID.call, operands := [Value.argument 7] } : Instruction) ∈
          bb.instructions →
        (bb.id = func.entry_block ∨ func.get_pre_basic_blocks bb ≠ []) →
        run_raising raising_oracle self = Outcome.raised)) :=
  ⟨rfl, rfl, fun _ h => Value.noConfusion h, by decide,
    is_critical_raises_with_oracle raising_oracle
      { id := 1, op := OpID.call, operands := [Value.argument 7] } (Value.argument 7)
      rfl rfl (fun _ h => Value.noConfusion h)⟩

/-- Claim C16 as stated fails in two ways. With a purity analysis that answers
"not pure" on the null pointer, `is_critical` classifies the call 1 of the
malformed-call example, whose operand 0 is an argument, as critical, and
`run` returns with the call in place. With a purity analysis that raises on
the null pointer, `is_critical` raises on such a call, yet `run` returns on
the discarded-call example, which contains one: block 12 is removed before
`mark` looks at its instructions. -/
theorem run_raising_accepts_malformed_call :
    is_critical_raising (fun c => some (example_oracle c))
        { id := 1, op := OpID.call, operands := [Value.argument 7] } = some true ∧
    (run_raising (fun c => some (example_oracle c)) malformed_pass).returned.map
      (fun s' => s'.m_.get_instructions.map Instruction.id) = some [1, 2] ∧
    is_critical_raising raising_oracle
        { id := 1, op := OpID.call, operands := [Value.argument 7] } = none ∧
    ({ id := 1, op := OpID.call, operands := [Value.argument 7] } : Instruction) ∈
      discarded_call_pass.m_.get_instructions ∧
    (run_raising raising_oracle discarded_call_pass).returned.map
      (fun s' => s'.m_.get_instructions.map Instruction.id) = some [2] := by
  refine ⟨by decide, by decide, by decide, by decide, by decide⟩

theorem Prunable.of_edge {func : Function} {p b : Nat} (h : Prunable func b)
    (he : BlockEdge func p b) : Prunable func p := by
  cases h with
  | intro _ _ hpred =>
    obtain ⟨pb, hpb, hpid, hsucc, _⟩ := he
    rw [← hpid]
    exact hpred pb hpb hsucc

theorem Prunable.of_reaches {func : Function} {c b : Nat} (h : Prunable func b)
    (hr : Relation.ReflTransGen (BlockEdge func) c b) : Prunable func c := by
  induction hr with
  | refl => exact h
  | tail _ he ih => exact ih (h.of_edge he)

theorem Prunable.not_on_cycle {func : Function} {c : Nat} (h : Prunable func c) :
    ¬ Relation.TransGen (BlockEdge func) c c := by
  induction h with
  | intro b _ _ ih =>
    intro hc
    obtain ⟨p, hbp, hpb⟩ := Relation.TransGen.tail'_iff.1 hc
    obtain ⟨pb, hpbm, hpid, hsucc, hx⟩ := hpb
    apply ih pb hpbm hsucc
    rw [hpid]
    exact Relation.TransGen.head' ⟨pb, hpbm, hpid, hsucc, hx⟩ hbp

/-- Claim C12, as amended: `run` returns on every module, and afterwards every
block that remains in a function is reached along successor edges from the
entry block of the function or from a block on a cycle of remaining blocks.
Blocks without a predecessor are removed, round after round; blocks that
only reach each other, and the blocks reached from them, stay: on a module
with distinct addresses, every block that is reached from the entry block
or from a block on a cycle in the function as it was before the run is
still in the function after it. -/
theorem run_blocks_reached (is_pure_function : Option Nat → Bool) (self : DeadCode) :
    ∃ s', run is_pure_function self = some s' ∧
      (∀ (k : Nat) (func' : Function), s'.m_.functions[k]? = some func' →
        ∀ bb ∈ func'.basic_blocks,
          Relation.ReflTransGen (BlockEdge func') func'.entry_block bb.id ∨
          ∃ c, Relation.TransGen (BlockEdge func') c c ∧
            Relation.ReflTransGen (BlockEdge func') c bb.id) ∧
      (self.m_.WellFormed →
        ∀ (k : Nat) (func func' : Function), self.m_.functions[k]? = some func →
          s'.m_.functions[k]? = some func' →
          ∀ bb ∈ func.basic_blocks,
            (Relation.ReflTransGen (BlockEdge func) func.entry_block bb.id ∨
              ∃ c, Relation.TransGen (BlockEdge func) c c ∧
                Relation.ReflTransGen (BlockEdge func) c bb.id) →
            bb.id ∈ func'.basic_blocks.map BasicBlock.id) := by
  obtain ⟨s', hs'⟩ := run_total is_pure_function self
  refine ⟨s', hs', fun k func' hk bb hbb => ?_, ?_⟩
  · apply reach_or_cycle (BlockEdge func') (func'.basic_blocks.map BasicBlock.id)
    · intro x hx
      obtain ⟨xb, hxb, hxid⟩ := List.mem_map.1 hx
      rw [← hxid]
      exact not_dead_block_pred func' xb hxb
        (run_final_no_dead is_pure_function self s' hs' k func' hk xb hxb)
    · exact List.mem_map.2 ⟨bb, hbb, rfl⟩
  · intro hwf k func func' hk hk' bb hbb hreach
    by_contra hgone
    have hpr := ((run_pruneInv is_pure_function self s' hwf hs').2 k func func' hk hk' bb hbb
      hgone).1
    rcases hreach with h | ⟨c, hc, hcb⟩
    · exact hpr.not_reached h
    · exact (hpr.of_reaches hcb).not_on_cycle hc

end DCE
